import Mathlib

/-!
# Verification of `os_display` (shell quoting/escaping)

A shallow embedding of the `os_display` crate: the PowerShell encoder
(`src/windows.rs`) and the dispatch layer (`src/lib.rs`), together with the
Unicode classification helpers and the POSIX encoder, which are referenced by
the sources but whose defining file (`src/unix.rs` and the classifier
portion of `lib.rs`) is not present; those are modelled from the
specification, and each such definition says so in its doc comment.

Strings are embedded as `List Char` (Lean `Char` is a Unicode scalar value,
exactly Rust's `char`); raw byte buffers as `List Nat` of values < 256 and
raw UTF-16 buffers as `List Nat` of values < 65536.
-/

namespace OsDisplay

/-! ## Spec-modelled Unicode classifiers (code not present under `src/`) -/

/-- Modelled from the spec: `isBidiControl(cp)` — "true for explicit
bidirectional formatting characters (e.g., embedding/override/isolate
controls, range U+202A–U+202E, U+2066–U+2069, U+200E–U+200F)".
The function `crate::is_bidi` is referenced by `src/windows.rs` but its
defining code is not under `src/`. -/
def is_bidi (c : Char) : Bool :=
  (0x202A ≤ c.toNat && c.toNat ≤ 0x202E) ||
  (0x2066 ≤ c.toNat && c.toNat ≤ 0x2069) ||
  c.toNat == 0x200E || c.toNat == 0x200F

/-- Modelled from the spec: `requiresEscape(cp)` — "true for code points that
are non-printable, unassigned, or format characters unsafe to print to a
terminal verbatim". The function `crate::requires_escape` is referenced by
`src/windows.rs` but its defining code is not under `src/`. The model
comprises the C0 controls, DEL, the C1 controls and the noncharacters; it
includes the ASCII controls because the repository's own test
`"foo\x02"` → `"foo`u{02}"` (src/lib.rs) requires `\x02` to take the
`u-escape arm of `write_escaped`, and it excludes the bidi controls, which
the sources classify separately via `is_bidi`. -/
def requires_escape (c : Char) : Bool :=
  c.toNat < 0x20 || c.toNat == 0x7F ||
  (0x80 ≤ c.toNat && c.toNat ≤ 0x9F) ||
  (0xFDD0 ≤ c.toNat && c.toNat ≤ 0xFDEF) ||
  (c.toNat % 0x10000 == 0xFFFE) || (c.toNat % 0x10000 == 0xFFFF)

/-- Does the character open a bidirectional embedding, override or isolate
(LRE, RLE, LRO, RLO, LRI, RLI, FSI)? Helper for the spec-modelled
`is_suspicious_bidi`. -/
def bidiOpen (c : Char) : Bool :=
  c.toNat == 0x202A || c.toNat == 0x202B || c.toNat == 0x202D ||
  c.toNat == 0x202E || c.toNat == 0x2066 || c.toNat == 0x2067 ||
  c.toNat == 0x2068

/-- Does the character close a bidirectional embedding/override/isolate
(PDF, PDI)? Helper for the spec-modelled `is_suspicious_bidi`. -/
def bidiClose (c : Char) : Bool :=
  c.toNat == 0x202C || c.toNat == 0x2069

/-- Nesting-depth walk for `is_suspicious_bidi`: returns `true` (suspicious)
if a close appears at depth zero or the depth is nonzero at the end. -/
def susBidiAux : List Char → Nat → Bool
  | [], d => d ≠ 0
  | c :: cs, d =>
    if bidiOpen c then susBidiAux cs (d + 1)
    else if bidiClose c then
      match d with
      | 0 => true
      | d' + 1 => susBidiAux cs d'
    else susBidiAux cs d

/-- Modelled from the spec: `isSuspiciousBidi(text)` — "true if the text …
would visually reorder content in a way that could hide malicious content …
(e.g., an override that is never closed, or nesting depth that does not
return to zero by the end of the string)". The function
`crate::is_suspicious_bidi` is referenced by `src/windows.rs` but its
defining code is not under `src/`. -/
def is_suspicious_bidi (text : List Char) : Bool :=
  susBidiAux text 0

/-- Modelled from the external `unicode_width` crate (used by
`src/windows.rs` as `first.width().unwrap_or(0) == 0`; the spec calls this
"a character with zero display width (e.g., a combining mark or zero-width
character)"). `width()` is `None` on control characters, so those also
report zero here. -/
def width_zero (c : Char) : Bool :=
  c.toNat < 0x20 || c.toNat == 0x7F ||
  (0x80 ≤ c.toNat && c.toNat ≤ 0x9F) ||
  (0x300 ≤ c.toNat && c.toNat ≤ 0x36F) ||
  (0x200B ≤ c.toNat && c.toNat ≤ 0x200F) ||
  (0x202A ≤ c.toNat && c.toNat ≤ 0x202E) ||
  (0x2060 ≤ c.toNat && c.toNat ≤ 0x2064) ||
  (0x2066 ≤ c.toNat && c.toNat ≤ 0x2069) ||
  c.toNat == 0xFEFF

/-! ## `src/windows.rs`: constants and the `unicode` module -/

/-- `src/windows.rs`: `SPECIAL_SHELL_CHARS`. -/
def SPECIAL_SHELL_CHARS : List Char := "|&;<>()$`\"'*?[]=,{} ".toList

/-- `src/windows.rs`: `SPECIAL_SHELL_CHARS_START`. -/
def SPECIAL_SHELL_CHARS_START : List Char := ['~', '#', '@', '!']

/-- `src/windows.rs`: `DOUBLE_UNSAFE`. -/
def DOUBLE_UNSAFE : List Char := ['"', '`', '$']

namespace unicode

/-- `src/windows.rs` `unicode::is_separator`: the Unicode space/line/paragraph
separators, hardcoded as in the source. -/
def is_separator (c : Char) : Bool :=
  c.toNat == 0x0020 || c.toNat == 0x00A0 || c.toNat == 0x1680 ||
  (0x2000 ≤ c.toNat && c.toNat ≤ 0x200A) ||
  c.toNat == 0x2028 || c.toNat == 0x2029 || c.toNat == 0x202F ||
  c.toNat == 0x205F || c.toNat == 0x3000

/-- `src/windows.rs` `unicode::is_whitespace`: PowerShell's whitespace set. -/
def is_whitespace (c : Char) : Bool :=
  c == ' ' || c == '\t' || c == '\x0B' || c == '\x0C' ||
  c == ' ' || c == '\u0085' || is_separator c

/-- `src/windows.rs` `unicode::is_dash`. -/
def is_dash (c : Char) : Bool :=
  c == '-' || c == '–' || c == '—' || c == '―'

/-- `src/windows.rs` `unicode::is_single_quote`. -/
def is_single_quote (c : Char) : Bool :=
  c == '\'' || c == '‘' || c == '’' || c == '‚' || c == '‛'

/-- `src/windows.rs` `unicode::is_double_quote`. -/
def is_double_quote (c : Char) : Bool :=
  c == '"' || c == '“' || c == '”' || c == '„'

end unicode

/-! ## Hex formatting (Rust `{:02X}` / `{:04X}`) -/

/-- One uppercase hexadecimal digit. -/
def hexDigit (n : Nat) : Char :=
  if n < 10 then Char.ofNat (48 + n) else Char.ofNat (55 + n)

/-- Digit accumulator for `toHex`; the fuel is structural so that the kernel
can evaluate it (it never runs out: `n` itself is always enough fuel). -/
def toHexAux : Nat → Nat → List Char → List Char
  | 0, n, acc => hexDigit n :: acc
  | fuel + 1, n, acc =>
    if n < 16 then hexDigit n :: acc
    else toHexAux fuel (n / 16) (hexDigit (n % 16) :: acc)

/-- Uppercase hexadecimal digits of `n`, most significant first, no leading
zeros (`[0]` for zero). -/
def toHex (n : Nat) : List Char :=
  toHexAux n n []

/-- Rust's `{:0wX}` formatting: uppercase hex, zero-padded on the left to a
minimum width `w`. -/
def hexPad (w n : Nat) : List Char :=
  List.replicate (w - (toHex n).length) '0' ++ toHex n

/-! ## `src/windows.rs`: the classification scan of `write` -/

/-- The four mutable flags of `windows::write`'s scan loop. -/
structure ScanState where
  is_single_safe : Bool
  is_double_safe : Bool
  requires_quote : Bool
  is_bidi : Bool
  deriving Repr, DecidableEq

/-- One iteration of the `for ch in text.chars()` loop of `windows::write`
(src/windows.rs lines 71–105). `none` models the early
`return write_escaped(..)`. -/
def scanStep (st : ScanState) (ch : Char) : Option ScanState :=
  if ch.toNat < 128 then
    let st := if ch = '\'' then { st with is_single_safe := false } else st
    let st := if st.is_double_safe && DOUBLE_UNSAFE.contains ch then
                { st with is_double_safe := false } else st
    let st := if !st.requires_quote && SPECIAL_SHELL_CHARS.contains ch then
                { st with requires_quote := true } else st
    if ch.toNat < 0x20 || ch.toNat == 0x7F then none else some st
  else
    let st := if !st.requires_quote && unicode.is_whitespace ch then
                { st with requires_quote := true } else st
    let st := if (!st.requires_quote || st.is_double_safe) && unicode.is_double_quote ch then
                { st with is_double_safe := false, requires_quote := true } else st
    let st := if (!st.requires_quote || st.is_single_safe) && unicode.is_single_quote ch then
                { st with is_single_safe := false, requires_quote := true } else st
    let st := if is_bidi ch then { st with is_bidi := true } else st
    if requires_escape ch then none else some st

/-- The whole scan loop of `windows::write`; `none` when the loop returned
early into `write_escaped`. -/
def scanChars (st : ScanState) : List Char → Option ScanState
  | [] => some st
  | ch :: rest =>
    match scanStep st ch with
    | none => none
    | some st' => scanChars st' rest

/-- Byte length of the UTF-8 encoding, Rust's `str::len` (`windows::write`
compares `text.len() > 1`). -/
def utf8Len (text : List Char) : Nat :=
  (text.map Char.utf8Size).sum

/-- The first-character inspection of `windows::write` (src/windows.rs lines
29–69): the value of `requires_quote` after the `if !requires_quote` block,
given that it started out `false`. An empty string forces quoting. -/
def startQuote (text : List Char) : Bool :=
  match text with
  | [] => true
  | first :: rest =>
    if SPECIAL_SHELL_CHARS_START.contains first then true
    else if first.isDigit then true
    else if first = '.' && (match rest with
                            | second :: _ => second.isDigit
                            | [] => false) then true
    else if unicode.is_dash first && utf8Len text > 1 then true
    else if width_zero first then true
    else false

/-! ## `src/windows.rs`: the emitters -/

/-- `src/windows.rs` `write_simple`: the text between two copies of `quote`. -/
def write_simple (quote : Char) (text : List Char) : List Char :=
  quote :: text ++ [quote]

/-- `src/windows.rs` `write_single_escaped`: wrap in single quotes and insert
a `'` immediately before every single-quote-like character. (The source
walks `match_indices(is_single_quote)`, emitting the run before each match,
then `'`, then resumes at the match — i.e. exactly one inserted `'` per
matching character, everything else copied verbatim.) -/
def write_single_escaped (text : List Char) : List Char :=
  '\'' :: (text.map fun c =>
    if unicode.is_single_quote c then ['\'', c] else [c]).flatten ++ ['\'']

/-- The per-character arm of `write_escaped`'s `match` for an `Ok(ch)`
(src/windows.rs lines 162–188), in source order. -/
def escapeChar (c : Char) : List Char :=
  if c = '\x00' then ['`', '0']
  else if c = '\x0D' then ['`', 'r']
  else if c = '\x0A' then ['`', 'n']
  else if c = '\x09' then ['`', 't']
  else if c = '\x07' then ['`', 'a']
  else if c = '\x08' then ['`', 'b']
  else if c = '\x0B' then ['`', 'v']
  else if c = '\x0C' then ['`', 'f']
  else if requires_escape c || is_bidi c then
    ['`', 'u', '{'] ++ hexPad 2 c.toNat ++ ['}']
  else if c = '`' then ['`', '`']
  else if c = '$' then ['`', '$']
  else if unicode.is_double_quote c then ['`', c]
  else [c]

/-- One item of `write_escaped`'s input iterator: `Ok(ch)` is `Sum.inl`,
`Err(unit)` (an unpaired surrogate code unit) is `Sum.inr`. -/
def escapeItem : Char ⊕ Nat → List Char
  | Sum.inl c => escapeChar c
  | Sum.inr u => ['`', 'u', '{'] ++ hexPad 4 u ++ ['}']

/-- `src/windows.rs` `write_escaped`: a double-quoted backtick-escaped
literal, one emission per input item. -/
def write_escaped (s : List (Char ⊕ Nat)) : List Char :=
  '"' :: (s.map escapeItem).flatten ++ ['"']

/-- `src/windows.rs` `write`, parametrised by the suspicious-bidi predicate
(whose defining code is not under `src/`; see `is_suspicious_bidi`).
`write` below instantiates it. -/
def writeWith (sbidi : List Char → Bool) (text : List Char) (force_quote : Bool) :
    List Char :=
  let rq0 := if force_quote then true else startQuote text
  match scanChars ⟨true, true, rq0, false⟩ text with
  | none => write_escaped (text.map Sum.inl)
  | some st =>
    if st.is_bidi && sbidi text then write_escaped (text.map Sum.inl)
    else if !st.requires_quote then text
    else if st.is_single_safe then write_simple '\'' text
    else if st.is_double_safe then write_simple '"' text
    else write_single_escaped text

/-- `src/windows.rs` `write`. -/
def write (text : List Char) (force_quote : Bool) : List Char :=
  writeWith is_suspicious_bidi text force_quote

/-! ## UTF-8 and UTF-16 codecs (Rust `str::from_utf8`,
`String::from_utf16`, `core::char::decode_utf16`) -/

/-- Is the byte a UTF-8 continuation byte? -/
def isCont (b : Nat) : Bool := 0x80 ≤ b && b ≤ 0xBF

/-- The UTF-8 encoding of one scalar value (Rust `char::encode_utf8`). -/
def utf8EncodeChar (c : Char) : List Nat :=
  let n := c.toNat
  if n < 0x80 then [n]
  else if n < 0x800 then [0xC0 + n / 0x40, 0x80 + n % 0x40]
  else if n < 0x10000 then
    [0xE0 + n / 0x1000, 0x80 + (n / 0x40) % 0x40, 0x80 + n % 0x40]
  else
    [0xF0 + n / 0x40000, 0x80 + (n / 0x1000) % 0x40,
     0x80 + (n / 0x40) % 0x40, 0x80 + n % 0x40]

/-- The UTF-8 encoding of a string (Rust `str::as_bytes`). -/
def utf8Encode (s : List Char) : List Nat :=
  (s.map utf8EncodeChar).flatten

/-- Strict decoding of one UTF-8 scalar from the front of a byte list,
rejecting overlong forms and surrogates (the validation rules of Rust's
`str::from_utf8`). Returns the scalar and the remaining bytes. -/
def utf8DecodeOne : List Nat → Option (Char × List Nat)
  | [] => none
  | b :: rest =>
    if b < 0x80 then some (Char.ofNat b, rest)
    else if 0xC2 ≤ b && b ≤ 0xDF then
      match rest with
      | c :: rest' =>
        if isCont c then some (Char.ofNat ((b - 0xC0) * 0x40 + (c - 0x80)), rest')
        else none
      | [] => none
    else if 0xE0 ≤ b && b ≤ 0xEF then
      match rest with
      | c :: d :: rest' =>
        let okc := if b == 0xE0 then 0xA0 ≤ c && c ≤ 0xBF
                   else if b == 0xED then 0x80 ≤ c && c ≤ 0x9F
                   else isCont c
        if okc && isCont d then
          some (Char.ofNat ((b - 0xE0) * 0x1000 + (c - 0x80) * 0x40 + (d - 0x80)), rest')
        else none
      | _ => none
    else if 0xF0 ≤ b && b ≤ 0xF4 then
      match rest with
      | c :: d :: e :: rest' =>
        let okc := if b == 0xF0 then 0x90 ≤ c && c ≤ 0xBF
                   else if b == 0xF4 then 0x80 ≤ c && c ≤ 0x8F
                   else isCont c
        if okc && isCont d && isCont e then
          some (Char.ofNat ((b - 0xF0) * 0x40000 + (c - 0x80) * 0x1000 +
                            (d - 0x80) * 0x40 + (e - 0x80)), rest')
        else none
      | _ => none
    else none

/-- Whole-buffer strict UTF-8 decoding (Rust `str::from_utf8`), with
structural fuel so the kernel can evaluate it; `utf8DecodeOne` consumes at
least one byte per step, so `bytes.length` is always enough fuel. -/
def utf8DecodeAux : Nat → List Nat → Option (List Char)
  | _, [] => some []
  | 0, _ :: _ => none
  | fuel + 1, bs =>
    match utf8DecodeOne bs with
    | some (c, rest) => (utf8DecodeAux fuel rest).map (c :: ·)
    | none => none

/-- Rust `str::from_utf8`: `some` exactly on valid UTF-8. -/
def utf8Decode (bytes : List Nat) : Option (List Char) :=
  utf8DecodeAux bytes.length bytes

/-- Rust `core::char::decode_utf16`, with structural fuel for kernel
evaluation (at least one unit is consumed per step, so `units.length` is
always enough): each item is a decoded scalar (`Sum.inl`) or an unpaired
surrogate code unit (`Sum.inr`, Rust's
`DecodeUtf16Error::unpaired_surrogate`). -/
def decodeUtf16Aux : Nat → List Nat → List (Char ⊕ Nat)
  | 0, _ => []
  | _, [] => []
  | fuel + 1, u :: rest =>
    if u < 0xD800 || 0xDFFF < u then
      Sum.inl (Char.ofNat u) :: decodeUtf16Aux fuel rest
    else if 0xDC00 ≤ u then Sum.inr u :: decodeUtf16Aux fuel rest
    else
      match rest with
      | [] => [Sum.inr u]
      | v :: rest' =>
        if 0xDC00 ≤ v && v ≤ 0xDFFF then
          Sum.inl (Char.ofNat (0x10000 + (u - 0xD800) * 0x400 + (v - 0xDC00)))
            :: decodeUtf16Aux fuel rest'
        else Sum.inr u :: decodeUtf16Aux fuel (v :: rest')

/-- Rust `core::char::decode_utf16` over a whole buffer. -/
def decodeUtf16 (units : List Nat) : List (Char ⊕ Nat) :=
  decodeUtf16Aux units.length units

/-- The UTF-16 encoding of a string (Rust `str::encode_utf16` /
`OsStr::encode_wide`). -/
def utf16EncodeChar (c : Char) : List Nat :=
  let n := c.toNat
  if n < 0x10000 then [n]
  else [0xD800 + (n - 0x10000) / 0x400, 0xDC00 + (n - 0x10000) % 0x400]

/-- UTF-16 encoding of a whole string. -/
def utf16Encode (s : List Char) : List Nat :=
  (s.map utf16EncodeChar).flatten

/-- Succeeds iff no item is an unpaired surrogate. -/
def collectOk : List (Char ⊕ Nat) → Option (List Char)
  | [] => some []
  | Sum.inl c :: rest => (collectOk rest).map (c :: ·)
  | Sum.inr _ :: _ => none

/-- Rust `String::from_utf16`: `some` exactly when every code unit pairs up. -/
def fromUtf16 (units : List Nat) : Option (List Char) :=
  collectOk (decodeUtf16 units)

/-! ## Spec-modelled POSIX encoder (`src/unix.rs` is not under `src/`)

The spec (§4.4) prescribes "the same two-phase shape … as 4.2–4.3,
specialized to POSIX shell grammar", and the repository's own Unix tests in
`src/lib.rs` pin the concrete outputs used below. -/

/-- Modelled from the spec: the POSIX shell-significant characters that
force quoting anywhere in the string (§4.4's word splitting, glob
characters, expansion characters; fixed so that the repository's
`UNIX_MAYBE`/`BOTH_MAYBE` tests hold: `,` and `-` are not special on POSIX,
`\` `!` `{` `}` are). -/
def UNIX_SPECIAL_SHELL_CHARS : List Char := "|&;<>()$`\\\"'*?[]= !{}".toList

/-- Modelled from the spec: POSIX leading-character sensitivity (`~` tilde
expansion and `#` comments are special only at the start of a word; the
zero-display-width rule is shared with the PowerShell encoder; the empty
string is always quoted). -/
def unixStartQuote (text : List Char) : Bool :=
  match text with
  | [] => true
  | first :: _ => first = '~' || first = '#' || width_zero first

/-- Modelled from the spec: non-ASCII whitespace under POSIX rules (Rust
`char::is_whitespace` on the non-ASCII range). -/
def unixIsWhitespaceNonAscii (c : Char) : Bool :=
  c.toNat == 0x85 || c.toNat == 0xA0 || unicode.is_separator c

/-- Modelled from the spec and the repository's `BOTH_ALWAYS` test
(`can't` → `"can't"` on both dialects): characters unsafe inside POSIX
double quotes (`$`, backtick and `\` still expand there, §4.4). -/
def UNIX_DOUBLE_UNSAFE : List Char := ['"', '`', '$', '\\']

/-- The classification flags of the spec-modelled POSIX scan. -/
structure UnixScanState where
  is_single_safe : Bool
  is_double_safe : Bool
  requires_quote : Bool
  is_bidi : Bool
  deriving Repr, DecidableEq

/-- Modelled from the spec: one step of the POSIX classification scan,
mirroring the PowerShell scan's shape (`none` = switch to the ANSI-C
escaped path on any ASCII control or `requiresEscape` code point). POSIX
shells recognise only the ASCII quotes, so no confusable tracking here. -/
def unixScanStep (st : UnixScanState) (ch : Char) : Option UnixScanState :=
  if ch.toNat < 128 then
    let st := if ch = '\'' then { st with is_single_safe := false } else st
    let st := if st.is_double_safe && UNIX_DOUBLE_UNSAFE.contains ch then
                { st with is_double_safe := false } else st
    let st := if !st.requires_quote && UNIX_SPECIAL_SHELL_CHARS.contains ch then
                { st with requires_quote := true } else st
    if ch.toNat < 0x20 || ch.toNat == 0x7F then none else some st
  else
    let st := if !st.requires_quote && unixIsWhitespaceNonAscii ch then
                { st with requires_quote := true } else st
    let st := if is_bidi ch then { st with is_bidi := true } else st
    if requires_escape ch then none else some st

/-- The whole spec-modelled POSIX scan. -/
def unixScanChars (st : UnixScanState) : List Char → Option UnixScanState
  | [] => some st
  | ch :: rest =>
    match unixScanStep st ch with
    | none => none
    | some st' => unixScanChars st' rest

/-- The runs of a string between its ASCII single quotes. -/
def splitQuotes : List Char → List (List Char)
  | [] => [[]]
  | c :: rest =>
    if c = '\'' then [] :: splitQuotes rest
    else
      match splitQuotes rest with
      | r :: rs => (c :: r) :: rs
      | [] => [[c]]

/-- A single-quoted group, elided when the run is empty (§4.4: "empty
leading/trailing runs are elided"). -/
def quoteRun (r : List Char) : List Char :=
  if r.isEmpty then [] else '\'' :: r ++ ['\'']

/-- Modelled from the spec (§4.4): POSIX quote-splitting — partition the
content at each embedded `'`, emit each nonempty run single-quoted, and a
backslash-escaped `\'` between runs (`'…'\''…'`). -/
def unixQuoteSplit (text : List Char) : List Char :=
  List.intercalate ['\\', '\''] ((splitQuotes text).map quoteRun)

/-- One emission of the spec-modelled POSIX ANSI-C escaped path: a verbatim
literal, a `\xHH` hex escape, or a named backslash escape. -/
inductive UnixEmit
  | lit (c : Char)
  | hex (n : Nat)
  | named (s : List Char)
  deriving Repr, DecidableEq

/-- Is the character an ASCII hexadecimal digit (Rust
`char::is_ascii_hexdigit`)? Decides the §4.4 group split after `\xHH`. -/
def isHexDigitChar (c : Char) : Bool :=
  c.isDigit || ('a' ≤ c && c ≤ 'f') || ('A' ≤ c && c ≤ 'F')

/-- Modelled from the spec (§4.4): the emissions for one decoded scalar on
the POSIX ANSI-C path: `\n \t \r \\` and `\'` as named escapes, every other
ASCII control (including NUL, cf. the repository test `$'foo…\x00`r'`) as a
`\xHH` byte escape, `requiresEscape`/bidi code points as the `\xHH` escapes
of their UTF-8 bytes, everything else verbatim. -/
def charEmits (c : Char) : List UnixEmit :=
  if c = '\n' then [.named ['\\', 'n']]
  else if c = '\t' then [.named ['\\', 't']]
  else if c = '\r' then [.named ['\\', 'r']]
  else if c = '\\' then [.named ['\\', '\\']]
  else if c = '\'' then [.named ['\\', '\'']]
  else if c.toNat < 0x20 || c.toNat == 0x7F then [.hex c.toNat]
  else if requires_escape c || is_bidi c then (utf8EncodeChar c).map .hex
  else [.lit c]

/-- Modelled from the spec (§4.3/§4.4 "decode-error-aware iteration"): walk
the bytes, decoding scalars where possible and emitting each invalid byte
as a `\xHH` escape. Fuel is structural for kernel evaluation; at least one
byte is consumed per step so `bytes.length` is always enough. -/
def unixEmits : Nat → List Nat → List UnixEmit
  | 0, _ => []
  | _, [] => []
  | fuel + 1, b :: rest =>
    match utf8DecodeOne (b :: rest) with
    | some (c, rest') => charEmits c ++ unixEmits fuel rest'
    | none => .hex b :: unixEmits fuel rest

/-- Modelled from the spec (§4.4): render the emissions inside `$'…'`,
closing and reopening the group (`'$'`) when a `\xHH` escape is immediately
followed by a literal ASCII hex digit (the hex-digit-ambiguity rule; the
repository tests `$'\x02'$'AB'`, `$'\x02GH'` and `$'foo\xFF'$'bar'` pin
this down). The boolean says whether the previous emission was `\xHH`. -/
def renderEmits : List UnixEmit → Bool → List Char
  | [], _ => []
  | .lit c :: rest, prevHex =>
    (if prevHex && isHexDigitChar c then ['\'', '$', '\''] else []) ++
      c :: renderEmits rest false
  | .hex n :: rest, _ => '\\' :: 'x' :: hexPad 2 n ++ renderEmits rest true
  | .named s :: rest, _ => s ++ renderEmits rest false

/-- Modelled from the spec (§4.4): the POSIX ANSI-C (`$'…'`) escaped path
over raw bytes (`unix::write_escaped` in the missing `src/unix.rs`). -/
def unix_write_escaped (bytes : List Nat) : List Char :=
  '$' :: '\'' :: renderEmits (unixEmits bytes.length bytes) false ++ ['\'']

/-- Modelled from the spec (§4.4): `unix::write`, parametrised by the
suspicious-bidi predicate like `writeWith`. -/
def unixWriteWith (sbidi : List Char → Bool) (text : List Char)
    (force_quote : Bool) : List Char :=
  let rq0 := if force_quote then true else unixStartQuote text
  match unixScanChars ⟨true, true, rq0, false⟩ text with
  | none => unix_write_escaped (utf8Encode text)
  | some st =>
    if st.is_bidi && sbidi text then unix_write_escaped (utf8Encode text)
    else if !st.requires_quote then text
    else if st.is_single_safe then write_simple '\'' text
    else if st.is_double_safe then write_simple '"' text
    else unixQuoteSplit text

/-- Modelled from the spec (§4.4): `unix::write` (the missing
`src/unix.rs`), the POSIX encoder over valid text. -/
def unixWrite (text : List Char) (force_quote : Bool) : List Char :=
  unixWriteWith is_suspicious_bidi text force_quote

/-! ## `src/lib.rs`: the `Quoted` dispatch layer -/

/-- `src/lib.rs` `Kind`: the four platform-independent source variants
(`NativeRaw` resolves to one of these per platform at compile time and is
not modelled separately). -/
inductive Kind
  | unix (text : List Char)
  | unixRaw (bytes : List Nat)
  | windows (text : List Char)
  | windowsRaw (units : List Nat)

/-- `src/lib.rs` `Quoted::fmt` (`impl Display for Quoted`): decode raw
sources where possible and dispatch to the matching encoder, degrading to
the escaped-literal path on invalid encoding. -/
def quotedFmt (k : Kind) (force_quote : Bool) : List Char :=
  match k with
  | .unix text => unixWrite text force_quote
  | .unixRaw bytes =>
    match utf8Decode bytes with
    | some text => unixWrite text force_quote
    | none => unix_write_escaped bytes
  | .windows text => write text force_quote
  | .windowsRaw units =>
    match fromUtf16 units with
    | some text => write text force_quote
    | none => write_escaped (decodeUtf16 units)

/-! ## Character-level views of the scans

`escapeTrigger`, `scanSpecial` and the `*Break` predicates name, per
character, the conditions the scan loops react to, so that each scan can be
characterised as a whole. -/

/-- The per-character condition on which `windows::write`'s loop returns
early into `write_escaped`: an ASCII control character (Rust
`u8::is_ascii_control`) or, for non-ASCII, `requires_escape`. -/
def escapeTrigger (c : Char) : Bool :=
  if c.toNat < 128 then c.toNat < 0x20 || c.toNat == 0x7F
  else requires_escape c

/-- The per-character condition under which `windows::write`'s loop
escalates `requires_quote`. -/
def scanSpecial (c : Char) : Bool :=
  if c.toNat < 128 then SPECIAL_SHELL_CHARS.contains c
  else unicode.is_whitespace c || unicode.is_double_quote c ||
       unicode.is_single_quote c

/-- The per-character condition that revokes double-quote safety. -/
def doubleQuoteBreak (c : Char) : Bool :=
  if c.toNat < 128 then DOUBLE_UNSAFE.contains c
  else unicode.is_double_quote c

/-- Per-character quoting escalation of the spec-modelled POSIX scan. -/
def unixScanSpecial (c : Char) : Bool :=
  if c.toNat < 128 then UNIX_SPECIAL_SHELL_CHARS.contains c
  else unixIsWhitespaceNonAscii c

/-- Per-character revocation of double-quote safety on POSIX. -/
def unixDoubleBreak (c : Char) : Bool :=
  if c.toNat < 128 then UNIX_DOUBLE_UNSAFE.contains c else false

/-! ## Reading hexadecimal back (for stating properties of the emitters) -/

/-- The numeric value of a hexadecimal digit (upper- or lowercase). -/
def hexVal (c : Char) : Nat :=
  if c.toNat ≤ 57 then c.toNat - 48
  else if c.toNat ≤ 70 then c.toNat - 55
  else c.toNat - 87

/-- Is the character one of `0`–`9`, `A`–`F`? -/
def isUpperHexDigit (c : Char) : Bool :=
  ('0' ≤ c && c ≤ '9') || ('A' ≤ c && c ≤ 'F')

/-- The number denoted by a list of uppercase hexadecimal digits. -/
def fromHex (l : List Char) : Nat :=
  l.foldl (fun a d => a * 16 + hexVal d) 0

/-! ## Simulated shells (spec-modelled)

The spec's top-level property quantifies over "a real or simulated shell of
that dialect". The simulated readers below are modelled from the spec's
description of the two dialects' quoting grammars (§4.2–§4.4 and the
glossary): they read one whole token and produce its argument value, or
`none` when the input is not a single self-contained literal token (an
unterminated quote, an interpolation, trailing garbage, …). A conservative
reader may reject more than a real shell; the round-trip theorems only ever
feed it the encoders' outputs. -/

/-- Modelled from the spec: the value of a PowerShell `` `u{…} `` escape —
a scalar value becomes a character, a surrogate value becomes a raw UTF-16
code unit, anything larger is rejected. -/
def psUnit (v : Nat) : Option (Char ⊕ Nat) :=
  if v < 0xD800 ∨ (0xDFFF < v ∧ v < 0x110000) then some (Sum.inl (Char.ofNat v))
  else if v ≤ 0xDFFF then some (Sum.inr v)
  else none

/-- Reader state inside a PowerShell double-quoted string: plain text, just
after a backtick, just after `` `u ``, or inside `` `u{…} `` digits. -/
inductive PsMode
  | normal
  | esc
  | uopen
  | hex (first : Bool) (acc : Nat)
  deriving Repr, DecidableEq

/-- Modelled from the spec: a simulated PowerShell reader for the inside of
a double-quoted string (after the opening `"`), one character and one unit
of fuel per step. Backtick introduces the named control escapes, `` `u{…} ``
code-point escapes, and otherwise quotes the next character; `$` would
interpolate and is rejected; any double-quote-like character closes the
string, which must then be the end of the token. -/
def psDqF : Nat → PsMode → List Char → Option (List (Char ⊕ Nat))
  | 0, _, _ => none
  | _ + 1, .normal, [] => none
  | fuel + 1, .normal, c :: rest =>
    if unicode.is_double_quote c then
      match rest with
      | [] => some []
      | _ :: _ => none
    else if c = '`' then psDqF fuel .esc rest
    else if c = '$' then none
    else (psDqF fuel .normal rest).map (Sum.inl c :: ·)
  | _ + 1, .esc, [] => none
  | fuel + 1, .esc, e :: rest =>
    if e = '0' then (psDqF fuel .normal rest).map (Sum.inl '\x00' :: ·)
    else if e = 'r' then (psDqF fuel .normal rest).map (Sum.inl '\x0D' :: ·)
    else if e = 'n' then (psDqF fuel .normal rest).map (Sum.inl '\x0A' :: ·)
    else if e = 't' then (psDqF fuel .normal rest).map (Sum.inl '\x09' :: ·)
    else if e = 'a' then (psDqF fuel .normal rest).map (Sum.inl '\x07' :: ·)
    else if e = 'b' then (psDqF fuel .normal rest).map (Sum.inl '\x08' :: ·)
    else if e = 'v' then (psDqF fuel .normal rest).map (Sum.inl '\x0B' :: ·)
    else if e = 'f' then (psDqF fuel .normal rest).map (Sum.inl '\x0C' :: ·)
    else if e = 'u' then psDqF fuel .uopen rest
    else (psDqF fuel .normal rest).map (Sum.inl e :: ·)
  | _ + 1, .uopen, [] => none
  | fuel + 1, .uopen, c :: rest =>
    if c = '{' then psDqF fuel (.hex true 0) rest else none
  | _ + 1, .hex _ _, [] => none
  | fuel + 1, .hex first acc, c :: rest =>
    if c = '}' then
      if first then none
      else
        match psUnit acc with
        | some item => (psDqF fuel .normal rest).map (item :: ·)
        | none => none
    else if isUpperHexDigit c then
      psDqF fuel (.hex false (acc * 16 + hexVal c)) rest
    else none

/-- Modelled from the spec: a simulated PowerShell reader for the inside of
a single-quoted string (after the opening quote). Any single-quote-like
character either doubles (the second one is taken literally) or closes the
string, which must then end the token; everything else is literal. The
Boolean says whether the previous character was a quote (doubling
pending). One character and one unit of fuel per step. -/
def psSqF : Nat → Bool → List Char → Option (List (Char ⊕ Nat))
  | 0, _, _ => none
  | _ + 1, false, [] => none
  | _ + 1, true, [] => some []
  | fuel + 1, true, q2 :: rest =>
    if unicode.is_single_quote q2 then
      (psSqF fuel false rest).map (Sum.inl q2 :: ·)
    else none
  | fuel + 1, false, q :: rest =>
    if unicode.is_single_quote q then psSqF fuel true rest
    else (psSqF fuel false rest).map (Sum.inl q :: ·)

/-- Modelled from the spec: is the character literal in a PowerShell bare
(unquoted) token? Word-splitting whitespace, quotes and their confusables,
the shell metacharacters, control characters and characters requiring
escapes all are not. -/
def psBareSafe (c : Char) : Bool :=
  !(unicode.is_whitespace c) && !(unicode.is_single_quote c) &&
  !(unicode.is_double_quote c) && !(SPECIAL_SHELL_CHARS.contains c) &&
  !(c.toNat < 0x20 || c.toNat == 0x7F) && !(requires_escape c)

/-- Modelled from the spec: a simulated PowerShell-dialect reader for one
whole token: a single-quoted string, a double-quoted string, or a bare word
of unremarkable characters. The value is a sequence of characters and raw
UTF-16 units. -/
def psToken (t : List Char) : Option (List (Char ⊕ Nat)) :=
  match t with
  | [] => none
  | c :: rest =>
    if unicode.is_single_quote c then psSqF (rest.length + 1) false rest
    else if unicode.is_double_quote c then psDqF rest.length .normal rest
    else if t.all psBareSafe then some (t.map Sum.inl) else none

/-- The UTF-16 code units of a mixed character/raw-unit sequence (how
PowerShell would store the argument value). -/
def mixedUtf16 (v : List (Char ⊕ Nat)) : List Nat :=
  (v.map fun item =>
    match item with
    | Sum.inl c => utf16EncodeChar c
    | Sum.inr u => [u]).flatten

/-- Reader state of the simulated POSIX shell: between segments, inside
`'…'`, inside `"…"`, after a bare `\`, after `$`, inside `$'…'`, after a
backslash inside `$'…'`, or inside a `\xHH` hex run. -/
inductive ShMode
  | seg
  | segEsc
  | dollar
  | sq
  | dq
  | ansi
  | ansiEsc
  | ansiHex (first : Bool) (acc : Nat)
  deriving Repr, DecidableEq

/-- Modelled from the spec: is the character literal in a POSIX bare
(unquoted) word? The shell-significant characters, whitespace, control
characters and characters requiring escapes are not. -/
def shBareSafe (c : Char) : Bool :=
  !(UNIX_SPECIAL_SHELL_CHARS.contains c) && !(unixIsWhitespaceNonAscii c) &&
  !(c.toNat < 0x20 || c.toNat == 0x7F) && !(requires_escape c)

/-- Modelled from the spec (§4.4): a simulated POSIX-shell reader for one
whole token, producing the argument's bytes. A token is a concatenation of
segments: bare characters, `\c` escapes, `'…'` (everything literal except
the closing quote), `"…"` (rejecting `$`, backtick and `\`, which would
expand), and ANSI-C `$'…'` with `\n \t \r \\ \'` and `\xHH` escapes, where
the hex digit run after `\x` is read greedily (the variable-length parse
some shells use, which the encoder's group splitting guards against).
One unit of fuel per step; a step on `ansiHex` may re-examine its input,
so callers supply twice the input length. -/
def shF : Nat → ShMode → List Char → Option (List Nat)
  | 0, _, _ => none
  | _ + 1, .seg, [] => some []
  | fuel + 1, .seg, c :: rest =>
    if c = '\'' then shF fuel .sq rest
    else if c = '"' then shF fuel .dq rest
    else if c = '\\' then shF fuel .segEsc rest
    else if c = '$' then shF fuel .dollar rest
    else if shBareSafe c then (shF fuel .seg rest).map (utf8EncodeChar c ++ ·)
    else none
  | _ + 1, .segEsc, [] => none
  | fuel + 1, .segEsc, c :: rest =>
    (shF fuel .seg rest).map (utf8EncodeChar c ++ ·)
  | _ + 1, .dollar, [] => none
  | fuel + 1, .dollar, c :: rest =>
    if c = '\'' then shF fuel .ansi rest else none
  | _ + 1, .sq, [] => none
  | fuel + 1, .sq, c :: rest =>
    if c = '\'' then shF fuel .seg rest
    else (shF fuel .sq rest).map (utf8EncodeChar c ++ ·)
  | _ + 1, .dq, [] => none
  | fuel + 1, .dq, c :: rest =>
    if c = '"' then shF fuel .seg rest
    else if c = '`' ∨ c = '$' ∨ c = '\\' then none
    else (shF fuel .dq rest).map (utf8EncodeChar c ++ ·)
  | _ + 1, .ansi, [] => none
  | fuel + 1, .ansi, c :: rest =>
    if c = '\'' then shF fuel .seg rest
    else if c = '\\' then shF fuel .ansiEsc rest
    else (shF fuel .ansi rest).map (utf8EncodeChar c ++ ·)
  | _ + 1, .ansiEsc, [] => none
  | fuel + 1, .ansiEsc, e :: rest =>
    if e = 'n' then (shF fuel .ansi rest).map (0x0A :: ·)
    else if e = 't' then (shF fuel .ansi rest).map (0x09 :: ·)
    else if e = 'r' then (shF fuel .ansi rest).map (0x0D :: ·)
    else if e = '\\' then (shF fuel .ansi rest).map (0x5C :: ·)
    else if e = '\'' then (shF fuel .ansi rest).map (0x27 :: ·)
    else if e = 'x' then shF fuel (.ansiHex true 0) rest
    else none
  | _ + 1, .ansiHex _ _, [] => none
  | fuel + 1, .ansiHex first acc, c :: rest =>
    if isHexDigitChar c then shF fuel (.ansiHex false (acc * 16 + hexVal c)) rest
    else if first then none
    else if 0x100 ≤ acc then none
    else if c = '\'' then (shF fuel .seg rest).map (acc :: ·)
    else if c = '\\' then (shF fuel .ansiEsc rest).map (acc :: ·)
    else (shF fuel .ansi rest).map (fun bs => acc :: (utf8EncodeChar c ++ bs))

/-- Modelled from the spec: the simulated POSIX reader for a whole token.
Each step consumes one character and one unit of fuel (the final
end-of-input step takes the extra one). -/
def shTok (t : List Char) : Option (List Nat) :=
  shF (t.length + 1) .seg t

/-- The bytes denoted by one POSIX escaped-path emission. -/
def emitBytes : UnixEmit → List Nat
  | .lit c => utf8EncodeChar c
  | .hex n => [n]
  | .named s =>
    if s = ['\\', 'n'] then [0x0A]
    else if s = ['\\', 't'] then [0x09]
    else if s = ['\\', 'r'] then [0x0D]
    else if s = ['\\', '\\'] then [0x5C]
    else [0x27]

/-- The bytes denoted by a sequence of POSIX escaped-path emissions. -/
def emitsBytes (es : List UnixEmit) : List Nat :=
  (es.map emitBytes).flatten

/-- The shape invariant of the emissions that `charEmits`/`unixEmits`
produce: literals are never a quote or backslash, hex escapes fit one byte,
and named escapes are one of the five two-character forms. The POSIX reader
lemmas rely on it. -/
def EmitWf : UnixEmit → Prop
  | .lit c => c ≠ '\'' ∧ c ≠ '\\'
  | .hex n => n < 0x100
  | .named s =>
    s = ['\\', 'n'] ∨ s = ['\\', 't'] ∨ s = ['\\', 'r'] ∨
    s = ['\\', '\\'] ∨ s = ['\\', '\'']

/-! ## Characterisation lemmas for the scans -/

theorem char_eq_iff (a b : Char) : a = b ↔ a.toNat = b.toNat := by
  constructor
  · intro h; rw [h]
  · intro h
    apply Char.ext
    have := congrArg (BitVec.ofNat 32) h
    simp [Char.toNat, UInt32.toNat, BitVec.ofNat_toNat] at this
    exact UInt32.eq_of_val_eq (by simp [UInt32.val, this])

theorem char_toNat_ofNat (n : Nat) (h : Nat.isValidChar n) :
    (Char.ofNat n).toNat = n := by
  simp [Char.ofNat, h, Char.ofNatAux, Char.toNat, UInt32.toNat]

theorem char_valid (c : Char) : Nat.isValidChar c.toNat := c.valid

/-- For ASCII characters the confusable single quotes cannot occur, so the
ASCII branch's `ch == b'\''` test agrees with `unicode::is_single_quote`. -/
theorem is_single_quote_ascii (c : Char) (h : c.toNat < 128) :
    unicode.is_single_quote c = decide (c = '\'') := by
  by_cases h' : c = '\''
  · subst h'; rfl
  · simp [unicode.is_single_quote, h', char_eq_iff] at *
    omega

/-- For ASCII characters the confusable double quotes cannot occur. -/
theorem is_double_quote_ascii (c : Char) (h : c.toNat < 128) :
    unicode.is_double_quote c = decide (c = '"') := by
  by_cases h' : c = '"'
  · subst h'; rfl
  · simp [unicode.is_double_quote, h', char_eq_iff] at *
    omega

/-- ASCII characters are not bidi controls. -/
theorem is_bidi_ascii (c : Char) (h : c.toNat < 128) : is_bidi c = false := by
  simp [is_bidi]
  omega

/-- One scan step, characterised: an early escape on `escapeTrigger`,
otherwise the four flags evolve monotonically by the per-character
conditions. -/
theorem scanStep_eq (st : ScanState) (c : Char) :
    scanStep st c =
      if escapeTrigger c then none
      else some ⟨st.is_single_safe && !unicode.is_single_quote c,
                 st.is_double_safe && !doubleQuoteBreak c,
                 st.requires_quote || scanSpecial c,
                 st.is_bidi || is_bidi c⟩ := by
  obtain ⟨ss, ds, rq, bd⟩ := st
  by_cases h : c.toNat < 128
  · rw [is_single_quote_ascii c h]
    simp only [scanStep, escapeTrigger, scanSpecial, doubleQuoteBreak, h,
      if_true, is_bidi_ascii c h, Bool.or_false]
    cases ss <;> cases ds <;> cases rq <;>
      by_cases h1 : c = '\'' <;>
      by_cases h2 : DOUBLE_UNSAFE.contains c <;>
      by_cases h3 : SPECIAL_SHELL_CHARS.contains c <;>
      simp [h1, h2, h3] <;>
      simp_all [show ('\'' ∈ SPECIAL_SHELL_CHARS) from by decide]
  · simp only [scanStep, escapeTrigger, scanSpecial, doubleQuoteBreak, h,
      if_false]
    cases ss <;> cases ds <;> cases rq <;> cases bd <;>
      by_cases h1 : unicode.is_whitespace c <;>
      by_cases h2 : unicode.is_double_quote c <;>
      by_cases h3 : unicode.is_single_quote c <;>
      by_cases h4 : is_bidi c <;>
      simp [h1, h2, h3, h4]

/-- The whole scan, characterised: `none` exactly when some character
triggers the escaped path, and otherwise each flag is the pointwise
`any`/`all` of its per-character condition over the whole string. -/
theorem scanChars_eq (st : ScanState) (text : List Char) :
    scanChars st text =
      if text.any escapeTrigger then none
      else some ⟨st.is_single_safe && !text.any unicode.is_single_quote,
                 st.is_double_safe && !text.any doubleQuoteBreak,
                 st.requires_quote || text.any scanSpecial,
                 st.is_bidi || text.any is_bidi⟩ := by
  induction text generalizing st with
  | nil => simp [scanChars]
  | cons c rest ih =>
    rw [scanChars, scanStep_eq]
    by_cases h : escapeTrigger c
    · simp [h]
    · rw [if_neg h]
      simp only [ih, List.any_cons]
      by_cases h2 : rest.any escapeTrigger <;>
        simp [h2, h, Bool.or_assoc, Bool.and_assoc, Bool.not_or]

/-- `windows::write`, characterised in terms of the per-character
conditions: the escaped path on any trigger or on bidi suspicion, then the
four strategies in source order. -/
theorem writeWith_eq (sbidi : List Char → Bool) (text : List Char)
    (force : Bool) :
    writeWith sbidi text force =
      if text.any escapeTrigger then write_escaped (text.map Sum.inl)
      else if text.any is_bidi && sbidi text then
        write_escaped (text.map Sum.inl)
      else if !((if force then true else startQuote text) ||
                text.any scanSpecial) then text
      else if !text.any unicode.is_single_quote then write_simple '\'' text
      else if !text.any doubleQuoteBreak then write_simple '"' text
      else write_single_escaped text := by
  rw [writeWith, scanChars_eq]
  by_cases h : text.any escapeTrigger
  · simp [h]
  · simp only [h, if_false, Bool.false_or, Bool.true_and, Bool.not_false,
      if_true]
    rfl

/-! ### The spec-modelled POSIX scan, characterised the same way -/

/-- One POSIX scan step, characterised. -/
theorem unixScanStep_eq (st : UnixScanState) (c : Char) :
    unixScanStep st c =
      if escapeTrigger c then none
      else some ⟨st.is_single_safe && !decide (c = '\''),
                 st.is_double_safe && !unixDoubleBreak c,
                 st.requires_quote || unixScanSpecial c,
                 st.is_bidi || is_bidi c⟩ := by
  obtain ⟨ss, ds, rq, bd⟩ := st
  by_cases h : c.toNat < 128
  · simp only [unixScanStep, escapeTrigger, unixScanSpecial, unixDoubleBreak,
      h, if_true, is_bidi_ascii c h, Bool.or_false]
    cases ss <;> cases ds <;> cases rq <;>
      by_cases h1 : c = '\'' <;>
      by_cases h2 : UNIX_DOUBLE_UNSAFE.contains c <;>
      by_cases h3 : UNIX_SPECIAL_SHELL_CHARS.contains c <;>
      simp [h1, h2, h3] <;>
      simp_all [show ('\'' ∈ UNIX_SPECIAL_SHELL_CHARS) from by decide,
        show ('\'' ∉ UNIX_DOUBLE_UNSAFE) from by decide]
  · have hq : ¬(c = '\'') := by
      simp [char_eq_iff]; omega
    simp only [unixScanStep, escapeTrigger, unixScanSpecial, unixDoubleBreak,
      h, if_false, hq]
    cases ss <;> cases ds <;> cases rq <;> cases bd <;>
      by_cases h1 : unixIsWhitespaceNonAscii c <;>
      by_cases h4 : is_bidi c <;>
      simp [h1, h4, hq]

/-- The whole POSIX scan, characterised. -/
theorem unixScanChars_eq (st : UnixScanState) (text : List Char) :
    unixScanChars st text =
      if text.any escapeTrigger then none
      else some ⟨st.is_single_safe && !text.any (fun c => decide (c = '\'')),
                 st.is_double_safe && !text.any unixDoubleBreak,
                 st.requires_quote || text.any unixScanSpecial,
                 st.is_bidi || text.any is_bidi⟩ := by
  induction text generalizing st with
  | nil => simp [unixScanChars]
  | cons c rest ih =>
    rw [unixScanChars, unixScanStep_eq]
    by_cases h : escapeTrigger c
    · simp [h]
    · rw [if_neg h]
      simp only [ih, List.any_cons]
      by_cases h2 : rest.any escapeTrigger <;>
        simp [h2, h, Bool.or_assoc, Bool.and_assoc, Bool.not_or]

/-- The spec-modelled `unix::write`, characterised. -/
theorem unixWriteWith_eq (sbidi : List Char → Bool) (text : List Char)
    (force : Bool) :
    unixWriteWith sbidi text force =
      if text.any escapeTrigger then unix_write_escaped (utf8Encode text)
      else if text.any is_bidi && sbidi text then
        unix_write_escaped (utf8Encode text)
      else if !((if force then true else unixStartQuote text) ||
                text.any unixScanSpecial) then text
      else if !text.any (fun c => decide (c = '\'')) then
        write_simple '\'' text
      else if !text.any unixDoubleBreak then write_simple '"' text
      else unixQuoteSplit text := by
  rw [unixWriteWith, unixScanChars_eq]
  by_cases h : text.any escapeTrigger
  · simp [h]
  · simp only [h, if_false, Bool.false_or, Bool.true_and, Bool.not_false,
      if_true]
    rfl

end OsDisplay

namespace OsDisplay

/-! Sanity examples mirroring the repository's own tests (src/lib.rs,
`WINDOWS_ALWAYS` / `WINDOWS_MAYBE` / `BOTH_*`). -/

example : write "foo".toList false = "foo".toList := by decide
example : write "foo".toList true = "'foo'".toList := by decide
example : write "".toList false = "''".toList := by decide
example : write "can't".toList true = "\"can't\"".toList := by decide
example : write "can'\"t".toList true = "'can''\"t'".toList := by decide
example : write "-".toList false = "-".toList := by decide
example : write "-x".toList false = "'-x'".toList := by decide
example : write "a,b".toList false = "'a,b'".toList := by decide
example : write "a\\b".toList false = "a\\b".toList := by decide
example : write "\t".toList false = "\"`t\"".toList := by decide
example : write "foo\x02".toList true = "\"foo`u{02}\"".toList := by decide
example : write "'$''".toList true = "'''$'''''".toList := by decide
example : write "foo\nb\ta\r\\\x00`r".toList true
    = "\"foo`nb`ta`r\\`0``r\"".toList := by decide

/-! Sanity examples for the spec-modelled POSIX encoder against the
repository's `UNIX_ALWAYS` / `UNIX_MAYBE` / `UNIX_RAW` / `BOTH_*` tests. -/

example : unixWrite "foo".toList true = "'foo'".toList := by decide
example : unixWrite "".toList false = "''".toList := by decide
example : unixWrite "can't".toList true = "\"can't\"".toList := by decide
example : unixWrite "can'\"t".toList true = "'can'\\''\"t'".toList := by decide
example : unixWrite "can'$t".toList true = "'can'\\''$t'".toList := by decide
example : unixWrite "'$''".toList true = "\\''$'\\'\\'".toList := by decide
example : unixWrite "foo\nb\ta\r\\\x00`r".toList true
    = "$'foo\\nb\\ta\\r\\\\\\x00`r'".toList := by decide
example : unixWrite "foo\x02".toList true = "$'foo\\x02'".toList := by decide
example : unixWrite "-x".toList false = "-x".toList := by decide
example : unixWrite "a,b".toList false = "a,b".toList := by decide
example : unixWrite "a\\b".toList false = "'a\\b'".toList := by decide
example : unixWrite "\x02AB".toList false = "$'\\x02'$'AB'".toList := by decide
example : unixWrite "\x02GH".toList false = "$'\\x02GH'".toList := by decide
example : unixWrite "\t".toList false = "$'\\t'".toList := by decide
example : unixWrite "foo bar".toList false = "'foo bar'".toList := by decide
example : unixWrite "$foo".toList false = "'$foo'".toList := by decide
example : unixWrite "-".toList false = "-".toList := by decide
example : unixWrite "a#b".toList false = "a#b".toList := by decide
example : unixWrite "#ab".toList false = "'#ab'".toList := by decide
example : unixWrite "a~b".toList false = "a~b".toList := by decide
example : unixWrite "!".toList false = "'!'".toList := by decide
example : unixWrite "\x7d".toList false = "'\x7d'".toList := by decide
example : quotedFmt (.unixRaw [0x66, 0x6F, 0x6F, 0xFF]) true
    = "$'foo\\xFF'".toList := by decide
example : quotedFmt (.unixRaw [0x66, 0x6F, 0x6F, 0xFF, 0x62, 0x61, 0x72]) true
    = "$'foo\\xFF'$'bar'".toList := by decide
example : quotedFmt (.windowsRaw [0x78, 0xD800]) true
    = "\"x`u{D800}\"".toList := by decide

/-! Sanity examples for the simulated shells: they recover the source from
each encoder output above. -/

example : psToken (write "foo".toList false) = some ("foo".toList.map Sum.inl) := by decide
example : psToken (write "foo".toList true) = some ("foo".toList.map Sum.inl) := by decide
example : psToken (write "can'\"t".toList true)
    = some ("can'\"t".toList.map Sum.inl) := by decide
example : psToken (write "can't".toList true)
    = some ("can't".toList.map Sum.inl) := by decide
example : psToken (write "foo\nb\ta\r\\\x00`r".toList true)
    = some ("foo\nb\ta\r\\\x00`r".toList.map Sum.inl) := by decide
example : psToken (write "'$''".toList true)
    = some ("'$''".toList.map Sum.inl) := by decide
example : psToken (write "‘\"".toList false)
    = some ("‘\"".toList.map Sum.inl) := by decide
example : psToken (write "„\x00".toList false)
    = some ("„\x00".toList.map Sum.inl) := by decide
example : psToken (quotedFmt (.windowsRaw [0x78, 0xD800]) true)
    = some [Sum.inl 'x', Sum.inr 0xD800] := by decide
example : mixedUtf16 [Sum.inl 'x', Sum.inr 0xD800] = [0x78, 0xD800] := by decide
example : shTok (unixWrite "foo".toList false) = some (utf8Encode "foo".toList) := by decide
example : shTok (unixWrite "can'\"t".toList true)
    = some (utf8Encode "can'\"t".toList) := by decide
example : shTok (unixWrite "can't".toList true)
    = some (utf8Encode "can't".toList) := by decide
example : shTok (unixWrite "'$''".toList true)
    = some (utf8Encode "'$''".toList) := by decide
example : shTok (unixWrite "foo\nb\ta\r\\\x00`r".toList true)
    = some (utf8Encode "foo\nb\ta\r\\\x00`r".toList) := by decide
example : shTok (unixWrite "\x02AB".toList false)
    = some (utf8Encode "\x02AB".toList) := by decide
example : shTok (unixWrite "\x02GH".toList false)
    = some (utf8Encode "\x02GH".toList) := by decide
example : shTok (quotedFmt (.unixRaw [0x66, 0x6F, 0x6F, 0xFF, 0x62, 0x61, 0x72]) true)
    = some [0x66, 0x6F, 0x6F, 0xFF, 0x62, 0x61, 0x72] := by decide
example : shTok (unixWrite "—x".toList false) = some (utf8Encode "—x".toList) := by
  decide
example : psToken (write "—x".toList false)
    = some ("—x".toList.map Sum.inl) := by decide

/-! ## Shared helper lemmas for the claims -/

theorem write_escaped_head (s : List (Char ⊕ Nat)) :
    (write_escaped s).head? = some '"' := rfl

theorem write_escaped_getLast (s : List (Char ⊕ Nat)) :
    (write_escaped s).getLast? = some '"' := by
  rw [write_escaped, List.getLast?_concat]

/-- An ASCII control character triggers the escaped path. -/
theorem escapeTrigger_of_control (c : Char)
    (h : (c.toNat < 0x20 || c.toNat == 0x7F) = true) :
    escapeTrigger c = true := by
  simp only [Bool.or_eq_true, decide_eq_true_eq, beq_iff_eq] at h
  have : c.toNat < 128 := by omega
  simp only [escapeTrigger, this, if_true]
  simp only [Bool.or_eq_true, decide_eq_true_eq, beq_iff_eq]
  omega

theorem utf8Len_gt_one (c d : Char) (ds : List Char) :
    1 < utf8Len (c :: d :: ds) := by
  have h1 := Char.utf8Size_pos c
  have h2 := Char.utf8Size_pos d
  simp only [utf8Len, List.map_cons, List.sum_cons]
  omega

/-- A dash-like first character followed by anything forces a quote in the
first-character sniffing. -/
theorem startQuote_dash (c d : Char) (ds : List Char)
    (hdash : unicode.is_dash c = true) : startQuote (c :: d :: ds) = true := by
  have hlen := utf8Len_gt_one c d ds
  simp only [unicode.is_dash, Bool.or_eq_true, beq_iff_eq] at hdash
  rcases hdash with ((h | h) | h) | h <;> subst h <;>
    simp [startQuote, unicode.is_dash, hlen, SPECIAL_SHELL_CHARS_START,
      Char.isDigit, width_zero]

/-! ## Hexadecimal formatting lemmas -/

theorem hexVal_hexDigit : ∀ n < 16, hexVal (hexDigit n) = n := by decide

theorem isUpperHexDigit_hexDigit : ∀ n < 16, isUpperHexDigit (hexDigit n) = true := by
  decide

theorem hexDigit_ne_zero : ∀ n < 16, 1 ≤ n → hexDigit n ≠ '0' := by decide

theorem toHexAux_acc (fuel : Nat) : ∀ (n : Nat) (acc : List Char),
    toHexAux fuel n acc = toHexAux fuel n [] ++ acc := by
  induction fuel with
  | zero => intro n acc; rfl
  | succ fuel ih =>
    intro n acc
    by_cases h : n < 16
    · simp [toHexAux, h]
    · rw [toHexAux, if_neg h, toHexAux, if_neg h, ih (n / 16),
        ih (n / 16) [hexDigit (n % 16)], List.append_assoc]
      rfl

theorem toHexAux_ne_nil (fuel : Nat) : ∀ (n : Nat) (acc : List Char),
    toHexAux fuel n acc ≠ [] := by
  induction fuel with
  | zero => intro n acc; simp [toHexAux]
  | succ fuel ih =>
    intro n acc
    by_cases h : n < 16
    · simp [toHexAux, h]
    · rw [toHexAux, if_neg h]
      exact ih (n / 16) _

theorem toHex_ne_nil (n : Nat) : toHex n ≠ [] := toHexAux_ne_nil n n []

theorem fromHex_append_digit (a : List Char) (d : Char) :
    fromHex (a ++ [d]) = fromHex a * 16 + hexVal d := by
  simp [fromHex, List.foldl_append]

theorem fromHex_toHexAux (fuel : Nat) : ∀ n < 16 ^ (fuel + 1),
    fromHex (toHexAux fuel n []) = n := by
  induction fuel with
  | zero =>
    intro n hn
    rw [pow_one] at hn
    simpa [toHexAux, fromHex] using hexVal_hexDigit n hn
  | succ fuel ih =>
    intro n hn
    by_cases h : n < 16
    · simpa [toHexAux, h, fromHex] using hexVal_hexDigit n h
    · rw [toHexAux, if_neg h, toHexAux_acc, fromHex_append_digit,
        ih (n / 16) (by
          have h16 : (0 : Nat) < 16 := by norm_num
          rw [Nat.div_lt_iff_lt_mul h16]
          calc n < 16 ^ (fuel + 1 + 1) := hn
          _ = 16 ^ (fuel + 1) * 16 := by ring),
        hexVal_hexDigit (n % 16) (Nat.mod_lt n (by norm_num))]
      omega

theorem lt_sixteen_pow (n : Nat) : n < 16 ^ (n + 1) := by
  calc n < 2 ^ n := Nat.lt_two_pow n
  _ ≤ 16 ^ n := Nat.pow_le_pow_left (by norm_num) n
  _ < 16 ^ (n + 1) := Nat.pow_lt_pow_succ (by norm_num)

theorem fromHex_toHex (n : Nat) : fromHex (toHex n) = n :=
  fromHex_toHexAux n n (lt_sixteen_pow n)

theorem toHexAux_digits (fuel : Nat) : ∀ n < 16 ^ (fuel + 1),
    ∀ d ∈ toHexAux fuel n [], isUpperHexDigit d = true := by
  induction fuel with
  | zero =>
    intro n hn d hd
    rw [pow_one] at hn
    rw [show toHexAux 0 n [] = [hexDigit n] from rfl] at hd
    simp at hd
    subst hd
    exact isUpperHexDigit_hexDigit n hn
  | succ fuel ih =>
    intro n hn d hd
    by_cases h : n < 16
    · rw [toHexAux, if_pos h] at hd
      simp at hd
      subst hd
      exact isUpperHexDigit_hexDigit n h
    · rw [toHexAux, if_neg h, toHexAux_acc] at hd
      rcases List.mem_append.mp hd with h1 | h1
      · refine ih (n / 16) ?_ d h1
        have h16 : (0 : Nat) < 16 := by norm_num
        rw [Nat.div_lt_iff_lt_mul h16]
        calc n < 16 ^ (fuel + 1 + 1) := hn
        _ = 16 ^ (fuel + 1) * 16 := by ring
      · simp at h1
        subst h1
        exact isUpperHexDigit_hexDigit (n % 16) (Nat.mod_lt n (by norm_num))

theorem toHex_digits (n : Nat) : ∀ d ∈ toHex n, isUpperHexDigit d = true :=
  toHexAux_digits n n (lt_sixteen_pow n)

theorem toHexAux_head_ne_zero (fuel : Nat) : ∀ n, 1 ≤ n → n < 16 ^ (fuel + 1) →
    (toHexAux fuel n []).head? ≠ some '0' := by
  induction fuel with
  | zero =>
    intro n h1 hn
    rw [pow_one] at hn
    rw [show toHexAux 0 n [] = [hexDigit n] from rfl]
    simpa using hexDigit_ne_zero n hn h1
  | succ fuel ih =>
    intro n h1 hn
    by_cases h : n < 16
    · rw [toHexAux, if_pos h]
      simpa using hexDigit_ne_zero n h h1
    · rw [toHexAux, if_neg h, toHexAux_acc]
      have hne := toHexAux_ne_nil fuel (n / 16) []
      have hdiv1 : 1 ≤ n / 16 := by
        rw [Nat.le_div_iff_mul_le (by norm_num)]
        omega
      have hdivlt : n / 16 < 16 ^ (fuel + 1) := by
        have h16 : (0 : Nat) < 16 := by norm_num
        rw [Nat.div_lt_iff_lt_mul h16]
        calc n < 16 ^ (fuel + 1 + 1) := hn
        _ = 16 ^ (fuel + 1) * 16 := by ring
      cases hh : toHexAux fuel (n / 16) [] with
      | nil => exact absurd hh hne
      | cons x xs =>
        have := ih (n / 16) hdiv1 hdivlt
        rw [hh] at this
        simpa using this

theorem toHex_head_ne_zero (n : Nat) (h : 1 ≤ n) :
    (toHex n).head? ≠ some '0' :=
  toHexAux_head_ne_zero n n h (lt_sixteen_pow n)

theorem fromHex_replicate_zero (k : Nat) (l : List Char) :
    fromHex (List.replicate k '0' ++ l) = fromHex l := by
  induction k with
  | zero => rfl
  | succ k ih =>
    rw [List.replicate_succ, List.cons_append]
    show fromHex (List.replicate k '0' ++ l) = fromHex l
    exact ih

theorem fromHex_hexPad (w n : Nat) : fromHex (hexPad w n) = n := by
  rw [hexPad, fromHex_replicate_zero, fromHex_toHex]

theorem hexPad_digits (w n : Nat) :
    ∀ d ∈ hexPad w n, isUpperHexDigit d = true := by
  intro d hd
  rcases List.mem_append.mp hd with h1 | h1
  · rw [List.eq_of_mem_replicate h1]
    decide
  · exact toHex_digits n d h1

theorem hexPad_two_length (n : Nat) : 2 ≤ (hexPad 2 n).length := by
  rw [hexPad, List.length_append, List.length_replicate]
  omega

/-- For values needing two or more digits no padding happens at width 2. -/
theorem hexPad_two_of_ge (n : Nat) (h : 0x10 ≤ n) : hexPad 2 n = toHex n := by
  have hlen : 2 ≤ (toHex n).length := by
    rw [toHex]
    obtain ⟨f, hf⟩ : ∃ f, n = f + 1 := ⟨n - 1, by omega⟩
    rw [hf, toHexAux, if_neg (by omega), toHexAux_acc, List.length_append]
    have := toHexAux_ne_nil f ((f + 1) / 16) []
    have : 0 < (toHexAux f ((f + 1) / 16) []).length :=
      List.length_pos.mpr this
    simp only [List.length_cons, List.length_nil]
    omega
  rw [hexPad, show 2 - (toHex n).length = 0 from by omega]
  rfl

/-! ## Codec roundtrip lemmas -/

theorem char_ofNat_toNat (c : Char) : Char.ofNat c.toNat = c :=
  (char_eq_iff _ _).mpr (char_toNat_ofNat _ c.valid)

/-- Validity of a scalar value: never a surrogate, always below 0x110000. -/
theorem char_toNat_range (c : Char) :
    (c.toNat < 0xD800 ∨ (0xDFFF < c.toNat ∧ c.toNat < 0x110000)) := by
  rcases c.valid with h | h
  · exact Or.inl h
  · exact Or.inr h

theorem utf8EncodeChar_ne_nil (c : Char) : utf8EncodeChar c ≠ [] := by
  rw [utf8EncodeChar]
  split_ifs <;> simp

/-- Decoding one scalar undoes encoding one scalar, whatever follows. -/
theorem utf8DecodeOne_encode (c : Char) (bs : List Nat) :
    utf8DecodeOne (utf8EncodeChar c ++ bs) = some (c, bs) := by
  have hval := char_toNat_range c
  rcases Nat.lt_or_ge c.toNat 0x80 with h1 | h1
  · have henc : utf8EncodeChar c = [c.toNat] := by
      rw [utf8EncodeChar, if_pos h1]
    rw [henc]
    show utf8DecodeOne (c.toNat :: bs) = _
    rw [utf8DecodeOne.eq_def]
    simp only []
    rw [if_pos h1, char_ofNat_toNat]
  · rcases Nat.lt_or_ge c.toNat 0x800 with h2 | h2
    · have henc : utf8EncodeChar c =
          [0xC0 + c.toNat / 0x40, 0x80 + c.toNat % 0x40] := by
        rw [utf8EncodeChar, if_neg (by omega), if_pos h2]
      rw [henc]
      show utf8DecodeOne ((0xC0 + c.toNat / 0x40) ::
        (0x80 + c.toNat % 0x40) :: bs) = _
      rw [utf8DecodeOne.eq_def]
      simp only []
      rw [if_neg (by omega), if_pos (by
        simp only [Bool.and_eq_true, decide_eq_true_eq]
        omega)]
      rw [if_pos (by
        simp only [isCont, Bool.and_eq_true, decide_eq_true_eq]
        omega)]
      rw [show (0xC0 + c.toNat / 0x40 - 0xC0) * 0x40 +
          (0x80 + c.toNat % 0x40 - 0x80) = c.toNat from by omega,
        char_ofNat_toNat]
    · rcases Nat.lt_or_ge c.toNat 0x10000 with h3 | h3
      · have henc : utf8EncodeChar c =
            [0xE0 + c.toNat / 0x1000, 0x80 + (c.toNat / 0x40) % 0x40,
             0x80 + c.toNat % 0x40] := by
          rw [utf8EncodeChar, if_neg (by omega), if_neg (by omega), if_pos h3]
        rw [henc]
        show utf8DecodeOne ((0xE0 + c.toNat / 0x1000) ::
          (0x80 + (c.toNat / 0x40) % 0x40) :: (0x80 + c.toNat % 0x40) :: bs) = _
        rw [utf8DecodeOne.eq_def]
        simp only []
        rw [if_neg (by omega), if_neg (by
          simp only [Bool.and_eq_true, decide_eq_true_eq, not_and]
          omega), if_pos (by
          simp only [Bool.and_eq_true, decide_eq_true_eq]
          omega)]
        rw [if_pos (by
          simp only [Bool.and_eq_true]
          refine ⟨?_, by
            simp only [isCont, Bool.and_eq_true, decide_eq_true_eq]
            omega⟩
          by_cases he0 : c.toNat / 0x1000 = 0
          · have : c.toNat < 0x1000 := by omega
            rw [if_pos (by simp only [beq_iff_eq]; omega)]
            simp only [Bool.and_eq_true, decide_eq_true_eq]
            omega
          · rw [if_neg (by simp only [beq_iff_eq]; omega)]
            by_cases hed : c.toNat / 0x1000 = 0xD
            · have hsub : c.toNat ≤ 0xD7FF := by
                rcases hval with h | h
                · omega
                · omega
              rw [if_pos (by simp only [beq_iff_eq]; omega)]
              simp only [Bool.and_eq_true, decide_eq_true_eq]
              omega
            · rw [if_neg (by simp only [beq_iff_eq]; omega)]
              simp only [isCont, Bool.and_eq_true, decide_eq_true_eq]
              omega)]
        rw [show (0xE0 + c.toNat / 0x1000 - 0xE0) * 0x1000 +
            (0x80 + (c.toNat / 0x40) % 0x40 - 0x80) * 0x40 +
            (0x80 + c.toNat % 0x40 - 0x80) = c.toNat from by omega,
          char_ofNat_toNat]
      · have h4 : c.toNat < 0x110000 := by
          rcases hval with h | h
          · omega
          · omega
        have henc : utf8EncodeChar c =
            [0xF0 + c.toNat / 0x40000, 0x80 + (c.toNat / 0x1000) % 0x40,
             0x80 + (c.toNat / 0x40) % 0x40, 0x80 + c.toNat % 0x40] := by
          rw [utf8EncodeChar, if_neg (by omega), if_neg (by omega),
            if_neg (by omega)]
        rw [henc]
        show utf8DecodeOne ((0xF0 + c.toNat / 0x40000) ::
          (0x80 + (c.toNat / 0x1000) % 0x40) ::
          (0x80 + (c.toNat / 0x40) % 0x40) :: (0x80 + c.toNat % 0x40) :: bs) = _
        rw [utf8DecodeOne.eq_def]
        simp only []
        rw [if_neg (by omega), if_neg (by
          simp only [Bool.and_eq_true, decide_eq_true_eq, not_and]
          omega), if_neg (by
          simp only [Bool.and_eq_true, decide_eq_true_eq, not_and]
          omega), if_pos (by
          simp only [Bool.and_eq_true, decide_eq_true_eq]
          omega)]
        rw [if_pos (by
          simp only [Bool.and_eq_true]
          refine ⟨⟨?_, by
              simp only [isCont, Bool.and_eq_true, decide_eq_true_eq]
              omega⟩, by
            simp only [isCont, Bool.and_eq_true, decide_eq_true_eq]
            omega⟩
          by_cases hf0 : c.toNat / 0x40000 = 0
          · have : c.toNat < 0x40000 := by omega
            rw [if_pos (by simp only [beq_iff_eq]; omega)]
            simp only [Bool.and_eq_true, decide_eq_true_eq]
            omega
          · rw [if_neg (by simp only [beq_iff_eq]; omega)]
            by_cases hf4 : c.toNat / 0x40000 = 4
            · rw [if_pos (by simp only [beq_iff_eq]; omega)]
              simp only [Bool.and_eq_true, decide_eq_true_eq]
              omega
            · rw [if_neg (by simp only [beq_iff_eq]; omega)]
              simp only [isCont, Bool.and_eq_true, decide_eq_true_eq]
              omega)]
        rw [show (0xF0 + c.toNat / 0x40000 - 0xF0) * 0x40000 +
            (0x80 + (c.toNat / 0x1000) % 0x40 - 0x80) * 0x1000 +
            (0x80 + (c.toNat / 0x40) % 0x40 - 0x80) * 0x40 +
            (0x80 + c.toNat % 0x40 - 0x80) = c.toNat from by omega,
          char_ofNat_toNat]

theorem utf8DecodeAux_step (fuel : Nat) (bs : List Nat) (hne : bs ≠ []) :
    utf8DecodeAux (fuel + 1) bs =
      match utf8DecodeOne bs with
      | some (c, rest) => (utf8DecodeAux fuel rest).map (c :: ·)
      | none => none := by
  cases bs with
  | nil => exact absurd rfl hne
  | cons b bb => rfl

theorem utf8Encode_cons (c : Char) (t : List Char) :
    utf8Encode (c :: t) = utf8EncodeChar c ++ utf8Encode t := by
  simp [utf8Encode]

theorem utf8DecodeAux_encode : ∀ (s : List Char) (fuel : Nat),
    s.length ≤ fuel → utf8DecodeAux fuel (utf8Encode s) = some s := by
  intro s
  induction s with
  | nil =>
    intro fuel _
    cases fuel <;> rfl
  | cons c t ih =>
    intro fuel hlen
    cases fuel with
    | zero => simp at hlen
    | succ f =>
      rw [utf8Encode_cons,
        utf8DecodeAux_step f _ (by
          intro h
          exact utf8EncodeChar_ne_nil c (List.append_eq_nil.mp h).1),
        utf8DecodeOne_encode]
      show Option.map (fun x => c :: x) (utf8DecodeAux f (utf8Encode t))
        = some (c :: t)
      simp only [List.length_cons, Nat.succ_le_succ_iff] at hlen
      rw [ih f hlen]
      rfl

theorem length_le_utf8Encode (s : List Char) :
    s.length ≤ (utf8Encode s).length := by
  induction s with
  | nil => simp [utf8Encode]
  | cons c t ih =>
    rw [utf8Encode_cons, List.length_append, List.length_cons]
    have := utf8EncodeChar_ne_nil c
    have : 0 < (utf8EncodeChar c).length := List.length_pos.mpr this
    omega

/-- Rust `str::from_utf8` succeeds on every encoded string and returns it. -/
theorem utf8Decode_encode (s : List Char) :
    utf8Decode (utf8Encode s) = some s :=
  utf8DecodeAux_encode s _ (length_le_utf8Encode s)

theorem utf16EncodeChar_ne_nil (c : Char) : utf16EncodeChar c ≠ [] := by
  rw [utf16EncodeChar]
  split_ifs <;> simp

theorem decodeUtf16Aux_cons (fuel : Nat) (u : Nat) (rest : List Nat) :
    decodeUtf16Aux (fuel + 1) (u :: rest) =
      if u < 0xD800 || 0xDFFF < u then
        Sum.inl (Char.ofNat u) :: decodeUtf16Aux fuel rest
      else if 0xDC00 ≤ u then Sum.inr u :: decodeUtf16Aux fuel rest
      else
        match rest with
        | [] => [Sum.inr u]
        | v :: rest' =>
          if 0xDC00 ≤ v && v ≤ 0xDFFF then
            Sum.inl (Char.ofNat (0x10000 + (u - 0xD800) * 0x400 + (v - 0xDC00)))
              :: decodeUtf16Aux fuel rest'
          else Sum.inr u :: decodeUtf16Aux fuel (v :: rest') := rfl

theorem decodeUtf16Aux_encode : ∀ (t : List Char) (fuel : Nat),
    t.length ≤ fuel →
    decodeUtf16Aux fuel (utf16Encode t) = t.map Sum.inl := by
  intro t
  induction t with
  | nil =>
    intro fuel _
    cases fuel <;> rfl
  | cons c s ih =>
    intro fuel hlen
    cases fuel with
    | zero => simp at hlen
    | succ f =>
      simp only [List.length_cons, Nat.succ_le_succ_iff] at hlen
      have hval := char_toNat_range c
      have hrest := ih f hlen
      rcases Nat.lt_or_ge c.toNat 0x10000 with h1 | h1
      · have henc : utf16Encode (c :: s) = c.toNat :: utf16Encode s := by
          simp [utf16Encode, utf16EncodeChar, h1]
        rw [henc, decodeUtf16Aux_cons, if_pos (by
          simp only [Bool.or_eq_true, decide_eq_true_eq]
          rcases hval with h | h
          · exact Or.inl h
          · exact Or.inr h.1), char_ofNat_toNat, hrest]
        rfl
      · have h2 : c.toNat < 0x110000 := by
          rcases hval with h | h
          · omega
          · exact h.2
        have henc : utf16Encode (c :: s) =
            (0xD800 + (c.toNat - 0x10000) / 0x400) ::
            (0xDC00 + (c.toNat - 0x10000) % 0x400) :: utf16Encode s := by
          simp [utf16Encode, utf16EncodeChar, Nat.not_lt.mpr h1]
        have hm : (c.toNat - 0x10000) % 0x400 < 0x400 :=
          Nat.mod_lt _ (by norm_num)
        have hd : (c.toNat - 0x10000) / 0x400 < 0x400 := by
          rw [Nat.div_lt_iff_lt_mul (by norm_num)]
          omega
        rw [henc, decodeUtf16Aux_cons, if_neg (by
          simp only [Bool.or_eq_true, decide_eq_true_eq, not_or]
          omega), if_neg (by omega)]
        show (if (decide (0xDC00 ≤ 0xDC00 + (c.toNat - 0x10000) % 0x400) &&
              decide (0xDC00 + (c.toNat - 0x10000) % 0x400 ≤ 0xDFFF)) = true
            then
              Sum.inl (Char.ofNat (0x10000 +
                (0xD800 + (c.toNat - 0x10000) / 0x400 - 0xD800) * 0x400 +
                (0xDC00 + (c.toNat - 0x10000) % 0x400 - 0xDC00)))
                :: decodeUtf16Aux f (utf16Encode s)
            else Sum.inr (0xD800 + (c.toNat - 0x10000) / 0x400)
                :: decodeUtf16Aux f ((0xDC00 + (c.toNat - 0x10000) % 0x400)
                  :: utf16Encode s)) = List.map Sum.inl (c :: s)
        rw [if_pos (by
          simp only [Bool.and_eq_true, decide_eq_true_eq]
          omega)]
        rw [show 0x10000 + (0xD800 + (c.toNat - 0x10000) / 0x400 - 0xD800) *
            0x400 + (0xDC00 + (c.toNat - 0x10000) % 0x400 - 0xDC00) = c.toNat
            from by omega,
          char_ofNat_toNat, hrest]
        rfl

theorem length_le_utf16Encode (t : List Char) :
    t.length ≤ (utf16Encode t).length := by
  induction t with
  | nil => simp [utf16Encode]
  | cons c s ih =>
    have h1 : utf16Encode (c :: s) = utf16EncodeChar c ++ utf16Encode s := by
      simp [utf16Encode]
    rw [h1, List.length_append, List.length_cons]
    have := utf16EncodeChar_ne_nil c
    have : 0 < (utf16EncodeChar c).length := List.length_pos.mpr this
    omega

theorem decodeUtf16_encode (t : List Char) :
    decodeUtf16 (utf16Encode t) = t.map Sum.inl :=
  decodeUtf16Aux_encode t _ (length_le_utf16Encode t)

theorem collectOk_map_inl (t : List Char) :
    collectOk (t.map Sum.inl) = some t := by
  induction t with
  | nil => rfl
  | cons c s ih => simp [collectOk, ih]

/-- Rust `String::from_utf16` succeeds on every encoded string. -/
theorem fromUtf16_encode (t : List Char) :
    fromUtf16 (utf16Encode t) = some t := by
  rw [fromUtf16, decodeUtf16_encode, collectOk_map_inl]

/-! ## Decode-then-encode identities (strictness of the codecs) -/

/-- A strict UTF-8 decode of one scalar re-encodes to exactly the bytes it
consumed (no overlong forms are accepted). -/
theorem utf8EncodeChar_decodeOne (bs : List Nat) (c : Char) (rest : List Nat)
    (h : utf8DecodeOne bs = some (c, rest)) :
    utf8EncodeChar c ++ rest = bs := by
  cases bs with
  | nil => simp [utf8DecodeOne] at h
  | cons b tail =>
    rw [utf8DecodeOne.eq_def] at h
    simp only [] at h
    by_cases h1 : b < 0x80
    · rw [if_pos h1] at h
      simp only [Option.some.injEq, Prod.mk.injEq] at h
      obtain ⟨hc, hrest⟩ := h
      subst hc
      subst hrest
      have hv : Nat.isValidChar b := Or.inl (by omega)
      have htN := char_toNat_ofNat b hv
      simp only [utf8EncodeChar, htN]
      rw [if_pos h1]
      rfl
    · rw [if_neg h1] at h
      by_cases h2 : (0xC2 ≤ b && b ≤ 0xDF) = true
      · rw [if_pos h2] at h
        simp only [Bool.and_eq_true, decide_eq_true_eq] at h2
        cases tail with
        | nil => simp at h
        | cons c2 tail2 =>
          simp only [] at h
          by_cases h3 : isCont c2 = true
          · rw [if_pos h3] at h
            simp only [isCont, Bool.and_eq_true, decide_eq_true_eq] at h3
            simp only [Option.some.injEq, Prod.mk.injEq] at h
            obtain ⟨hc, hrest⟩ := h
            subst hc
            subst hrest
            have hv : Nat.isValidChar ((b - 0xC0) * 0x40 + (c2 - 0x80)) :=
              Or.inl (by omega)
            have htN := char_toNat_ofNat _ hv
            simp only [utf8EncodeChar, htN]
            rw [if_neg (by omega), if_pos (by omega)]
            simp only [List.cons_append, List.nil_append, List.cons.injEq]
            refine ⟨by omega, by omega, trivial⟩
          · rw [if_neg h3] at h
            simp at h
      · rw [if_neg h2] at h
        by_cases h4 : (0xE0 ≤ b && b ≤ 0xEF) = true
        · rw [if_pos h4] at h
          simp only [Bool.and_eq_true, decide_eq_true_eq] at h2 h4
          cases tail with
          | nil => simp at h
          | cons c2 tail2 =>
            cases tail2 with
            | nil => simp at h
            | cons d tail3 =>
              simp only [] at h
              by_cases h5 : ((if (b == 0xE0) = true then
                  decide (0xA0 ≤ c2) && decide (c2 ≤ 0xBF)
                else if (b == 0xED) = true then
                  decide (0x80 ≤ c2) && decide (c2 ≤ 0x9F)
                else isCont c2) && isCont d) = true
              · rw [if_pos h5] at h
                simp only [Bool.and_eq_true] at h5
                obtain ⟨hokc, hd⟩ := h5
                simp only [isCont, Bool.and_eq_true, decide_eq_true_eq] at hd
                have hc2 : 0x80 ≤ c2 ∧ c2 ≤ 0xBF := by
                  by_cases hb0 : b = 0xE0
                  · rw [if_pos (by simp [hb0])] at hokc
                    simp only [Bool.and_eq_true, decide_eq_true_eq] at hokc
                    omega
                  · rw [if_neg (by simp [hb0])] at hokc
                    by_cases hbd : b = 0xED
                    · rw [if_pos (by simp [hbd])] at hokc
                      simp only [Bool.and_eq_true, decide_eq_true_eq] at hokc
                      omega
                    · rw [if_neg (by simp [hbd])] at hokc
                      simp only [isCont, Bool.and_eq_true,
                        decide_eq_true_eq] at hokc
                      omega
                have he0 : b = 0xE0 → 0xA0 ≤ c2 := by
                  intro hb0
                  rw [if_pos (by simp [hb0])] at hokc
                  simp only [Bool.and_eq_true, decide_eq_true_eq] at hokc
                  omega
                have hed : b = 0xED → c2 ≤ 0x9F := by
                  intro hbd
                  rw [if_neg (by simp [show b ≠ 0xE0 from by omega]),
                    if_pos (by simp [hbd])] at hokc
                  simp only [Bool.and_eq_true, decide_eq_true_eq] at hokc
                  omega
                simp only [Option.some.injEq, Prod.mk.injEq] at h
                obtain ⟨hc, hrest⟩ := h
                subst hc
                subst hrest
                have hlow : 0x800 ≤ (b - 0xE0) * 0x1000 + (c2 - 0x80) * 0x40 +
                    (d - 0x80) := by
                  by_cases hb0 : b = 0xE0
                  · have := he0 hb0
                    omega
                  · omega
                have hv : Nat.isValidChar ((b - 0xE0) * 0x1000 +
                    (c2 - 0x80) * 0x40 + (d - 0x80)) := by
                  rcases Nat.lt_or_ge ((b - 0xE0) * 0x1000 + (c2 - 0x80) * 0x40 +
                    (d - 0x80)) 0xD800 with hlt | hge
                  · exact Or.inl hlt
                  · refine Or.inr ⟨?_, by omega⟩
                    by_cases hbd : b = 0xED
                    · have := hed hbd
                      omega
                    · omega
                have htN := char_toNat_ofNat _ hv
                simp only [utf8EncodeChar, htN]
                rw [if_neg (by omega), if_neg (by omega), if_pos (by omega)]
                simp only [List.cons_append, List.nil_append, List.cons.injEq]
                refine ⟨by omega, by omega, by omega, trivial⟩
              · rw [if_neg h5] at h
                simp at h
        · rw [if_neg h4] at h
          by_cases h6 : (0xF0 ≤ b && b ≤ 0xF4) = true
          · rw [if_pos h6] at h
            simp only [Bool.and_eq_true, decide_eq_true_eq] at h6
            cases tail with
            | nil => simp at h
            | cons c2 tail2 =>
              cases tail2 with
              | nil => simp at h
              | cons d tail3 =>
                cases tail3 with
                | nil => simp at h
                | cons e tail4 =>
                  simp only [] at h
                  by_cases h7 : ((if (b == 0xF0) = true then
                      decide (0x90 ≤ c2) && decide (c2 ≤ 0xBF)
                    else if (b == 0xF4) = true then
                      decide (0x80 ≤ c2) && decide (c2 ≤ 0x8F)
                    else isCont c2) && isCont d && isCont e) = true
                  · rw [if_pos h7] at h
                    simp only [Bool.and_eq_true] at h7
                    obtain ⟨⟨hokc, hd⟩, he⟩ := h7
                    simp only [isCont, Bool.and_eq_true,
                      decide_eq_true_eq] at hd he
                    have hc2 : 0x80 ≤ c2 ∧ c2 ≤ 0xBF := by
                      by_cases hb0 : b = 0xF0
                      · rw [if_pos (by simp [hb0])] at hokc
                        simp only [Bool.and_eq_true, decide_eq_true_eq] at hokc
                        omega
                      · rw [if_neg (by simp [hb0])] at hokc
                        by_cases hb4 : b = 0xF4
                        · rw [if_pos (by simp [hb4])] at hokc
                          simp only [Bool.and_eq_true,
                            decide_eq_true_eq] at hokc
                          omega
                        · rw [if_neg (by simp [hb4])] at hokc
                          simp only [isCont, Bool.and_eq_true,
                            decide_eq_true_eq] at hokc
                          omega
                    have hf0 : b = 0xF0 → 0x90 ≤ c2 := by
                      intro hb0
                      rw [if_pos (by simp [hb0])] at hokc
                      simp only [Bool.and_eq_true, decide_eq_true_eq] at hokc
                      omega
                    have hf4 : b = 0xF4 → c2 ≤ 0x8F := by
                      intro hb4
                      rw [if_neg (by simp [show b ≠ 0xF0 from by omega]),
                        if_pos (by simp [hb4])] at hokc
                      simp only [Bool.and_eq_true, decide_eq_true_eq] at hokc
                      omega
                    simp only [Option.some.injEq, Prod.mk.injEq] at h
                    obtain ⟨hc, hrest⟩ := h
                    subst hc
                    subst hrest
                    have hlow : 0x10000 ≤ (b - 0xF0) * 0x40000 +
                        (c2 - 0x80) * 0x1000 + (d - 0x80) * 0x40 + (e - 0x80) := by
                      by_cases hb0 : b = 0xF0
                      · have := hf0 hb0
                        omega
                      · omega
                    have hhigh : (b - 0xF0) * 0x40000 + (c2 - 0x80) * 0x1000 +
                        (d - 0x80) * 0x40 + (e - 0x80) < 0x110000 := by
                      by_cases hb4 : b = 0xF4
                      · have := hf4 hb4
                        omega
                      · omega
                    have hv : Nat.isValidChar ((b - 0xF0) * 0x40000 +
                        (c2 - 0x80) * 0x1000 + (d - 0x80) * 0x40 + (e - 0x80)) :=
                      Or.inr ⟨by omega, hhigh⟩
                    have htN := char_toNat_ofNat _ hv
                    simp only [utf8EncodeChar, htN]
                    rw [if_neg (by omega), if_neg (by omega), if_neg (by omega)]
                    simp only [List.cons_append, List.nil_append,
                      List.cons.injEq]
                    refine ⟨by omega, by omega, by omega, by omega, trivial⟩
                  · rw [if_neg h7] at h
                    simp at h
          · rw [if_neg h6] at h
            simp at h

/-- A successful strict UTF-8 decode re-encodes to the original bytes. -/
theorem utf8Encode_decodeAux : ∀ (fuel : Nat) (bytes : List Nat)
    (text : List Char), utf8DecodeAux fuel bytes = some text →
    utf8Encode text = bytes := by
  intro fuel
  induction fuel with
  | zero =>
    intro bytes text h
    cases bytes with
    | nil =>
      simp only [utf8DecodeAux, Option.some.injEq] at h
      subst h
      rfl
    | cons b tail => simp [utf8DecodeAux] at h
  | succ f ih =>
    intro bytes text h
    cases bytes with
    | nil =>
      simp only [utf8DecodeAux, Option.some.injEq] at h
      subst h
      rfl
    | cons b tail =>
      rw [utf8DecodeAux_step f _ (by simp)] at h
      cases hdec : utf8DecodeOne (b :: tail) with
      | none => rw [hdec] at h; simp at h
      | some cr =>
        obtain ⟨c, rest⟩ := cr
        rw [hdec] at h
        simp only [Option.map_eq_some'] at h
        obtain ⟨t', ht', rfl⟩ := h
        rw [utf8Encode_cons, ih rest t' ht',
          utf8EncodeChar_decodeOne _ _ _ hdec]

theorem utf8Encode_decode (bytes : List Nat) (text : List Char)
    (h : utf8Decode bytes = some text) : utf8Encode text = bytes :=
  utf8Encode_decodeAux _ _ _ h

/-- Re-encoding the mixed UTF-16 decode of a buffer of 16-bit units gives
back the buffer. -/
theorem mixedUtf16_decodeAux : ∀ (fuel : Nat) (units : List Nat),
    units.length ≤ fuel → (∀ u ∈ units, u < 0x10000) →
    mixedUtf16 (decodeUtf16Aux fuel units) = units := by
  intro fuel
  induction fuel with
  | zero =>
    intro units hlen _
    have h0 : units = [] := List.length_eq_zero.mp (Nat.le_zero.mp hlen)
    subst h0
    rfl
  | succ f ih =>
    intro units hlen hu
    cases units with
    | nil => rfl
    | cons u tail =>
      simp only [List.length_cons, Nat.succ_le_succ_iff] at hlen
      have hu1 : u < 0x10000 := hu u (by simp)
      rw [decodeUtf16Aux_cons]
      by_cases h1 : (u < 0xD800 || 0xDFFF < u) = true
      · rw [if_pos h1]
        simp only [Bool.or_eq_true, decide_eq_true_eq] at h1
        have hv : Nat.isValidChar u := by
          rcases h1 with h | h
          · exact Or.inl h
          · exact Or.inr ⟨h, by omega⟩
        have htN := char_toNat_ofNat u hv
        show utf16EncodeChar (Char.ofNat u) ++
          mixedUtf16 (decodeUtf16Aux f tail) = u :: tail
        rw [utf16EncodeChar, htN, if_pos hu1,
          ih tail hlen (fun v hv' => hu v (by simp [hv']))]
        rfl
      · rw [if_neg h1]
        simp only [Bool.or_eq_true, decide_eq_true_eq, not_or, not_lt] at h1
        by_cases h2 : 0xDC00 ≤ u
        · rw [if_pos h2]
          show u :: mixedUtf16 (decodeUtf16Aux f tail) = u :: tail
          rw [ih tail hlen (fun v hv' => hu v (by simp [hv']))]
        · rw [if_neg h2]
          cases tail with
          | nil => rfl
          | cons v tail2 =>
            simp only [List.length_cons] at hlen
            have hv1 : v < 0x10000 := hu v (by simp)
            show mixedUtf16 (if (decide (0xDC00 ≤ v) && decide (v ≤ 0xDFFF))
                  = true then
                Sum.inl (Char.ofNat (0x10000 + (u - 0xD800) * 0x400 +
                  (v - 0xDC00))) :: decodeUtf16Aux f tail2
              else Sum.inr u :: decodeUtf16Aux f (v :: tail2)) = u :: v :: tail2
            by_cases h3 : (0xDC00 ≤ v && v ≤ 0xDFFF) = true
            · rw [if_pos h3]
              simp only [Bool.and_eq_true, decide_eq_true_eq] at h3
              have hval : Nat.isValidChar (0x10000 + (u - 0xD800) * 0x400 +
                  (v - 0xDC00)) := Or.inr ⟨by omega, by omega⟩
              have htN := char_toNat_ofNat _ hval
              show utf16EncodeChar _ ++
                mixedUtf16 (decodeUtf16Aux f tail2) = u :: v :: tail2
              rw [utf16EncodeChar, htN, if_neg (by omega),
                ih tail2 (by omega) (fun w hw => hu w (by simp [hw]))]
              simp only [List.cons_append, List.nil_append, List.cons.injEq]
              refine ⟨by omega, by omega, trivial⟩
            · rw [if_neg h3]
              show u :: mixedUtf16 (decodeUtf16Aux f (v :: tail2)) =
                u :: v :: tail2
              rw [ih (v :: tail2) (by simp; omega)
                (fun w hw => hu w (by simp at hw ⊢; tauto))]

theorem mixedUtf16_decode (units : List Nat) (hu : ∀ u ∈ units, u < 0x10000) :
    mixedUtf16 (decodeUtf16 units) = units :=
  mixedUtf16_decodeAux _ _ (Nat.le_refl _) hu

/-- A successful `collectOk` means every item was a decoded character. -/
theorem collectOk_eq_some (l : List (Char ⊕ Nat)) (t : List Char)
    (h : collectOk l = some t) : l = t.map Sum.inl := by
  induction l generalizing t with
  | nil =>
    simp only [collectOk, Option.some.injEq] at h
    subst h
    rfl
  | cons item rest ih =>
    cases item with
    | inl c =>
      simp only [collectOk, Option.map_eq_some'] at h
      obtain ⟨t', ht', rfl⟩ := h
      simp [ih t' ht']
    | inr u => simp [collectOk] at h

/-- Every raw unit the UTF-16 decoder reports is an unpaired surrogate. -/
theorem decodeUtf16Aux_inr_surrogate : ∀ (fuel : Nat) (units : List Nat)
    (u : Nat), Sum.inr u ∈ decodeUtf16Aux fuel units →
    0xD800 ≤ u ∧ u ≤ 0xDFFF := by
  intro fuel
  induction fuel with
  | zero =>
    intro units u h
    simp [decodeUtf16Aux] at h
  | succ f ih =>
    intro units u h
    cases units with
    | nil => simp [decodeUtf16Aux] at h
    | cons w tail =>
      rw [decodeUtf16Aux_cons] at h
      by_cases h1 : (w < 0xD800 || 0xDFFF < w) = true
      · rw [if_pos h1] at h
        simp only [List.mem_cons] at h
        rcases h with h | h
        · simp at h
        · exact ih tail u h
      · rw [if_neg h1] at h
        simp only [Bool.or_eq_true, decide_eq_true_eq, not_or, not_lt] at h1
        by_cases h2 : 0xDC00 ≤ w
        · rw [if_pos h2] at h
          simp only [List.mem_cons] at h
          rcases h with h | h
          · simp only [Sum.inr.injEq] at h
            omega
          · exact ih tail u h
        · rw [if_neg h2] at h
          cases tail with
          | nil =>
            simp only [List.mem_singleton, Sum.inr.injEq] at h
            omega
          | cons v tail2 =>
            simp only [] at h
            by_cases h3 : (0xDC00 ≤ v && v ≤ 0xDFFF) = true
            · rw [if_pos h3] at h
              simp only [List.mem_cons] at h
              rcases h with h | h
              · simp at h
              · exact ih tail2 u h
            · rw [if_neg h3] at h
              simp only [List.mem_cons] at h
              rcases h with h | h
              · simp only [Sum.inr.injEq] at h
                omega
              · exact ih (v :: tail2) u h

/-! ## Stepping lemmas for the simulated PowerShell reader -/

theorem psDqF_step_normal (fuel : Nat) (c : Char) (rest : List Char) :
    psDqF (fuel + 1) .normal (c :: rest) =
      if unicode.is_double_quote c then
        match rest with
        | [] => some []
        | _ :: _ => none
      else if c = '`' then psDqF fuel .esc rest
      else if c = '$' then none
      else (psDqF fuel .normal rest).map (Sum.inl c :: ·) := rfl

theorem psDqF_step_esc (fuel : Nat) (e : Char) (rest : List Char) :
    psDqF (fuel + 1) .esc (e :: rest) =
      if e = '0' then (psDqF fuel .normal rest).map (Sum.inl '\x00' :: ·)
      else if e = 'r' then (psDqF fuel .normal rest).map (Sum.inl '\x0D' :: ·)
      else if e = 'n' then (psDqF fuel .normal rest).map (Sum.inl '\x0A' :: ·)
      else if e = 't' then (psDqF fuel .normal rest).map (Sum.inl '\x09' :: ·)
      else if e = 'a' then (psDqF fuel .normal rest).map (Sum.inl '\x07' :: ·)
      else if e = 'b' then (psDqF fuel .normal rest).map (Sum.inl '\x08' :: ·)
      else if e = 'v' then (psDqF fuel .normal rest).map (Sum.inl '\x0B' :: ·)
      else if e = 'f' then (psDqF fuel .normal rest).map (Sum.inl '\x0C' :: ·)
      else if e = 'u' then psDqF fuel .uopen rest
      else (psDqF fuel .normal rest).map (Sum.inl e :: ·) := rfl

theorem psDqF_step_uopen (fuel : Nat) (c : Char) (rest : List Char) :
    psDqF (fuel + 1) .uopen (c :: rest) =
      if c = '{' then psDqF fuel (.hex true 0) rest else none := rfl

theorem psDqF_step_hex (fuel : Nat) (first : Bool) (acc : Nat) (c : Char)
    (rest : List Char) :
    psDqF (fuel + 1) (.hex first acc) (c :: rest) =
      if c = '}' then
        if first then none
        else
          match psUnit acc with
          | some item => (psDqF fuel .normal rest).map (item :: ·)
          | none => none
      else if isUpperHexDigit c then
        psDqF fuel (.hex false (acc * 16 + hexVal c)) rest
      else none := rfl

theorem psSqF_step_false (fuel : Nat) (q : Char) (rest : List Char) :
    psSqF (fuel + 1) false (q :: rest) =
      if unicode.is_single_quote q then psSqF fuel true rest
      else (psSqF fuel false rest).map (Sum.inl q :: ·) := rfl

theorem psSqF_step_true (fuel : Nat) (q2 : Char) (rest : List Char) :
    psSqF (fuel + 1) true (q2 :: rest) =
      if unicode.is_single_quote q2 then
        (psSqF fuel false rest).map (Sum.inl q2 :: ·)
      else none := rfl

/-- Reading the digits of a brace escape: the hex run accumulates and the
closing brace emits. -/
theorem psDqF_hexrun : ∀ (ds : List Char), (∀ d ∈ ds, isUpperHexDigit d = true) →
    ∀ (acc fuel : Nat) (rest : List Char),
    psDqF (fuel + (ds.length + 1)) (.hex false acc) (ds ++ '}' :: rest) =
      match psUnit (ds.foldl (fun a d => a * 16 + hexVal d) acc) with
      | some item => (psDqF fuel .normal rest).map (item :: ·)
      | none => none := by
  intro ds
  induction ds with
  | nil =>
    intro _ acc fuel rest
    rw [List.nil_append]
    show psDqF (fuel + 1) (.hex false acc) ('}' :: rest) = _
    rw [psDqF_step_hex, if_pos rfl]
    rfl
  | cons d ds' ih =>
    intro hds acc fuel rest
    have hd := hds d (by simp)
    have hne : d ≠ '}' := by
      intro hd'
      rw [hd'] at hd
      simp [isUpperHexDigit] at hd
    rw [List.cons_append]
    show psDqF ((fuel + (ds'.length + 1)) + 1) (.hex false acc)
      (d :: (ds' ++ '}' :: rest)) = _
    rw [psDqF_step_hex, if_neg hne, if_pos hd,
      ih (fun x hx => hds x (by simp [hx])) (acc * 16 + hexVal d) fuel rest]
    rfl

/-- One escaped item: the reader undoes `escapeItem` exactly (raw units must
be surrogates, which is all the encoder ever emits). -/
theorem psDqF_item (item : Char ⊕ Nat)
    (hwf : ∀ u, item = Sum.inr u → 0xD800 ≤ u ∧ u ≤ 0xDFFF)
    (rest : List Char) (fuel : Nat) :
    psDqF (fuel + (escapeItem item).length) .normal (escapeItem item ++ rest) =
      (psDqF fuel .normal rest).map (item :: ·) := by
  cases item with
  | inr u =>
    have hu := hwf u rfl
    have hnonempty : hexPad 4 u ≠ [] := by
      rw [hexPad]
      intro hx
      exact toHex_ne_nil u (List.append_eq_nil.mp hx).2
    obtain ⟨d, ds', hds⟩ : ∃ d ds', hexPad 4 u = d :: ds' := by
      cases hx : hexPad 4 u with
      | nil => exact absurd hx hnonempty
      | cons d ds' => exact ⟨d, ds', rfl⟩
    have hdig := hexPad_digits 4 u
    rw [hds] at hdig
    have hlen5 : (['`', 'u', '{'] ++ hexPad 4 u ++ ['}']).length
        = ds'.length + 5 := by
      rw [hds]
      simp only [List.length_append, List.length_cons, List.length_nil]
      omega
    have hlist : (['`', 'u', '{'] ++ hexPad 4 u ++ ['}']) ++ rest
        = '`' :: 'u' :: '{' :: d :: (ds' ++ '}' :: rest) := by
      rw [hds]
      simp
    show psDqF (fuel + (['`', 'u', '{'] ++ hexPad 4 u ++ ['}']).length)
      .normal ((['`', 'u', '{'] ++ hexPad 4 u ++ ['}']) ++ rest) = _
    rw [hlen5, hlist]
    show psDqF (((((fuel + (ds'.length + 1)) + 1) + 1) + 1) + 1) .normal
      ('`' :: 'u' :: '{' :: d :: (ds' ++ '}' :: rest)) = _
    rw [psDqF_step_normal, if_neg (by decide), if_pos rfl,
      psDqF_step_esc]
    rw [if_neg (by decide), if_neg (by decide), if_neg (by decide),
      if_neg (by decide), if_neg (by decide), if_neg (by decide),
      if_neg (by decide), if_neg (by decide), if_pos rfl,
      psDqF_step_uopen, if_pos rfl, psDqF_step_hex,
      if_neg (by
        intro hd'
        have := hdig d (by simp)
        rw [hd'] at this
        simp [isUpperHexDigit] at this),
      if_pos (hdig d (by simp))]
    rw [psDqF_hexrun ds' (fun x hx => hdig x (by simp [hx]))]
    have hfold : ds'.foldl (fun a d => a * 16 + hexVal d) (0 * 16 + hexVal d)
        = fromHex (hexPad 4 u) := by
      rw [hds, fromHex]
      rfl
    rw [hfold, fromHex_hexPad]
    rw [psUnit, if_neg (by omega), if_pos (by omega)]
  | inl c =>
    show psDqF (fuel + (escapeChar c).length) .normal (escapeChar c ++ rest) = _
    by_cases h0 : c = '\x00'
    · subst h0
      rw [show escapeChar '\x00' = ['`', '0'] from by decide]
      show psDqF ((fuel + 1) + 1) .normal ('`' :: '0' :: rest) = _
      rw [psDqF_step_normal, if_neg (by decide), if_pos rfl,
        psDqF_step_esc, if_pos rfl]
    · by_cases hr : c = '\x0D'
      · subst hr
        rw [show escapeChar '\x0D' = ['`', 'r'] from by decide]
        show psDqF ((fuel + 1) + 1) .normal ('`' :: 'r' :: rest) = _
        rw [psDqF_step_normal, if_neg (by decide), if_pos rfl,
          psDqF_step_esc, if_neg (by decide), if_pos rfl]
      · by_cases hn : c = '\x0A'
        · subst hn
          rw [show escapeChar '\x0A' = ['`', 'n'] from by decide]
          show psDqF ((fuel + 1) + 1) .normal ('`' :: 'n' :: rest) = _
          rw [psDqF_step_normal, if_neg (by decide), if_pos rfl,
            psDqF_step_esc, if_neg (by decide), if_neg (by decide), if_pos rfl]
        · by_cases ht : c = '\x09'
          · subst ht
            rw [show escapeChar '\x09' = ['`', 't'] from by decide]
            show psDqF ((fuel + 1) + 1) .normal ('`' :: 't' :: rest) = _
            rw [psDqF_step_normal, if_neg (by decide), if_pos rfl,
              psDqF_step_esc, if_neg (by decide), if_neg (by decide),
              if_neg (by decide), if_pos rfl]
          · by_cases ha : c = '\x07'
            · subst ha
              rw [show escapeChar '\x07' = ['`', 'a'] from by decide]
              show psDqF ((fuel + 1) + 1) .normal ('`' :: 'a' :: rest) = _
              rw [psDqF_step_normal, if_neg (by decide), if_pos rfl,
                psDqF_step_esc, if_neg (by decide), if_neg (by decide),
                if_neg (by decide), if_neg (by decide), if_pos rfl]
            · by_cases hb : c = '\x08'
              · subst hb
                rw [show escapeChar '\x08' = ['`', 'b'] from by decide]
                show psDqF ((fuel + 1) + 1) .normal ('`' :: 'b' :: rest) = _
                rw [psDqF_step_normal, if_neg (by decide), if_pos rfl,
                  psDqF_step_esc, if_neg (by decide), if_neg (by decide),
                  if_neg (by decide), if_neg (by decide), if_neg (by decide),
                  if_pos rfl]
              · by_cases hv : c = '\x0B'
                · subst hv
                  rw [show escapeChar '\x0B' = ['`', 'v'] from by decide]
                  show psDqF ((fuel + 1) + 1) .normal ('`' :: 'v' :: rest) = _
                  rw [psDqF_step_normal, if_neg (by decide), if_pos rfl,
                    psDqF_step_esc, if_neg (by decide), if_neg (by decide),
                    if_neg (by decide), if_neg (by decide), if_neg (by decide),
                    if_neg (by decide), if_pos rfl]
                · by_cases hf : c = '\x0C'
                  · subst hf
                    rw [show escapeChar '\x0C' = ['`', 'f'] from by decide]
                    show psDqF ((fuel + 1) + 1) .normal ('`' :: 'f' :: rest) = _
                    rw [psDqF_step_normal, if_neg (by decide), if_pos rfl,
                      psDqF_step_esc, if_neg (by decide), if_neg (by decide),
                      if_neg (by decide), if_neg (by decide),
                      if_neg (by decide), if_neg (by decide),
                      if_neg (by decide), if_pos rfl]
                  · by_cases hflag : (requires_escape c || is_bidi c) = true
                    · have hch : escapeChar c =
                          ['`', 'u', '{'] ++ hexPad 2 c.toNat ++ ['}'] := by
                        rw [escapeChar, if_neg h0, if_neg hr, if_neg hn,
                          if_neg ht, if_neg ha, if_neg hb, if_neg hv,
                          if_neg hf, if_pos hflag]
                      obtain ⟨d, ds', hds⟩ : ∃ d ds',
                          hexPad 2 c.toNat = d :: ds' := by
                        cases hx : hexPad 2 c.toNat with
                        | nil =>
                          exfalso
                          have := hexPad_two_length c.toNat
                          rw [hx] at this
                          simp at this
                        | cons d ds' => exact ⟨d, ds', rfl⟩
                      have hdig := hexPad_digits 2 c.toNat
                      rw [hds] at hdig
                      have hlen5 : (['`', 'u', '{'] ++ hexPad 2 c.toNat
                          ++ ['}']).length = ds'.length + 5 := by
                        rw [hds]
                        simp only [List.length_append, List.length_cons,
                          List.length_nil]
                        omega
                      have hlist : (['`', 'u', '{'] ++ hexPad 2 c.toNat
                          ++ ['}']) ++ rest
                          = '`' :: 'u' :: '{' :: d :: (ds' ++ '}' :: rest) := by
                        rw [hds]
                        simp
                      rw [hch, hlen5, hlist]
                      show psDqF (((((fuel + (ds'.length + 1)) + 1) + 1) + 1)
                          + 1) .normal
                        ('`' :: 'u' :: '{' :: d :: (ds' ++ '}' :: rest)) = _
                      rw [psDqF_step_normal, if_neg (by decide), if_pos rfl,
                        psDqF_step_esc]
                      rw [if_neg (by decide), if_neg (by decide),
                        if_neg (by decide), if_neg (by decide),
                        if_neg (by decide), if_neg (by decide),
                        if_neg (by decide), if_neg (by decide), if_pos rfl,
                        psDqF_step_uopen, if_pos rfl, psDqF_step_hex,
                        if_neg (by
                          intro hd'
                          have := hdig d (by simp)
                          rw [hd'] at this
                          simp [isUpperHexDigit] at this),
                        if_pos (hdig d (by simp))]
                      rw [psDqF_hexrun ds' (fun x hx => hdig x (by simp [hx]))]
                      have hfold : ds'.foldl (fun a d => a * 16 + hexVal d)
                          (0 * 16 + hexVal d) = fromHex (hexPad 2 c.toNat) := by
                        rw [hds, fromHex]
                        rfl
                      rw [hfold, fromHex_hexPad]
                      have hval := char_toNat_range c
                      rw [psUnit, if_pos hval, char_ofNat_toNat]
                    · by_cases hbt : c = '`'
                      · subst hbt
                        rw [show escapeChar '`' = ['`', '`'] from by
                          rw [escapeChar, if_neg (by decide), if_neg (by decide),
                            if_neg (by decide), if_neg (by decide),
                            if_neg (by decide), if_neg (by decide),
                            if_neg (by decide), if_neg (by decide),
                            if_neg hflag, if_pos rfl]]
                        show psDqF ((fuel + 1) + 1) .normal
                          ('`' :: '`' :: rest) = _
                        rw [psDqF_step_normal, if_neg (by decide), if_pos rfl,
                          psDqF_step_esc, if_neg (by decide), if_neg (by decide),
                          if_neg (by decide), if_neg (by decide),
                          if_neg (by decide), if_neg (by decide),
                          if_neg (by decide), if_neg (by decide),
                          if_neg (by decide)]
                      · by_cases hdl : c = '$'
                        · subst hdl
                          rw [show escapeChar '$' = ['`', '$'] from by
                            rw [escapeChar, if_neg (by decide),
                              if_neg (by decide), if_neg (by decide),
                              if_neg (by decide), if_neg (by decide),
                              if_neg (by decide), if_neg (by decide),
                              if_neg (by decide), if_neg hflag,
                              if_neg (by decide), if_pos rfl]]
                          show psDqF ((fuel + 1) + 1) .normal
                            ('`' :: '$' :: rest) = _
                          rw [psDqF_step_normal, if_neg (by decide), if_pos rfl,
                            psDqF_step_esc, if_neg (by decide),
                            if_neg (by decide), if_neg (by decide),
                            if_neg (by decide), if_neg (by decide),
                            if_neg (by decide), if_neg (by decide),
                            if_neg (by decide), if_neg (by decide)]
                        · by_cases hdq : unicode.is_double_quote c = true
                          · rw [show escapeChar c = ['`', c] from by
                              rw [escapeChar, if_neg h0, if_neg hr, if_neg hn,
                                if_neg ht, if_neg ha, if_neg hb, if_neg hv,
                                if_neg hf, if_neg hflag, if_neg hbt,
                                if_neg hdl, if_pos hdq]]
                            show psDqF ((fuel + 1) + 1) .normal
                              ('`' :: c :: rest) = _
                            rw [psDqF_step_normal, if_neg (by decide),
                              if_pos rfl, psDqF_step_esc,
                              if_neg (by
                                intro h
                                subst h
                                exact absurd hdq (by decide)),
                              if_neg (by
                                intro h
                                subst h
                                exact absurd hdq (by decide)),
                              if_neg (by
                                intro h
                                subst h
                                exact absurd hdq (by decide)),
                              if_neg (by
                                intro h
                                subst h
                                exact absurd hdq (by decide)),
                              if_neg (by
                                intro h
                                subst h
                                exact absurd hdq (by decide)),
                              if_neg (by
                                intro h
                                subst h
                                exact absurd hdq (by decide)),
                              if_neg (by
                                intro h
                                subst h
                                exact absurd hdq (by decide)),
                              if_neg (by
                                intro h
                                subst h
                                exact absurd hdq (by decide)),
                              if_neg (by
                                intro h
                                subst h
                                exact absurd hdq (by decide))]
                          · rw [show escapeChar c = [c] from by
                              rw [escapeChar, if_neg h0, if_neg hr, if_neg hn,
                                if_neg ht, if_neg ha, if_neg hb, if_neg hv,
                                if_neg hf, if_neg hflag, if_neg hbt,
                                if_neg hdl, if_neg hdq]]
                            show psDqF (fuel + 1) .normal (c :: rest) = _
                            rw [psDqF_step_normal, if_neg hdq, if_neg hbt,
                              if_neg hdl]

/-- The whole escaped body followed by the closing quote reads back as the
item sequence. -/
theorem psDqF_escapedBody : ∀ (s : List (Char ⊕ Nat)),
    (∀ u, Sum.inr u ∈ s → 0xD800 ≤ u ∧ u ≤ 0xDFFF) →
    psDqF ((s.map escapeItem).flatten.length + 1) .normal
      ((s.map escapeItem).flatten ++ ['"']) = some s := by
  intro s
  induction s with
  | nil =>
    intro _
    decide
  | cons item s' ih =>
    intro hwf
    rw [List.map_cons, List.flatten_cons, List.append_assoc,
      show (escapeItem item ++ (s'.map escapeItem).flatten).length + 1 =
        ((s'.map escapeItem).flatten.length + 1) + (escapeItem item).length
        from by
          simp only [List.length_append]
          omega,
      psDqF_item item (fun u hu => hwf u (by simp [hu])),
      ih (fun u hu => hwf u (by simp [hu]))]
    rfl

/-- A single-quote-free text inside single quotes reads back verbatim. -/
theorem psSqF_plain : ∀ (text : List Char),
    (∀ c ∈ text, unicode.is_single_quote c = false) →
    psSqF (text.length + 2) false (text ++ ['\'']) =
      some (text.map Sum.inl) := by
  intro text
  induction text with
  | nil => intro _; decide
  | cons c t ih =>
    intro h
    show psSqF ((t.length + 2) + 1) false (c :: (t ++ ['\''])) = _
    rw [psSqF_step_false, if_neg (by simp [h c (by simp)]),
      ih (fun x hx => h x (by simp [hx]))]
    rfl

/-- The quote-doubled body inside single quotes reads back verbatim. -/
theorem psSqF_doubling : ∀ (text : List Char),
    psSqF ((text.map fun c =>
        if unicode.is_single_quote c then ['\'', c] else [c]).flatten.length + 2)
      false
      ((text.map fun c =>
        if unicode.is_single_quote c then ['\'', c] else [c]).flatten ++ ['\''])
      = some (text.map Sum.inl) := by
  intro text
  induction text with
  | nil => decide
  | cons c t ih =>
    rw [List.map_cons, List.flatten_cons]
    by_cases hq : unicode.is_single_quote c = true
    · rw [if_pos hq]
      rw [show ((['\'', c] ++ (t.map fun c =>
          if unicode.is_single_quote c then ['\'', c] else [c]).flatten).length
          + 2) = (((t.map fun c =>
          if unicode.is_single_quote c then ['\'', c] else [c]).flatten.length
          + 2) + 1) + 1 from by
        simp only [List.length_append, List.length_cons, List.length_nil]
        omega]
      simp only [List.cons_append, List.nil_append]
      rw [psSqF_step_false, if_pos (by decide), psSqF_step_true, if_pos hq, ih]
      rfl
    · rw [if_neg hq]
      rw [show ((([c] ++ (t.map fun c =>
          if unicode.is_single_quote c then ['\'', c] else [c]).flatten).length
          + 2)) = ((t.map fun c =>
          if unicode.is_single_quote c then ['\'', c] else [c]).flatten.length
          + 2) + 1 from by
        simp only [List.length_append, List.length_cons, List.length_nil]
        omega]
      simp only [List.cons_append, List.nil_append]
      rw [psSqF_step_false, if_neg (by simp [hq]), ih]
      rfl

/-- A character that does not break double-quote safety is neither a
double-quote confusable nor a backtick nor a dollar. -/
theorem of_not_doubleQuoteBreak (c : Char) (h : doubleQuoteBreak c = false) :
    unicode.is_double_quote c = false ∧ c ≠ '`' ∧ c ≠ '$' := by
  by_cases hc : c.toNat < 128
  · rw [doubleQuoteBreak, if_pos hc] at h
    have hnm : c ∉ DOUBLE_UNSAFE := by
      intro hm
      have h2 : DOUBLE_UNSAFE.contains c = true := List.elem_eq_true_of_mem hm
      rw [h2] at h
      simp at h
    simp only [DOUBLE_UNSAFE, List.mem_cons, List.not_mem_nil, or_false,
      not_or] at hnm
    obtain ⟨hdq, hbt, hds⟩ := hnm
    exact ⟨by rw [is_double_quote_ascii c hc]; simp [hdq], hbt, hds⟩
  · rw [doubleQuoteBreak, if_neg hc] at h
    refine ⟨h, ?_, ?_⟩ <;>
      · intro hcx
        subst hcx
        simp at hc

/-- A quote-break-free text inside double quotes reads back verbatim. -/
theorem psDqF_plain : ∀ (text : List Char),
    (∀ c ∈ text, doubleQuoteBreak c = false) →
    psDqF (text.length + 1) .normal (text ++ ['"']) =
      some (text.map Sum.inl) := by
  intro text
  induction text with
  | nil => intro _; decide
  | cons c t ih =>
    intro h
    obtain ⟨hdq, hbt, hds⟩ := of_not_doubleQuoteBreak c (h c (by simp))
    show psDqF ((t.length + 1) + 1) .normal (c :: (t ++ ['"'])) = _
    rw [psDqF_step_normal, if_neg (by simp [hdq]), if_neg hbt, if_neg hds,
      ih (fun x hx => h x (by simp [hx]))]
    rfl

/-- No ASCII-only special list contains a non-ASCII character. -/
theorem special_contains_nonascii (c : Char) (h : 128 ≤ c.toNat) :
    SPECIAL_SHELL_CHARS.contains c = false := by
  by_cases hmem : SPECIAL_SHELL_CHARS.contains c = true
  · exfalso
    have hm : c ∈ SPECIAL_SHELL_CHARS := List.mem_of_elem_eq_true hmem
    simp only [SPECIAL_SHELL_CHARS] at hm
    fin_cases hm <;> simp at h
  · cases hx : SPECIAL_SHELL_CHARS.contains c with
    | false => rfl
    | true => exact absurd hx hmem

/-- Characters the scan does not flag are bare-safe for the simulated
PowerShell reader, and in particular are not quote characters. -/
theorem psBareSafe_of_unflagged (c : Char) (h1 : scanSpecial c = false)
    (h2 : escapeTrigger c = false) :
    psBareSafe c = true ∧ unicode.is_single_quote c = false ∧
      unicode.is_double_quote c = false := by
  by_cases hc : c.toNat < 128
  · rw [scanSpecial, if_pos hc] at h1
    rw [escapeTrigger, if_pos hc] at h2
    have hctrl : ¬(c.toNat < 0x20 ∨ c.toNat = 0x7F) := by
      intro hx
      rw [show (c.toNat < 0x20 || c.toNat == 0x7F) = true from by
        simp only [Bool.or_eq_true, decide_eq_true_eq, beq_iff_eq]
        exact hx] at h2
      simp at h2
    have hne : ∀ x ∈ SPECIAL_SHELL_CHARS, c ≠ x := by
      intro x hx hcx
      subst hcx
      have h3 : SPECIAL_SHELL_CHARS.contains c = true :=
        List.elem_eq_true_of_mem hx
      rw [h3] at h1
      simp at h1
    have hsq : unicode.is_single_quote c = false := by
      rw [is_single_quote_ascii c hc]
      simp only [decide_eq_false_iff_not]
      exact hne '\'' (by decide)
    have hdq : unicode.is_double_quote c = false := by
      rw [is_double_quote_ascii c hc]
      simp only [decide_eq_false_iff_not]
      exact hne '"' (by decide)
    have hspN : c.toNat ≠ 32 := by
      intro hx
      exact hne ' ' (by decide) ((char_eq_iff c ' ').mpr hx)
    have hws : unicode.is_whitespace c = false := by
      have e1 : (' ' : Char).toNat = 32 := by decide
      have e2 : ('\t' : Char).toNat = 9 := by decide
      have e3 : ('\x0B' : Char).toNat = 11 := by decide
      have e4 : ('\x0C' : Char).toNat = 12 := by decide
      have e5 : ('\u00A0' : Char).toNat = 160 := by decide
      have e6 : ('\u0085' : Char).toNat = 133 := by decide
      simp only [unicode.is_whitespace, unicode.is_separator,
        Bool.or_eq_false_iff, Bool.and_eq_false_iff, beq_eq_false_iff_ne,
        ne_eq, char_eq_iff, decide_eq_false_iff_not]
      omega
    have hre : requires_escape c = false := by
      simp only [requires_escape, Bool.or_eq_false_iff, decide_eq_false_iff_not,
        beq_eq_false_iff_ne, ne_eq, Bool.and_eq_false_iff]
      omega
    have hctrlb : (decide (c.toNat < 0x20) || c.toNat == 0x7F) = false := by
      simp only [Bool.or_eq_false_iff, decide_eq_false_iff_not,
        beq_eq_false_iff_ne, ne_eq]
      omega
    refine ⟨?_, hsq, hdq⟩
    rw [psBareSafe, hws, hsq, hdq, h1, hctrlb, hre]
    rfl
  · rw [scanSpecial, if_neg hc] at h1
    rw [escapeTrigger, if_neg hc] at h2
    simp only [Bool.or_eq_false_iff] at h1
    obtain ⟨⟨hws, hdq⟩, hsq⟩ := h1
    have hctrlb : (decide (c.toNat < 0x20) || c.toNat == 0x7F) = false := by
      simp only [Bool.or_eq_false_iff, decide_eq_false_iff_not,
        beq_eq_false_iff_ne, ne_eq]
      omega
    refine ⟨?_, hsq, hdq⟩
    rw [psBareSafe, hws, hsq, hdq, special_contains_nonascii c (by omega),
      hctrlb, h2]
    rfl

/-- The escaped-literal output reads back as the exact item sequence. -/
theorem psToken_write_escaped (s : List (Char ⊕ Nat))
    (hwf : ∀ u, Sum.inr u ∈ s → 0xD800 ≤ u ∧ u ≤ 0xDFFF) :
    psToken (write_escaped s) = some s := by
  rw [write_escaped]
  show psToken ('"' :: ((s.map escapeItem).flatten ++ ['"'])) = some s
  rw [psToken, if_neg (by decide), if_pos (by decide),
    show ((s.map escapeItem).flatten ++ ['"']).length =
      (s.map escapeItem).flatten.length + 1 from by simp]
  exact psDqF_escapedBody s hwf

/-- `mixedUtf16` of a pure character sequence is its UTF-16 encoding. -/
theorem mixedUtf16_map_inl (t : List Char) :
    mixedUtf16 (t.map Sum.inl) = utf16Encode t := by
  induction t with
  | nil => rfl
  | cons c s ih =>
    show utf16EncodeChar c ++ mixedUtf16 (s.map Sum.inl) = _
    rw [ih]
    rfl

/-- The simulated PowerShell reader recovers the source from every output
of `windows::write`. -/
theorem psToken_write (text : List Char) (force : Bool) :
    psToken (write text force) = some (text.map Sum.inl) := by
  rw [write, writeWith_eq]
  by_cases h1 : text.any escapeTrigger = true
  · rw [if_pos h1]
    exact psToken_write_escaped (text.map Sum.inl) (by simp)
  · rw [if_neg h1]
    by_cases h2 : (text.any is_bidi && is_suspicious_bidi text) = true
    · rw [if_pos h2]
      exact psToken_write_escaped (text.map Sum.inl) (by simp)
    · rw [if_neg h2]
      by_cases h3 : (!((if force then true else startQuote text) ||
          text.any scanSpecial)) = true
      · rw [if_pos h3]
        simp only [Bool.not_eq_true', Bool.or_eq_false_iff] at h3
        obtain ⟨hstart, hspec⟩ := h3
        have hflag : ∀ c ∈ text, scanSpecial c = false ∧
            escapeTrigger c = false := by
          intro c hc
          constructor
          · by_contra hx
            rw [show text.any scanSpecial = true from
              List.any_eq_true.mpr ⟨c, hc, by
                cases hy : scanSpecial c with
                | false => exact absurd hy hx
                | true => rfl⟩] at hspec
            simp at hspec
          · by_contra hx
            exact h1 (List.any_eq_true.mpr ⟨c, hc, by
              cases hy : escapeTrigger c with
              | false => exact absurd hy hx
              | true => rfl⟩)
        cases htext : text with
        | nil =>
          exfalso
          rw [htext] at hstart
          split at hstart
          · simp at hstart
          · simp [startQuote] at hstart
        | cons c rest =>
          rw [htext] at hflag
          obtain ⟨hsafe, hsq, hdq⟩ := psBareSafe_of_unflagged c
            (hflag c (by simp)).1 (hflag c (by simp)).2
          rw [psToken, if_neg (by simp [hsq]), if_neg (by simp [hdq]),
            if_pos (by
              rw [List.all_eq_true]
              intro x hx
              exact (psBareSafe_of_unflagged x (hflag x hx).1 (hflag x hx).2).1)]
      · rw [if_neg h3]
        by_cases h4 : (!text.any unicode.is_single_quote) = true
        · rw [if_pos h4]
          simp only [Bool.not_eq_true'] at h4
          rw [write_simple]
          show psToken ('\'' :: (text ++ ['\''])) = some (text.map Sum.inl)
          rw [psToken, if_pos (by decide),
            show (text ++ ['\'']).length + 1 = text.length + 2 from by
              simp]
          exact psSqF_plain text (fun c hc => by
            cases hy : unicode.is_single_quote c with
            | false => rfl
            | true =>
              exfalso
              rw [show text.any unicode.is_single_quote = true from
                List.any_eq_true.mpr ⟨c, hc, hy⟩] at h4
              simp at h4)
        · rw [if_neg h4]
          by_cases h5 : (!text.any doubleQuoteBreak) = true
          · rw [if_pos h5]
            simp only [Bool.not_eq_true'] at h5
            rw [write_simple]
            show psToken ('"' :: (text ++ ['"'])) = some (text.map Sum.inl)
            rw [psToken, if_neg (by decide), if_pos (by decide),
              show (text ++ ['"']).length = text.length + 1 from by simp]
            exact psDqF_plain text (fun c hc => by
              cases hy : doubleQuoteBreak c with
              | false => rfl
              | true =>
                exfalso
                rw [show text.any doubleQuoteBreak = true from
                  List.any_eq_true.mpr ⟨c, hc, hy⟩] at h5
                simp at h5)
          · rw [if_neg h5]
            rw [write_single_escaped]
            show psToken ('\'' :: ((text.map fun c =>
              if unicode.is_single_quote c then ['\'', c] else [c]).flatten
              ++ ['\''])) = some (text.map Sum.inl)
            rw [psToken, if_pos (by decide),
              show ((text.map fun c =>
                if unicode.is_single_quote c then ['\'', c] else [c]).flatten
                ++ ['\'']).length + 1 = (text.map fun c =>
                if unicode.is_single_quote c then ['\'', c] else [c]).flatten.length
                + 2 from by simp]
            exact psSqF_doubling text

/-- The simulated PowerShell reader recovers the original code units from
every output of the raw UTF-16 dispatch. -/
theorem psToken_windowsRaw (units : List Nat) (force : Bool)
    (hu : ∀ u ∈ units, u < 0x10000) :
    ∃ v, psToken (quotedFmt (.windowsRaw units) force) = some v ∧
      mixedUtf16 v = units := by
  rw [quotedFmt]
  cases hdec : fromUtf16 units with
  | some text =>
    refine ⟨text.map Sum.inl, psToken_write text force, ?_⟩
    rw [mixedUtf16_map_inl]
    have hlist := collectOk_eq_some _ _ hdec
    calc utf16Encode text = mixedUtf16 (text.map Sum.inl) :=
          (mixedUtf16_map_inl text).symm
    _ = mixedUtf16 (decodeUtf16 units) := by rw [← hlist]
    _ = units := mixedUtf16_decode units hu
  | none =>
    refine ⟨decodeUtf16 units, ?_, mixedUtf16_decode units hu⟩
    exact psToken_write_escaped _ (fun u hu' =>
      decodeUtf16Aux_inr_surrogate _ _ u hu')

/-! ## Stepping lemmas for the simulated POSIX reader -/

theorem shF_step_seg (fuel : Nat) (c : Char) (rest : List Char) :
    shF (fuel + 1) .seg (c :: rest) =
      if c = '\'' then shF fuel .sq rest
      else if c = '"' then shF fuel .dq rest
      else if c = '\\' then shF fuel .segEsc rest
      else if c = '$' then shF fuel .dollar rest
      else if shBareSafe c then (shF fuel .seg rest).map (utf8EncodeChar c ++ ·)
      else none := rfl

theorem shF_step_segEsc (fuel : Nat) (c : Char) (rest : List Char) :
    shF (fuel + 1) .segEsc (c :: rest) =
      (shF fuel .seg rest).map (utf8EncodeChar c ++ ·) := rfl

theorem shF_step_dollar (fuel : Nat) (c : Char) (rest : List Char) :
    shF (fuel + 1) .dollar (c :: rest) =
      if c = '\'' then shF fuel .ansi rest else none := rfl

theorem shF_step_sq (fuel : Nat) (c : Char) (rest : List Char) :
    shF (fuel + 1) .sq (c :: rest) =
      if c = '\'' then shF fuel .seg rest
      else (shF fuel .sq rest).map (utf8EncodeChar c ++ ·) := rfl

theorem shF_step_dq (fuel : Nat) (c : Char) (rest : List Char) :
    shF (fuel + 1) .dq (c :: rest) =
      if c = '"' then shF fuel .seg rest
      else if c = '`' ∨ c = '$' ∨ c = '\\' then none
      else (shF fuel .dq rest).map (utf8EncodeChar c ++ ·) := rfl

theorem shF_step_ansi (fuel : Nat) (c : Char) (rest : List Char) :
    shF (fuel + 1) .ansi (c :: rest) =
      if c = '\'' then shF fuel .seg rest
      else if c = '\\' then shF fuel .ansiEsc rest
      else (shF fuel .ansi rest).map (utf8EncodeChar c ++ ·) := rfl

theorem shF_step_ansiEsc (fuel : Nat) (e : Char) (rest : List Char) :
    shF (fuel + 1) .ansiEsc (e :: rest) =
      if e = 'n' then (shF fuel .ansi rest).map (0x0A :: ·)
      else if e = 't' then (shF fuel .ansi rest).map (0x09 :: ·)
      else if e = 'r' then (shF fuel .ansi rest).map (0x0D :: ·)
      else if e = '\\' then (shF fuel .ansi rest).map (0x5C :: ·)
      else if e = '\'' then (shF fuel .ansi rest).map (0x27 :: ·)
      else if e = 'x' then shF fuel (.ansiHex true 0) rest
      else none := rfl

theorem shF_step_ansiHex (fuel : Nat) (first : Bool) (acc : Nat) (c : Char)
    (rest : List Char) :
    shF (fuel + 1) (.ansiHex first acc) (c :: rest) =
      if isHexDigitChar c then
        shF fuel (.ansiHex false (acc * 16 + hexVal c)) rest
      else if first then none
      else if 0x100 ≤ acc then none
      else if c = '\'' then (shF fuel .seg rest).map (acc :: ·)
      else if c = '\\' then (shF fuel .ansiEsc rest).map (acc :: ·)
      else (shF fuel .ansi rest).map (fun bs => acc :: (utf8EncodeChar c ++ bs))
      := rfl

/-- A character not in the POSIX special set is none of the four segment
openers. -/
theorem unix_special_openers (c : Char)
    (h : UNIX_SPECIAL_SHELL_CHARS.contains c = false) :
    c ≠ '\'' ∧ c ≠ '"' ∧ c ≠ '\\' ∧ c ≠ '$' := by
  have hne : ∀ x ∈ UNIX_SPECIAL_SHELL_CHARS, c ≠ x := by
    intro x hx hcx
    subst hcx
    have h3 : UNIX_SPECIAL_SHELL_CHARS.contains c = true :=
      List.elem_eq_true_of_mem hx
    rw [h3] at h
    simp at h
  exact ⟨hne '\'' (by decide), hne '"' (by decide), hne '\\' (by decide),
    hne '$' (by decide)⟩

/-- A bare-safe text with nothing after it reads back as its bytes. -/
theorem shF_bare : ∀ (text : List Char), (∀ c ∈ text, shBareSafe c = true) →
    shF (text.length + 1) .seg text = some (utf8Encode text) := by
  intro text
  induction text with
  | nil => intro _; rfl
  | cons c t ih =>
    intro h
    have hsafe := h c (by simp)
    have hcont : UNIX_SPECIAL_SHELL_CHARS.contains c = false := by
      cases hx : UNIX_SPECIAL_SHELL_CHARS.contains c with
      | false => rfl
      | true =>
        rw [shBareSafe, hx] at hsafe
        simp at hsafe
    obtain ⟨h1, h2, h3, h4⟩ := unix_special_openers c hcont
    show shF ((t.length + 1) + 1) .seg (c :: t) = _
    rw [shF_step_seg, if_neg h1, if_neg h2, if_neg h3, if_neg h4,
      if_pos hsafe, ih (fun x hx => h x (by simp [hx]))]
    rw [utf8Encode_cons]
    rfl

/-- A quote-free run inside single quotes, then the closing quote, continues
into the following segments. -/
theorem shF_sq_run : ∀ (r : List Char), (∀ c ∈ r, c ≠ '\'') →
    ∀ (fuel : Nat) (tail : List Char),
    shF (fuel + (r.length + 1)) .sq (r ++ '\'' :: tail) =
      (shF fuel .seg tail).map (utf8Encode r ++ ·) := by
  intro r
  induction r with
  | nil =>
    intro _ fuel tail
    show shF (fuel + 1) .sq ('\'' :: tail) = _
    rw [shF_step_sq, if_pos rfl]
    cases shF fuel .seg tail <;> rfl
  | cons c r' ih =>
    intro h fuel tail
    show shF ((fuel + (r'.length + 1)) + 1) .sq (c :: (r' ++ '\'' :: tail)) = _
    rw [shF_step_sq, if_neg (h c (by simp)),
      ih (fun x hx => h x (by simp [hx])) fuel tail]
    cases shF fuel .seg tail <;> simp [utf8Encode_cons]

/-- A safe run inside double quotes, then the closing quote, continues into
the following segments. -/
theorem shF_dq_run : ∀ (r : List Char),
    (∀ c ∈ r, c ≠ '"' ∧ c ≠ '`' ∧ c ≠ '$' ∧ c ≠ '\\') →
    ∀ (fuel : Nat) (tail : List Char),
    shF (fuel + (r.length + 1)) .dq (r ++ '"' :: tail) =
      (shF fuel .seg tail).map (utf8Encode r ++ ·) := by
  intro r
  induction r with
  | nil =>
    intro _ fuel tail
    show shF (fuel + 1) .dq ('"' :: tail) = _
    rw [shF_step_dq, if_pos rfl]
    cases shF fuel .seg tail <;> rfl
  | cons c r' ih =>
    intro h fuel tail
    obtain ⟨h1, h2, h3, h4⟩ := h c (by simp)
    show shF ((fuel + (r'.length + 1)) + 1) .dq (c :: (r' ++ '"' :: tail)) = _
    rw [shF_step_dq, if_neg h1, if_neg (by tauto),
      ih (fun x hx => h x (by simp [hx])) fuel tail]
    cases shF fuel .seg tail <;> simp [utf8Encode_cons]

/-! ## Reading back the POSIX ANSI-C escaped path -/

theorem isHexDigitChar_of_upper (c : Char) (h : isUpperHexDigit c = true) :
    isHexDigitChar c = true := by
  simp only [isUpperHexDigit, isHexDigitChar, Bool.or_eq_true, Bool.and_eq_true,
    decide_eq_true_eq] at h ⊢
  rcases h with ⟨h1, h2⟩ | h
  · left; left
    simp only [Char.isDigit, Bool.and_eq_true, decide_eq_true_eq]
    rw [Char.le_def] at h1 h2
    have e0 : ('0' : Char).val = 48 := rfl
    have e9 : ('9' : Char).val = 57 := rfl
    rw [e0] at h1; rw [e9] at h2
    exact ⟨h1, h2⟩
  · right; exact h

theorem renderEmits_lit (c : Char) (rest : List UnixEmit) (ph : Bool) :
    renderEmits (.lit c :: rest) ph =
      (if ph && isHexDigitChar c then ['\'', '$', '\''] else []) ++
        c :: renderEmits rest false := rfl

theorem renderEmits_hex (n : Nat) (rest : List UnixEmit) (ph : Bool) :
    renderEmits (.hex n :: rest) ph =
      '\\' :: 'x' :: hexPad 2 n ++ renderEmits rest true := rfl

theorem renderEmits_named (s : List Char) (rest : List UnixEmit) (ph : Bool) :
    renderEmits (.named s :: rest) ph = s ++ renderEmits rest false := rfl

theorem emitsBytes_cons (e : UnixEmit) (es : List UnixEmit) :
    emitsBytes (e :: es) = emitBytes e ++ emitsBytes es := rfl

theorem emitsBytes_append (a b : List UnixEmit) :
    emitsBytes (a ++ b) = emitsBytes a ++ emitsBytes b := by
  simp [emitsBytes]

/-- Every byte of a UTF-8 encoding is a byte. -/
theorem utf8EncodeChar_lt (c : Char) : ∀ b ∈ utf8EncodeChar c, b < 0x100 := by
  have hc : c.toNat < 0x110000 := by
    rcases char_toNat_range c with h | ⟨h1, h2⟩
    · omega
    · omega
  intro b hb
  simp only [utf8EncodeChar] at hb
  split at hb
  · simp at hb; omega
  · split at hb
    · simp at hb; rcases hb with rfl | rfl <;> omega
    · split at hb
      · simp at hb; rcases hb with rfl | rfl | rfl <;> omega
      · simp at hb; rcases hb with rfl | rfl | rfl | rfl <;> omega

theorem utf8Encode_lt (text : List Char) : ∀ b ∈ utf8Encode text, b < 0x100 := by
  intro b hb
  simp only [utf8Encode, List.mem_flatten, List.mem_map] at hb
  obtain ⟨l, ⟨c, _, rfl⟩, hbl⟩ := hb
  exact utf8EncodeChar_lt c b hbl

theorem charEmits_wf (c : Char) : ∀ e ∈ charEmits c, EmitWf e := by
  intro e he
  rw [charEmits] at he
  by_cases h1 : c = '\n'
  · rw [if_pos h1] at he
    simp only [List.mem_singleton] at he
    subst he; subst h1
    exact Or.inl rfl
  rw [if_neg h1] at he
  by_cases h2 : c = '\t'
  · rw [if_pos h2] at he
    simp only [List.mem_singleton] at he
    subst he; subst h2
    exact Or.inr (Or.inl rfl)
  rw [if_neg h2] at he
  by_cases h3 : c = '\r'
  · rw [if_pos h3] at he
    simp only [List.mem_singleton] at he
    subst he; subst h3
    exact Or.inr (Or.inr (Or.inl rfl))
  rw [if_neg h3] at he
  by_cases h4 : c = '\\'
  · rw [if_pos h4] at he
    simp only [List.mem_singleton] at he
    subst he; subst h4
    exact Or.inr (Or.inr (Or.inr (Or.inl rfl)))
  rw [if_neg h4] at he
  by_cases h5 : c = '\''
  · rw [if_pos h5] at he
    simp only [List.mem_singleton] at he
    subst he; subst h5
    exact Or.inr (Or.inr (Or.inr (Or.inr rfl)))
  rw [if_neg h5] at he
  by_cases h6 : (c.toNat < 0x20 || c.toNat == 0x7F) = true
  · rw [if_pos h6] at he
    simp only [List.mem_singleton] at he
    subst he
    simp only [Bool.or_eq_true, decide_eq_true_eq, beq_iff_eq] at h6
    show c.toNat < 0x100
    omega
  rw [if_neg h6] at he
  by_cases h7 : (requires_escape c || is_bidi c) = true
  · rw [if_pos h7] at he
    simp only [List.mem_map] at he
    obtain ⟨b, hb, rfl⟩ := he
    exact utf8EncodeChar_lt c b hb
  · rw [if_neg h7] at he
    simp only [List.mem_singleton] at he
    subst he
    exact ⟨h5, h4⟩

/-- One step of the decode-error-aware byte walk. -/
theorem unixEmits_cons (fuel : Nat) (b : Nat) (rest : List Nat) :
    unixEmits (fuel + 1) (b :: rest) =
      match utf8DecodeOne (b :: rest) with
      | some (c, rest') => charEmits c ++ unixEmits fuel rest'
      | none => .hex b :: unixEmits fuel rest := rfl

theorem utf8DecodeOne_mem (bs : List Nat) (c : Char) (rest : List Nat)
    (h : utf8DecodeOne bs = some (c, rest)) : ∀ x ∈ rest, x ∈ bs := by
  intro x hx
  rw [← utf8EncodeChar_decodeOne bs c rest h]
  simp [hx]

theorem utf8DecodeOne_length (bs : List Nat) (c : Char) (rest : List Nat)
    (h : utf8DecodeOne bs = some (c, rest)) : rest.length < bs.length := by
  have hb := utf8EncodeChar_decodeOne bs c rest h
  have hpos : 0 < (utf8EncodeChar c).length :=
    List.length_pos.mpr (utf8EncodeChar_ne_nil c)
  rw [← hb, List.length_append]
  omega

theorem unixEmits_wf : ∀ (fuel : Nat) (bytes : List Nat),
    (∀ b ∈ bytes, b < 0x100) → ∀ e ∈ unixEmits fuel bytes, EmitWf e := by
  intro fuel
  induction fuel with
  | zero =>
    intro bytes _ e he
    simp [unixEmits] at he
  | succ fuel ih =>
    intro bytes hb e he
    cases bytes with
    | nil => simp [unixEmits] at he
    | cons b rest =>
      rw [unixEmits_cons] at he
      cases hdec : utf8DecodeOne (b :: rest) with
      | some pr =>
        obtain ⟨c, rest'⟩ := pr
        rw [hdec] at he
        simp only [List.mem_append] at he
        rcases he with he | he
        · exact charEmits_wf c e he
        · exact ih rest'
            (fun x hx => hb x (utf8DecodeOne_mem _ _ _ hdec x hx)) e he
      | none =>
        rw [hdec] at he
        simp only [List.mem_cons] at he
        rcases he with rfl | he
        · show b < 0x100
          exact hb b (by simp)
        · exact ih rest (fun x hx => hb x (by simp [hx])) e he

theorem flatten_hex_map (l : List Nat) :
    emitsBytes (l.map UnixEmit.hex) = l := by
  induction l with
  | nil => rfl
  | cons b t ih =>
    rw [List.map_cons, emitsBytes_cons, ih]
    rfl

theorem utf8EncodeChar_ascii (c : Char) (h : c.toNat < 0x80) :
    utf8EncodeChar c = [c.toNat] := by
  simp only [utf8EncodeChar]
  rw [if_pos h]

/-- The emissions for one scalar denote exactly its UTF-8 bytes. -/
theorem emitsBytes_charEmits (c : Char) :
    emitsBytes (charEmits c) = utf8EncodeChar c := by
  by_cases h1 : c = '\n'
  · subst h1; decide
  by_cases h2 : c = '\t'
  · subst h2; decide
  by_cases h3 : c = '\r'
  · subst h3; decide
  by_cases h4 : c = '\\'
  · subst h4; decide
  by_cases h5 : c = '\''
  · subst h5; decide
  rw [charEmits, if_neg h1, if_neg h2, if_neg h3, if_neg h4, if_neg h5]
  by_cases h6 : (c.toNat < 0x20 || c.toNat == 0x7F) = true
  · rw [if_pos h6]
    have hlt : c.toNat < 0x80 := by
      simp only [Bool.or_eq_true, decide_eq_true_eq, beq_iff_eq] at h6
      omega
    rw [utf8EncodeChar_ascii c hlt]
    rfl
  rw [if_neg h6]
  by_cases h7 : (requires_escape c || is_bidi c) = true
  · rw [if_pos h7]
    exact flatten_hex_map _
  · rw [if_neg h7]
    show utf8EncodeChar c ++ [] = utf8EncodeChar c
    simp

/-- The emissions of a byte buffer denote exactly that buffer. -/
theorem emitsBytes_unixEmits : ∀ (fuel : Nat) (bytes : List Nat),
    bytes.length ≤ fuel → emitsBytes (unixEmits fuel bytes) = bytes := by
  intro fuel
  induction fuel with
  | zero =>
    intro bytes hlen
    cases bytes with
    | nil => rfl
    | cons b rest => simp at hlen
  | succ fuel ih =>
    intro bytes hlen
    cases bytes with
    | nil => rfl
    | cons b rest =>
      rw [unixEmits_cons]
      cases hdec : utf8DecodeOne (b :: rest) with
      | some pr =>
        obtain ⟨c, rest'⟩ := pr
        have hlt := utf8DecodeOne_length _ _ _ hdec
        simp only [List.length_cons] at hlt hlen
        rw [emitsBytes_append, emitsBytes_charEmits,
          ih rest' (by omega)]
        exact utf8EncodeChar_decodeOne _ _ _ hdec
      | none =>
        simp only [List.length_cons] at hlen
        rw [emitsBytes_cons, ih rest (by omega)]
        rfl

/-- A run of hex digits is consumed digit by digit, accumulating. -/
theorem shF_hexrun : ∀ (ds : List Char), (∀ d ∈ ds, isHexDigitChar d = true) →
    ∀ (first : Bool) (acc fuel : Nat) (input : List Char), ds ≠ [] →
    shF (fuel + ds.length) (.ansiHex first acc) (ds ++ input) =
      shF fuel (.ansiHex false (ds.foldl (fun a d => a * 16 + hexVal d) acc))
        input := by
  intro ds
  induction ds with
  | nil =>
    intro _ _ _ _ _ hne
    exact absurd rfl hne
  | cons d ds' ih =>
    intro h first acc fuel input _
    show shF ((fuel + ds'.length) + 1) (.ansiHex first acc)
      (d :: (ds' ++ input)) = _
    rw [shF_step_ansiHex, if_pos (h d (by simp))]
    cases ds' with
    | nil => rfl
    | cons e es =>
      rw [ih (fun x hx => h x (by simp [hx])) false _ fuel input (by simp)]
      rfl

/-- The five named ANSI-C escapes read back as their bytes. -/
theorem shF_named_step (fuel : Nat) (input : List Char) (ch : Char)
    (byte : Nat)
    (hch : (ch = 'n' ∧ byte = 0x0A) ∨ (ch = 't' ∧ byte = 0x09) ∨
      (ch = 'r' ∧ byte = 0x0D) ∨ (ch = '\\' ∧ byte = 0x5C) ∨
      (ch = '\'' ∧ byte = 0x27)) :
    shF (fuel + 2) .ansi ('\\' :: ch :: input) =
      (shF fuel .ansi input).map (byte :: ·) := by
  rw [show fuel + 2 = (fuel + 1) + 1 from rfl]
  rw [shF_step_ansi, if_neg (by decide), if_pos rfl, shF_step_ansiEsc]
  rcases hch with ⟨rfl, rfl⟩ | ⟨rfl, rfl⟩ | ⟨rfl, rfl⟩ | ⟨rfl, rfl⟩ |
    ⟨rfl, rfl⟩
  · rw [if_pos rfl]
  · rw [if_neg (by decide), if_pos rfl]
  · rw [if_neg (by decide), if_neg (by decide), if_pos rfl]
  · rw [if_neg (by decide), if_neg (by decide), if_neg (by decide),
      if_pos rfl]
  · rw [if_neg (by decide), if_neg (by decide), if_neg (by decide),
      if_neg (by decide), if_pos rfl]

theorem shF_render_nil_P (ph : Bool) (fuel : Nat) (rest : List Char) :
    shF (fuel + ((renderEmits [] ph).length + 1)) .ansi
      (renderEmits [] ph ++ '\'' :: rest) =
      (shF fuel .seg rest).map (emitsBytes [] ++ ·) := by
  show shF (fuel + 1) .ansi ('\'' :: rest) = _
  rw [shF_step_ansi, if_pos rfl]
  cases shF fuel .seg rest <;> rfl

theorem shF_render_nil_Q (acc fuel : Nat) (rest : List Char)
    (hacc : acc < 0x100) :
    shF (fuel + ((renderEmits [] true).length + 1)) (.ansiHex false acc)
      (renderEmits [] true ++ '\'' :: rest) =
      (shF fuel .seg rest).map
        (fun bs => acc :: (emitsBytes ([] : List UnixEmit) ++ bs)) := by
  show shF (fuel + 1) (.ansiHex false acc) ('\'' :: rest) = _
  rw [shF_step_ansiHex, if_neg (by decide), if_neg (by decide),
    if_neg (by omega), if_pos rfl]
  cases shF fuel .seg rest <;> rfl

/-- The master read-back lemma for the rendered ANSI-C emissions: starting
either inside `$'…'` (first conjunct, any `prevHex` rendering flag) or just
after a `\xHH` escape whose value `acc` is still pending (second conjunct),
the simulated reader consumes the rendering and the closing quote, produces
exactly the denoted bytes, and continues with the rest of the token. -/
theorem shF_render : ∀ (N : Nat) (es : List UnixEmit), es.length ≤ N →
    (∀ e ∈ es, EmitWf e) →
    (∀ (ph : Bool) (fuel : Nat) (rest : List Char),
      shF (fuel + ((renderEmits es ph).length + 1)) .ansi
        (renderEmits es ph ++ '\'' :: rest) =
        (shF fuel .seg rest).map (emitsBytes es ++ ·)) ∧
    (∀ (acc fuel : Nat) (rest : List Char), acc < 0x100 →
      shF (fuel + ((renderEmits es true).length + 1)) (.ansiHex false acc)
        (renderEmits es true ++ '\'' :: rest) =
        (shF fuel .seg rest).map (fun bs => acc :: (emitsBytes es ++ bs))) := by
  intro N
  induction N with
  | zero =>
    intro es hlen hwf
    have hes : es = [] := List.length_eq_zero.mp (Nat.le_zero.mp hlen)
    subst hes
    exact ⟨shF_render_nil_P, shF_render_nil_Q⟩
  | succ N ih =>
    intro es hlen hwf
    cases es with
    | nil => exact ⟨shF_render_nil_P, shF_render_nil_Q⟩
    | cons e es' =>
      have hlen' : es'.length ≤ N := by
        simp only [List.length_cons] at hlen
        omega
      have hwf' : ∀ x ∈ es', EmitWf x := fun x hx => hwf x (by simp [hx])
      have hwfe : EmitWf e := hwf e (by simp)
      obtain ⟨ihP, ihQ⟩ := ih es' hlen' hwf'
      constructor
      · intro ph fuel rest
        cases e with
        | lit c =>
          obtain ⟨hc1, hc2⟩ := hwfe
          rw [renderEmits_lit]
          by_cases hsp : (ph && isHexDigitChar c) = true
          · rw [if_pos hsp]
            rw [show ((['\'', '$', '\''] ++ c :: renderEmits es' false) ++
                  '\'' :: rest) =
                  '\'' :: '$' :: '\'' :: c ::
                    (renderEmits es' false ++ '\'' :: rest) from by simp]
            rw [show fuel + (((['\'', '$', '\''] : List Char) ++
                  c :: renderEmits es' false).length + 1) =
                  (((((fuel + ((renderEmits es' false).length + 1)) + 1) + 1)
                    + 1) + 1) from by
                simp only [List.length_append, List.length_cons,
                  List.length_nil]
                omega]
            rw [shF_step_ansi, if_pos rfl]
            rw [shF_step_seg, if_neg (by decide), if_neg (by decide),
              if_neg (by decide), if_pos rfl]
            rw [shF_step_dollar, if_pos rfl]
            rw [shF_step_ansi, if_neg hc1, if_neg hc2]
            rw [ihP false fuel rest, emitsBytes_cons]
            cases shF fuel .seg rest <;>
              simp [show emitBytes (UnixEmit.lit c) = utf8EncodeChar c
                from rfl]
          · rw [if_neg hsp]
            rw [show (([] : List Char) ++ c :: renderEmits es' false) ++
                  '\'' :: rest =
                  c :: (renderEmits es' false ++ '\'' :: rest) from by simp]
            rw [show fuel + ((([] : List Char) ++
                  c :: renderEmits es' false).length + 1) =
                  ((fuel + ((renderEmits es' false).length + 1)) + 1) from by
                simp only [List.nil_append, List.length_cons]
                omega]
            rw [shF_step_ansi, if_neg hc1, if_neg hc2]
            rw [ihP false fuel rest, emitsBytes_cons]
            cases shF fuel .seg rest <;>
              simp [show emitBytes (UnixEmit.lit c) = utf8EncodeChar c
                from rfl]
        | hex n =>
          have hn : n < 0x100 := hwfe
          rw [renderEmits_hex]
          rw [show ('\\' :: 'x' :: hexPad 2 n ++ renderEmits es' true) ++
                '\'' :: rest =
                '\\' :: 'x' ::
                  (hexPad 2 n ++ (renderEmits es' true ++ '\'' :: rest))
                from by simp]
          rw [show fuel +
                (('\\' :: 'x' :: hexPad 2 n ++ renderEmits es' true).length
                  + 1) =
                ((((fuel + ((renderEmits es' true).length + 1)) +
                  (hexPad 2 n).length) + 1) + 1) from by
              simp only [List.length_cons, List.length_append]
              omega]
          rw [shF_step_ansi, if_neg (by decide), if_pos rfl]
          rw [shF_step_ansiEsc, if_neg (by decide), if_neg (by decide),
            if_neg (by decide), if_neg (by decide), if_neg (by decide),
            if_pos rfl]
          rw [shF_hexrun (hexPad 2 n)
            (fun d hd => isHexDigitChar_of_upper d (hexPad_digits 2 n d hd))
            true 0 (fuel + ((renderEmits es' true).length + 1))
            (renderEmits es' true ++ '\'' :: rest)
            (by intro hh
                have := hexPad_two_length n
                rw [hh] at this
                simp at this)]
          rw [show (hexPad 2 n).foldl (fun a d => a * 16 + hexVal d) 0 = n
            from fromHex_hexPad 2 n]
          rw [ihQ n fuel rest hn, emitsBytes_cons]
          cases shF fuel .seg rest <;>
            simp [show emitBytes (UnixEmit.hex n) = [n] from rfl]
        | named s =>
          rcases hwfe with hs | hs | hs | hs | hs <;> subst hs
          · rw [renderEmits_named]
            rw [show (['\\', 'n'] ++ renderEmits es' false) ++ '\'' :: rest =
                  '\\' :: 'n' :: (renderEmits es' false ++ '\'' :: rest)
                from by simp]
            rw [show fuel + (((['\\', 'n'] : List Char) ++
                  renderEmits es' false).length + 1) =
                  ((fuel + ((renderEmits es' false).length + 1)) + 2) from by
                simp only [List.length_append, List.length_cons,
                  List.length_nil]
                omega]
            rw [shF_named_step _ _ 'n' 0x0A (Or.inl ⟨rfl, rfl⟩)]
            rw [ihP false fuel rest, emitsBytes_cons]
            cases shF fuel .seg rest <;>
              simp [show emitBytes (UnixEmit.named ['\\', 'n']) = [0x0A]
                from by decide]
          · rw [renderEmits_named]
            rw [show (['\\', 't'] ++ renderEmits es' false) ++ '\'' :: rest =
                  '\\' :: 't' :: (renderEmits es' false ++ '\'' :: rest)
                from by simp]
            rw [show fuel + (((['\\', 't'] : List Char) ++
                  renderEmits es' false).length + 1) =
                  ((fuel + ((renderEmits es' false).length + 1)) + 2) from by
                simp only [List.length_append, List.length_cons,
                  List.length_nil]
                omega]
            rw [shF_named_step _ _ 't' 0x09 (Or.inr (Or.inl ⟨rfl, rfl⟩))]
            rw [ihP false fuel rest, emitsBytes_cons]
            cases shF fuel .seg rest <;>
              simp [show emitBytes (UnixEmit.named ['\\', 't']) = [0x09]
                from by decide]
          · rw [renderEmits_named]
            rw [show (['\\', 'r'] ++ renderEmits es' false) ++ '\'' :: rest =
                  '\\' :: 'r' :: (renderEmits es' false ++ '\'' :: rest)
                from by simp]
            rw [show fuel + (((['\\', 'r'] : List Char) ++
                  renderEmits es' false).length + 1) =
                  ((fuel + ((renderEmits es' false).length + 1)) + 2) from by
                simp only [List.length_append, List.length_cons,
                  List.length_nil]
                omega]
            rw [shF_named_step _ _ 'r' 0x0D
              (Or.inr (Or.inr (Or.inl ⟨rfl, rfl⟩)))]
            rw [ihP false fuel rest, emitsBytes_cons]
            cases shF fuel .seg rest <;>
              simp [show emitBytes (UnixEmit.named ['\\', 'r']) = [0x0D]
                from by decide]
          · rw [renderEmits_named]
            rw [show (['\\', '\\'] ++ renderEmits es' false) ++ '\'' :: rest =
                  '\\' :: '\\' :: (renderEmits es' false ++ '\'' :: rest)
                from by simp]
            rw [show fuel + (((['\\', '\\'] : List Char) ++
                  renderEmits es' false).length + 1) =
                  ((fuel + ((renderEmits es' false).length + 1)) + 2) from by
                simp only [List.length_append, List.length_cons,
                  List.length_nil]
                omega]
            rw [shF_named_step _ _ '\\' 0x5C
              (Or.inr (Or.inr (Or.inr (Or.inl ⟨rfl, rfl⟩))))]
            rw [ihP false fuel rest, emitsBytes_cons]
            cases shF fuel .seg rest <;>
              simp [show emitBytes (UnixEmit.named ['\\', '\\']) = [0x5C]
                from by decide]
          · rw [renderEmits_named]
            rw [show (['\\', '\''] ++ renderEmits es' false) ++ '\'' :: rest =
                  '\\' :: '\'' :: (renderEmits es' false ++ '\'' :: rest)
                from by simp]
            rw [show fuel + (((['\\', '\''] : List Char) ++
                  renderEmits es' false).length + 1) =
                  ((fuel + ((renderEmits es' false).length + 1)) + 2) from by
                simp only [List.length_append, List.length_cons,
                  List.length_nil]
                omega]
            rw [shF_named_step _ _ '\'' 0x27
              (Or.inr (Or.inr (Or.inr (Or.inr ⟨rfl, rfl⟩))))]
            rw [ihP false fuel rest, emitsBytes_cons]
            cases shF fuel .seg rest <;>
              simp [show emitBytes (UnixEmit.named ['\\', '\'']) = [0x27]
                from by decide]
      · intro acc fuel rest hacc
        cases e with
        | lit c =>
          obtain ⟨hc1, hc2⟩ := hwfe
          rw [renderEmits_lit]
          simp only [Bool.true_and]
          by_cases hhd : isHexDigitChar c = true
          · rw [if_pos hhd]
            rw [show ((['\'', '$', '\''] ++ c :: renderEmits es' false) ++
                  '\'' :: rest) =
                  '\'' :: '$' :: '\'' :: c ::
                    (renderEmits es' false ++ '\'' :: rest) from by simp]
            rw [show fuel + (((['\'', '$', '\''] : List Char) ++
                  c :: renderEmits es' false).length + 1) =
                  (((((fuel + ((renderEmits es' false).length + 1)) + 1) + 1)
                    + 1) + 1) from by
                simp only [List.length_append, List.length_cons,
                  List.length_nil]
                omega]
            rw [shF_step_ansiHex, if_neg (by decide), if_neg (by decide),
              if_neg (by omega), if_pos rfl]
            rw [shF_step_seg, if_neg (by decide), if_neg (by decide),
              if_neg (by decide), if_pos rfl]
            rw [shF_step_dollar, if_pos rfl]
            rw [shF_step_ansi, if_neg hc1, if_neg hc2]
            rw [ihP false fuel rest, emitsBytes_cons]
            cases shF fuel .seg rest <;>
              simp [show emitBytes (UnixEmit.lit c) = utf8EncodeChar c
                from rfl]
          · rw [if_neg hhd]
            rw [show (([] : List Char) ++ c :: renderEmits es' false) ++
                  '\'' :: rest =
                  c :: (renderEmits es' false ++ '\'' :: rest) from by simp]
            rw [show fuel + ((([] : List Char) ++
                  c :: renderEmits es' false).length + 1) =
                  ((fuel + ((renderEmits es' false).length + 1)) + 1) from by
                simp only [List.nil_append, List.length_cons]
                omega]
            rw [shF_step_ansiHex, if_neg hhd, if_neg (by decide),
              if_neg (by omega), if_neg hc1, if_neg hc2]
            rw [ihP false fuel rest, emitsBytes_cons]
            cases shF fuel .seg rest <;>
              simp [show emitBytes (UnixEmit.lit c) = utf8EncodeChar c
                from rfl]
        | hex m =>
          have hm : m < 0x100 := hwfe
          rw [renderEmits_hex]
          rw [show ('\\' :: 'x' :: hexPad 2 m ++ renderEmits es' true) ++
                '\'' :: rest =
                '\\' :: 'x' ::
                  (hexPad 2 m ++ (renderEmits es' true ++ '\'' :: rest))
                from by simp]
          rw [show fuel +
                (('\\' :: 'x' :: hexPad 2 m ++ renderEmits es' true).length
                  + 1) =
                ((((fuel + ((renderEmits es' true).length + 1)) +
                  (hexPad 2 m).length) + 1) + 1) from by
              simp only [List.length_cons, List.length_append]
              omega]
          rw [shF_step_ansiHex, if_neg (by decide), if_neg (by decide),
            if_neg (by omega), if_neg (by decide), if_pos rfl]
          rw [shF_step_ansiEsc, if_neg (by decide), if_neg (by decide),
            if_neg (by decide), if_neg (by decide), if_neg (by decide),
            if_pos rfl]
          rw [shF_hexrun (hexPad 2 m)
            (fun d hd => isHexDigitChar_of_upper d (hexPad_digits 2 m d hd))
            true 0 (fuel + ((renderEmits es' true).length + 1))
            (renderEmits es' true ++ '\'' :: rest)
            (by intro hh
                have := hexPad_two_length m
                rw [hh] at this
                simp at this)]
          rw [show (hexPad 2 m).foldl (fun a d => a * 16 + hexVal d) 0 = m
            from fromHex_hexPad 2 m]
          rw [ihQ m fuel rest hm, emitsBytes_cons]
          cases shF fuel .seg rest <;>
            simp [show emitBytes (UnixEmit.hex m) = [m] from rfl]
        | named s =>
          rcases hwfe with hs | hs | hs | hs | hs <;> subst hs
          · rw [renderEmits_named]
            rw [show (['\\', 'n'] ++ renderEmits es' false) ++ '\'' :: rest =
                  '\\' :: 'n' :: (renderEmits es' false ++ '\'' :: rest)
                from by simp]
            rw [show fuel + (((['\\', 'n'] : List Char) ++
                  renderEmits es' false).length + 1) =
                  (((fuel + ((renderEmits es' false).length + 1)) + 1) + 1)
                from by
                simp only [List.length_append, List.length_cons,
                  List.length_nil]
                omega]
            rw [shF_step_ansiHex, if_neg (by decide), if_neg (by decide),
              if_neg (by omega), if_neg (by decide), if_pos rfl]
            rw [shF_step_ansiEsc, if_pos rfl]
            rw [ihP false fuel rest, emitsBytes_cons]
            cases shF fuel .seg rest <;>
              simp [show emitBytes (UnixEmit.named ['\\', 'n']) = [0x0A]
                from by decide]
          · rw [renderEmits_named]
            rw [show (['\\', 't'] ++ renderEmits es' false) ++ '\'' :: rest =
                  '\\' :: 't' :: (renderEmits es' false ++ '\'' :: rest)
                from by simp]
            rw [show fuel + (((['\\', 't'] : List Char) ++
                  renderEmits es' false).length + 1) =
                  (((fuel + ((renderEmits es' false).length + 1)) + 1) + 1)
                from by
                simp only [List.length_append, List.length_cons,
                  List.length_nil]
                omega]
            rw [shF_step_ansiHex, if_neg (by decide), if_neg (by decide),
              if_neg (by omega), if_neg (by decide), if_pos rfl]
            rw [shF_step_ansiEsc, if_neg (by decide), if_pos rfl]
            rw [ihP false fuel rest, emitsBytes_cons]
            cases shF fuel .seg rest <;>
              simp [show emitBytes (UnixEmit.named ['\\', 't']) = [0x09]
                from by decide]
          · rw [renderEmits_named]
            rw [show (['\\', 'r'] ++ renderEmits es' false) ++ '\'' :: rest =
                  '\\' :: 'r' :: (renderEmits es' false ++ '\'' :: rest)
                from by simp]
            rw [show fuel + (((['\\', 'r'] : List Char) ++
                  renderEmits es' false).length + 1) =
                  (((fuel + ((renderEmits es' false).length + 1)) + 1) + 1)
                from by
                simp only [List.length_append, List.length_cons,
                  List.length_nil]
                omega]
            rw [shF_step_ansiHex, if_neg (by decide), if_neg (by decide),
              if_neg (by omega), if_neg (by decide), if_pos rfl]
            rw [shF_step_ansiEsc, if_neg (by decide), if_neg (by decide),
              if_pos rfl]
            rw [ihP false fuel rest, emitsBytes_cons]
            cases shF fuel .seg rest <;>
              simp [show emitBytes (UnixEmit.named ['\\', 'r']) = [0x0D]
                from by decide]
          · rw [renderEmits_named]
            rw [show (['\\', '\\'] ++ renderEmits es' false) ++ '\'' :: rest =
                  '\\' :: '\\' :: (renderEmits es' false ++ '\'' :: rest)
                from by simp]
            rw [show fuel + (((['\\', '\\'] : List Char) ++
                  renderEmits es' false).length + 1) =
                  (((fuel + ((renderEmits es' false).length + 1)) + 1) + 1)
                from by
                simp only [List.length_append, List.length_cons,
                  List.length_nil]
                omega]
            rw [shF_step_ansiHex, if_neg (by decide), if_neg (by decide),
              if_neg (by omega), if_neg (by decide), if_pos rfl]
            rw [shF_step_ansiEsc, if_neg (by decide), if_neg (by decide),
              if_neg (by decide), if_pos rfl]
            rw [ihP false fuel rest, emitsBytes_cons]
            cases shF fuel .seg rest <;>
              simp [show emitBytes (UnixEmit.named ['\\', '\\']) = [0x5C]
                from by decide]
          · rw [renderEmits_named]
            rw [show (['\\', '\''] ++ renderEmits es' false) ++ '\'' :: rest =
                  '\\' :: '\'' :: (renderEmits es' false ++ '\'' :: rest)
                from by simp]
            rw [show fuel + (((['\\', '\''] : List Char) ++
                  renderEmits es' false).length + 1) =
                  (((fuel + ((renderEmits es' false).length + 1)) + 1) + 1)
                from by
                simp only [List.length_append, List.length_cons,
                  List.length_nil]
                omega]
            rw [shF_step_ansiHex, if_neg (by decide), if_neg (by decide),
              if_neg (by omega), if_neg (by decide), if_pos rfl]
            rw [shF_step_ansiEsc, if_neg (by decide), if_neg (by decide),
              if_neg (by decide), if_neg (by decide), if_pos rfl]
            rw [ihP false fuel rest, emitsBytes_cons]
            cases shF fuel .seg rest <;>
              simp [show emitBytes (UnixEmit.named ['\\', '\'']) = [0x27]
                from by decide]

/-- The simulated POSIX reader recovers the bytes from the ANSI-C escaped
path (the spec-modelled `unix::write_escaped`). -/
theorem shTok_unix_write_escaped (bytes : List Nat)
    (hb : ∀ b ∈ bytes, b < 0x100) :
    shTok (unix_write_escaped bytes) = some bytes := by
  rw [shTok, unix_write_escaped]
  rw [show (('$' :: '\'' ::
        renderEmits (unixEmits bytes.length bytes) false) ++
        ['\'']).length + 1 =
      ((((1 : Nat) +
        ((renderEmits (unixEmits bytes.length bytes) false).length + 1)) + 1)
        + 1) from by
    simp only [List.length_append, List.length_cons, List.length_nil]
    omega]
  rw [show ('$' :: '\'' ::
        renderEmits (unixEmits bytes.length bytes) false) ++ ['\''] =
      '$' :: '\'' ::
        (renderEmits (unixEmits bytes.length bytes) false ++ '\'' :: [])
      from by simp]
  rw [shF_step_seg, if_neg (by decide), if_neg (by decide),
    if_neg (by decide), if_pos rfl]
  rw [shF_step_dollar, if_pos rfl]
  rw [(shF_render (unixEmits bytes.length bytes).length
    (unixEmits bytes.length bytes) (Nat.le_refl _)
    (unixEmits_wf _ _ hb)).1 false 1 []]
  rw [emitsBytes_unixEmits bytes.length bytes (Nat.le_refl _)]
  rw [show shF 1 ShMode.seg [] = some [] from rfl]
  simp

/-! ## Reading back the POSIX quote-splitting -/

theorem utf8Encode_append (a b : List Char) :
    utf8Encode (a ++ b) = utf8Encode a ++ utf8Encode b := by
  simp [utf8Encode]

theorem intercalate_single (sep x : List Char) :
    List.intercalate sep [x] = x := by
  simp [List.intercalate, List.intersperse]

theorem intercalate_cons_two (sep x y : List Char) (L : List (List Char)) :
    List.intercalate sep (x :: y :: L) =
      x ++ sep ++ List.intercalate sep (y :: L) := by
  simp [List.intercalate, List.intersperse]

theorem intercalate_cons_head (sep r : List Char) (c : Char)
    (rs : List (List Char)) :
    List.intercalate sep ((c :: r) :: rs) =
      c :: List.intercalate sep (r :: rs) := by
  cases rs with
  | nil => simp [List.intercalate, List.intersperse]
  | cons y ys => simp [List.intercalate, List.intersperse]

theorem splitQuotes_cons (c : Char) (rest : List Char) :
    splitQuotes (c :: rest) =
      if c = '\'' then [] :: splitQuotes rest
      else
        match splitQuotes rest with
        | r :: rs => (c :: r) :: rs
        | [] => [[c]] := rfl

theorem splitQuotes_ne_nil : ∀ (t : List Char), splitQuotes t ≠ [] := by
  intro t
  induction t with
  | nil => simp [splitQuotes]
  | cons c rest ih =>
    rw [splitQuotes_cons]
    by_cases h : c = '\''
    · simp [h]
    · rw [if_neg h]
      cases hsq : splitQuotes rest with
      | nil => simp
      | cons r rs => simp

theorem splitQuotes_no_quote : ∀ (t : List Char),
    ∀ r ∈ splitQuotes t, '\'' ∉ r := by
  intro t
  induction t with
  | nil =>
    intro r hr
    simp only [splitQuotes, List.mem_singleton] at hr
    subst hr
    simp
  | cons c rest ih =>
    intro r hr
    rw [splitQuotes_cons] at hr
    by_cases h : c = '\''
    · rw [if_pos h] at hr
      rcases List.mem_cons.mp hr with rfl | hr
      · simp
      · exact ih r hr
    · rw [if_neg h] at hr
      cases hsq : splitQuotes rest with
      | nil => exact absurd hsq (splitQuotes_ne_nil rest)
      | cons q qs =>
        rw [hsq] at hr
        rcases List.mem_cons.mp hr with rfl | hr
        · intro hmem
          rcases List.mem_cons.mp hmem with h' | h'
          · exact h h'.symm
          · exact ih q (by rw [hsq]; simp) h'
        · exact ih r (by rw [hsq]; simp [hr])

/-- Rejoining the quote-runs with quotes gives back the original text. -/
theorem splitQuotes_join : ∀ (t : List Char),
    List.intercalate ['\''] (splitQuotes t) = t := by
  intro t
  induction t with
  | nil => decide
  | cons c rest ih =>
    rw [splitQuotes_cons]
    by_cases h : c = '\''
    · rw [if_pos h]
      cases hsq : splitQuotes rest with
      | nil => exact absurd hsq (splitQuotes_ne_nil rest)
      | cons y L =>
        rw [hsq] at ih
        rw [intercalate_cons_two, ih]
        subst h
        simp
    · rw [if_neg h]
      cases hsq : splitQuotes rest with
      | nil => exact absurd hsq (splitQuotes_ne_nil rest)
      | cons r rs =>
        rw [hsq] at ih
        rw [intercalate_cons_head, ih]

/-- One single-quoted run (possibly elided) reads back as its bytes. -/
theorem shF_quoteRun (r : List Char) (hq : '\'' ∉ r) (fuel : Nat)
    (tail : List Char) :
    shF (fuel + (quoteRun r).length) .seg (quoteRun r ++ tail) =
      (shF fuel .seg tail).map (utf8Encode r ++ ·) := by
  cases r with
  | nil =>
    show shF fuel ShMode.seg tail = _
    cases shF fuel .seg tail <;> rfl
  | cons a r' =>
    rw [show quoteRun (a :: r') = ('\'' :: (a :: r')) ++ ['\''] from by
      rw [quoteRun, if_neg (by simp)]]
    rw [show (('\'' :: (a :: r')) ++ ['\'']) ++ tail
          = '\'' :: ((a :: r') ++ '\'' :: tail) from by simp]
    rw [show fuel + (('\'' :: (a :: r')) ++ ['\'']).length
          = ((fuel + ((a :: r').length + 1)) + 1) from by
        simp only [List.length_append, List.length_cons, List.length_nil]
        omega]
    rw [shF_step_seg, if_pos rfl]
    exact shF_sq_run (a :: r') (fun x hx hx' => hq (hx' ▸ hx)) fuel tail

/-- The `'\''` separator between runs reads back as one quote byte. -/
theorem shF_sepStep (fuel : Nat) (tail : List Char) :
    shF (fuel + 2) .seg ('\\' :: '\'' :: tail) =
      (shF fuel .seg tail).map ([0x27] ++ ·) := by
  rw [show fuel + 2 = (fuel + 1) + 1 from rfl]
  rw [shF_step_seg, if_neg (by decide), if_neg (by decide), if_pos rfl]
  rw [shF_step_segEsc]
  rw [show utf8EncodeChar '\'' = [0x27] from by decide]

/-- The whole quote-split form reads back as the bytes of the rejoined
runs, continuing into the rest of the token. -/
theorem shF_quoteSplit : ∀ (runs : List (List Char)),
    (∀ r ∈ runs, '\'' ∉ r) → ∀ (fuel : Nat) (rest : List Char),
    shF (fuel + (List.intercalate ['\\', '\''] (runs.map quoteRun)).length)
      .seg (List.intercalate ['\\', '\''] (runs.map quoteRun) ++ rest) =
      (shF fuel .seg rest).map
        (utf8Encode (List.intercalate ['\''] runs) ++ ·) := by
  intro runs
  induction runs with
  | nil =>
    intro _ fuel rest
    show shF fuel ShMode.seg rest = _
    cases shF fuel .seg rest <;> rfl
  | cons r runs' ih =>
    intro h fuel rest
    cases runs' with
    | nil =>
      rw [List.map_cons, List.map_nil, intercalate_single,
        intercalate_single]
      exact shF_quoteRun r (h r (by simp)) fuel rest
    | cons r2 runs'' =>
      rw [List.map_cons, List.map_cons, intercalate_cons_two,
        ← List.map_cons]
      rw [show ((quoteRun r ++ ['\\', '\'']) ++
            List.intercalate ['\\', '\'']
              (List.map quoteRun (r2 :: runs''))) ++ rest =
          quoteRun r ++ ('\\' :: '\'' ::
            (List.intercalate ['\\', '\'']
              (List.map quoteRun (r2 :: runs'')) ++ rest)) from by simp]
      rw [show fuel + ((quoteRun r ++ ['\\', '\'']) ++
            List.intercalate ['\\', '\'']
              (List.map quoteRun (r2 :: runs''))).length =
          (((fuel + (List.intercalate ['\\', '\'']
              (List.map quoteRun (r2 :: runs''))).length) + 2) +
            (quoteRun r).length) from by
        simp only [List.length_append, List.length_cons, List.length_nil]
        omega]
      rw [shF_quoteRun r (h r (by simp))]
      rw [shF_sepStep]
      rw [ih (fun x hx => h x (by simp [hx])) fuel rest]
      rw [intercalate_cons_two]
      cases shF fuel .seg rest <;>
        simp [utf8Encode_append, utf8Encode_cons,
          show utf8EncodeChar '\'' = [0x27] from by decide,
          show utf8Encode ['\''] = [0x27] from by decide]

/-- The simulated POSIX reader recovers the text bytes from the
quote-splitting form. -/
theorem shTok_quoteSplit (text : List Char) :
    shTok (unixQuoteSplit text) = some (utf8Encode text) := by
  have h1 := shF_quoteSplit (splitQuotes text) (splitQuotes_no_quote text)
    1 []
  rw [List.append_nil] at h1
  rw [splitQuotes_join] at h1
  rw [shTok, unixQuoteSplit]
  rw [show (List.intercalate ['\\', '\'']
        ((splitQuotes text).map quoteRun)).length + 1 =
      1 + (List.intercalate ['\\', '\'']
        ((splitQuotes text).map quoteRun)).length from by omega]
  rw [h1]
  rw [show shF 1 ShMode.seg [] = some [] from rfl]
  simp

/-! ## The unquoted and simply-quoted POSIX branches read back -/

theorem unixSpecial_nonascii (c : Char) (h : 128 ≤ c.toNat) :
    UNIX_SPECIAL_SHELL_CHARS.contains c = false := by
  by_cases hmem : UNIX_SPECIAL_SHELL_CHARS.contains c = true
  · exfalso
    have hm : c ∈ UNIX_SPECIAL_SHELL_CHARS := List.mem_of_elem_eq_true hmem
    simp only [UNIX_SPECIAL_SHELL_CHARS] at hm
    fin_cases hm <;> simp at h
  · cases hx : UNIX_SPECIAL_SHELL_CHARS.contains c with
    | false => rfl
    | true => exact absurd hx hmem

/-- Characters the POSIX scan does not flag are bare-safe for the simulated
POSIX reader. -/
theorem shBareSafe_of_unflagged (c : Char) (h1 : unixScanSpecial c = false)
    (h2 : escapeTrigger c = false) : shBareSafe c = true := by
  rw [shBareSafe]
  by_cases hc : c.toNat < 128
  · rw [unixScanSpecial, if_pos hc] at h1
    rw [escapeTrigger, if_pos hc] at h2
    have hsp : c.toNat ≠ 0x20 := by
      intro h20
      have hce : c = ' ' := by
        rw [char_eq_iff]
        rw [h20]
        decide
      rw [hce] at h1
      exact absurd h1 (by decide)
    have hws : unixIsWhitespaceNonAscii c = false := by
      rw [unixIsWhitespaceNonAscii, unicode.is_separator]
      simp only [Bool.or_eq_false_iff, beq_eq_false_iff_ne, ne_eq,
        Bool.and_eq_false_iff, decide_eq_false_iff_not, not_le]
      omega
    have hre : requires_escape c = false := by
      simp only [Bool.or_eq_false_iff, decide_eq_false_iff_not,
        beq_eq_false_iff_ne, ne_eq] at h2
      rw [requires_escape]
      simp only [Bool.or_eq_false_iff, beq_eq_false_iff_ne, ne_eq,
        Bool.and_eq_false_iff, decide_eq_false_iff_not, not_le]
      omega
    rw [h1, hws, h2, hre]
    rfl
  · rw [unixScanSpecial, if_neg hc] at h1
    rw [escapeTrigger, if_neg hc] at h2
    have hctrl : (c.toNat < 0x20 || c.toNat == 0x7F) = false := by
      simp only [Bool.or_eq_false_iff, beq_eq_false_iff_ne, ne_eq,
        decide_eq_false_iff_not, not_lt]
      omega
    rw [unixSpecial_nonascii c (by omega), h1, h2, hctrl]
    rfl

theorem unixDouble_safe_chars (c : Char) (h : unixDoubleBreak c = false) :
    c ≠ '"' ∧ c ≠ '`' ∧ c ≠ '$' ∧ c ≠ '\\' := by
  rw [unixDoubleBreak] at h
  by_cases hc : c.toNat < 128
  · rw [if_pos hc] at h
    have hne : ∀ x ∈ UNIX_DOUBLE_UNSAFE, c ≠ x := by
      intro x hx hcx
      subst hcx
      have h3 : UNIX_DOUBLE_UNSAFE.contains c = true :=
        List.elem_eq_true_of_mem hx
      rw [h3] at h
      simp at h
    exact ⟨hne '"' (by decide), hne '`' (by decide), hne '$' (by decide),
      hne '\\' (by decide)⟩
  · refine ⟨?_, ?_, ?_, ?_⟩ <;> intro h' <;> subst h' <;>
      exact hc (by decide)

/-- The simulated POSIX reader recovers the bytes from every output of the
spec-modelled `unix::write`. -/
theorem shTok_unixWrite (text : List Char) (force : Bool) :
    shTok (unixWrite text force) = some (utf8Encode text) := by
  rw [unixWrite, unixWriteWith_eq]
  by_cases h1 : text.any escapeTrigger = true
  · rw [if_pos h1]
    exact shTok_unix_write_escaped _ (utf8Encode_lt text)
  rw [if_neg h1]
  have h1f : text.any escapeTrigger = false := by
    cases hx : text.any escapeTrigger with
    | false => rfl
    | true => exact absurd hx h1
  by_cases h2 : (text.any is_bidi && is_suspicious_bidi text) = true
  · rw [if_pos h2]
    exact shTok_unix_write_escaped _ (utf8Encode_lt text)
  rw [if_neg h2]
  by_cases h3 : (!((if force then true else unixStartQuote text) ||
      text.any unixScanSpecial)) = true
  · rw [if_pos h3]
    have hta : ∀ c ∈ text, shBareSafe c = true := by
      simp only [Bool.not_eq_true', Bool.or_eq_false_iff] at h3
      intro c hcm
      apply shBareSafe_of_unflagged c
      · cases hv : unixScanSpecial c with
        | false => rfl
        | true => exact absurd hv (List.any_eq_false.mp h3.2 c hcm)
      · cases hv : escapeTrigger c with
        | false => rfl
        | true => exact absurd hv (List.any_eq_false.mp h1f c hcm)
    rw [shTok]
    exact shF_bare text hta
  rw [if_neg h3]
  by_cases h4 : (!text.any fun c => decide (c = '\'')) = true
  · rw [if_pos h4]
    have hq : ∀ c ∈ text, c ≠ '\'' := by
      simp only [Bool.not_eq_true'] at h4
      intro c hcm hce
      have := List.any_eq_false.mp h4 c hcm
      simp [hce] at this
    rw [write_simple, shTok]
    rw [show (('\'' :: text) ++ ['\'']).length + 1 =
        ((1 + (text.length + 1)) + 1) from by
      simp only [List.length_append, List.length_cons, List.length_nil]
      omega]
    rw [show ('\'' :: text) ++ ['\''] = '\'' :: (text ++ '\'' :: [])
      from by simp]
    rw [shF_step_seg, if_pos rfl]
    rw [shF_sq_run text hq 1 []]
    rw [show shF 1 ShMode.seg [] = some [] from rfl]
    simp
  rw [if_neg h4]
  by_cases h5 : (!text.any unixDoubleBreak) = true
  · rw [if_pos h5]
    have hd : ∀ c ∈ text, c ≠ '"' ∧ c ≠ '`' ∧ c ≠ '$' ∧ c ≠ '\\' := by
      simp only [Bool.not_eq_true'] at h5
      intro c hcm
      apply unixDouble_safe_chars
      cases hv : unixDoubleBreak c with
      | false => rfl
      | true => exact absurd hv (List.any_eq_false.mp h5 c hcm)
    rw [write_simple, shTok]
    rw [show (('"' :: text) ++ ['"']).length + 1 =
        ((1 + (text.length + 1)) + 1) from by
      simp only [List.length_append, List.length_cons, List.length_nil]
      omega]
    rw [show ('"' :: text) ++ ['"'] = '"' :: (text ++ '"' :: [])
      from by simp]
    rw [shF_step_seg, if_neg (by decide), if_pos rfl]
    rw [shF_dq_run text hd 1 []]
    rw [show shF 1 ShMode.seg [] = some [] from rfl]
    simp
  · rw [if_neg h5]
    exact shTok_quoteSplit text

/-- The simulated POSIX reader recovers the original bytes from the
formatting of a raw byte buffer. -/
theorem shTok_unixRaw (bytes : List Nat) (force : Bool)
    (hb : ∀ b ∈ bytes, b < 0x100) :
    shTok (quotedFmt (.unixRaw bytes) force) = some bytes := by
  rw [quotedFmt]
  cases hdec : utf8Decode bytes with
  | some text =>
    rw [shTok_unixWrite text force, utf8Encode_decode bytes text hdec]
  | none => exact shTok_unix_write_escaped bytes hb

/-! ## The claims -/

/-- C3: for every input text containing at least one ASCII control
character, `windows::write` takes the escaped-literal path regardless of
any other classification, producing output wrapped in double quotes, in
which NUL is emitted as `` `0 ``, CR as `` `r ``, LF as `` `n ``, TAB as
`` `t ``, BEL as `` `a ``, BS as `` `b ``, VT as `` `v `` and FF as
`` `f ``. -/
theorem powershell_control_fallback (text : List Char) (force : Bool)
    (h : text.any (fun c => c.toNat < 0x20 || c.toNat == 0x7F) = true) :
    write text force = write_escaped (text.map Sum.inl) ∧
    (write text force).head? = some '"' ∧
    (write text force).getLast? = some '"' ∧
    escapeChar '\x00' = ['`', '0'] ∧
    escapeChar '\x0D' = ['`', 'r'] ∧
    escapeChar '\x0A' = ['`', 'n'] ∧
    escapeChar '\x09' = ['`', 't'] ∧
    escapeChar '\x07' = ['`', 'a'] ∧
    escapeChar '\x08' = ['`', 'b'] ∧
    escapeChar '\x0B' = ['`', 'v'] ∧
    escapeChar '\x0C' = ['`', 'f'] := by
  have htrig : text.any escapeTrigger = true := by
    simp only [List.any_eq_true] at h ⊢
    obtain ⟨c, hc, hcc⟩ := h
    exact ⟨c, hc, escapeTrigger_of_control c hcc⟩
  have hw : write text force = write_escaped (text.map Sum.inl) := by
    rw [write, writeWith_eq, if_pos htrig]
  refine ⟨hw, ?_, ?_, by decide, by decide, by decide, by decide, by decide,
    by decide, by decide, by decide⟩
  · rw [hw]; exact write_escaped_head _
  · rw [hw]; exact write_escaped_getLast _

/-- C3 witness: the input `"a\x01"` contains the control character U+0001,
so it is routed to the escaped path and comes out double-quoted. -/
theorem powershell_control_fallback_witness :
    (['a', '\x01'].any (fun c => c.toNat < 0x20 || c.toNat == 0x7F) = true) ∧
    write ['a', '\x01'] false = write_escaped ([ 'a', '\x01'].map Sum.inl) ∧
    write ['a', '\x01'] false = "\"a`u{01}\"".toList :=
  ⟨by decide,
   (powershell_control_fallback ['a', '\x01'] false (by decide)).1,
   by decide⟩

/-- C5: with `forceQuote=false` the lone string `-` is emitted unquoted,
while any string whose first character is dash-like (ASCII `-` or one of
the Unicode dashes) and that has more than one character is quoted (its
output starts with a quote delimiter). -/
theorem powershell_dash_sniffing (c : Char) (cs : List Char)
    (hdash : unicode.is_dash c = true) (hne : cs ≠ []) :
    write ['-'] false = ['-'] ∧
    ((write (c :: cs) false).head? = some '\'' ∨
     (write (c :: cs) false).head? = some '"') := by
  refine ⟨by decide, ?_⟩
  obtain ⟨d, ds, rfl⟩ : ∃ d ds, cs = d :: ds := by
    cases cs with
    | nil => exact absurd rfl hne
    | cons d ds => exact ⟨d, ds, rfl⟩
  have hsq := startQuote_dash c d ds hdash
  rw [write, writeWith_eq]
  by_cases h1 : (c :: d :: ds).any escapeTrigger
  · simp only [h1, if_true]
    exact Or.inr (write_escaped_head _)
  · simp only [h1, if_false, Bool.not_eq_true]
    by_cases h2 : ((c :: d :: ds).any is_bidi && is_suspicious_bidi (c :: d :: ds)) = true
    · simp only [h2, if_true]
      exact Or.inr (write_escaped_head _)
    · simp only [h2, if_false, hsq, Bool.true_or, Bool.not_true,
        Bool.false_eq_true, if_false, Bool.not_eq_true]
      by_cases h3 : (c :: d :: ds).any unicode.is_single_quote
      · simp only [h3, Bool.not_true, Bool.false_eq_true, if_false]
        by_cases h4 : (c :: d :: ds).any doubleQuoteBreak
        · simp only [h4, Bool.not_true, Bool.false_eq_true, if_false]
          exact Or.inl rfl
        · simp only [h4, Bool.not_false, if_true]
          exact Or.inr rfl
      · simp only [h3, Bool.not_false, if_true]
        exact Or.inl rfl

/-- C5 witness: `-x` is dash-led with more than one character and indeed
formats as `'-x'`. -/
theorem powershell_dash_sniffing_witness :
    (unicode.is_dash '-' = true) ∧ (['x'] ≠ ([] : List Char)) ∧
    (write ['-'] false = ['-'] ∧
      ((write ['-', 'x'] false).head? = some '\'' ∨
       (write ['-', 'x'] false).head? = some '"')) ∧
    write ['-', 'x'] false = "'-x'".toList :=
  ⟨by decide, by decide,
   powershell_dash_sniffing '-' ['x'] (by decide) (by decide),
   by decide⟩

/-- C7: the suspicious-bidi check influences the result only when some
bidi-control character was seen during the scan (with no bidi control the
output is the same for every choice of the predicate), and an input that
contains a bidi control and is classified suspicious is routed to the
escaped-literal path for both values of `force_quote`, overriding all
prior strategy decisions. -/
theorem powershell_bidi_routing (text : List Char) :
    (text.any is_bidi = false →
      ∀ (p q : List Char → Bool) (force : Bool),
        writeWith p text force = writeWith q text force) ∧
    (text.any is_bidi = true → is_suspicious_bidi text = true →
      ∀ force : Bool, write text force = write_escaped (text.map Sum.inl)) := by
  constructor
  · intro hb p q force
    rw [writeWith_eq, writeWith_eq, hb]
    simp
  · intro hb hsus force
    rw [write, writeWith_eq, hb, hsus]
    by_cases h1 : text.any escapeTrigger <;> simp [h1]

/-- C7 witness: U+202E (RLO) followed by `a` is an unterminated override;
it contains a bidi control, is suspicious, and is emitted escaped even with
`force_quote=false`. -/
theorem powershell_bidi_routing_witness :
    (['‮', 'a'].any is_bidi = true) ∧
    (is_suspicious_bidi ['‮', 'a'] = true) ∧
    write ['‮', 'a'] false = write_escaped (['‮', 'a'].map Sum.inl) ∧
    write ['‮', 'a'] false = "\"`u\x7b202E\x7da\"".toList :=
  ⟨by decide, by decide,
   (powershell_bidi_routing ['‮', 'a']).2 (by decide) (by decide) false,
   by decide⟩

/-- C8: the empty source with `forceQuote=false` formats as exactly two
single-quote characters under both the POSIX and the PowerShell dialect. -/
theorem empty_always_quoted :
    write [] false = ['\'', '\''] ∧ unixWrite [] false = ['\'', '\''] := by
  decide

/-- C9 counterexample: the empty source contains no character flagged by
any rule, yet with `forceQuote=false` both encoders emit `''`, not the
(empty) source — the claim needs the source to be nonempty. -/
theorem identity_counterexample_empty :
    write [] false ≠ [] ∧ unixWrite [] false ≠ [] := by
  decide

/-- C9 (amended: nonempty source): if `forceQuote=false`, the source is
nonempty, no leading-character rule fires, and no character is flagged by
the escape triggers, the special-character sets, the whitespace rules, the
confusable-quote sets or the bidi-control set, then both encoders emit the
source unmodified. -/
theorem identity_on_unremarkable (text : List Char) (hne : text ≠ [])
    (hstart : startQuote text = false)
    (hustart : unixStartQuote text = false)
    (h1 : text.any escapeTrigger = false)
    (h2 : text.any scanSpecial = false)
    (h3 : text.any unixScanSpecial = false)
    (h4 : text.any is_bidi = false) :
    write text false = text ∧ unixWrite text false = text := by
  constructor
  · rw [write, writeWith_eq, h1, hstart, h2, h4]
    simp
  · rw [unixWrite, unixWriteWith_eq, h1, hustart, h3, h4]
    simp

/-- C9 witness: `foo` is unremarkable and formats as itself under both
dialects with `forceQuote=false`. -/
theorem identity_on_unremarkable_witness :
    (("foo".toList ≠ ([] : List Char)) ∧
     startQuote "foo".toList = false ∧
     unixStartQuote "foo".toList = false ∧
     "foo".toList.any escapeTrigger = false ∧
     "foo".toList.any scanSpecial = false ∧
     "foo".toList.any unixScanSpecial = false ∧
     "foo".toList.any is_bidi = false) ∧
    (write "foo".toList false = "foo".toList ∧
     unixWrite "foo".toList false = "foo".toList) :=
  ⟨⟨by decide, by decide, by decide, by decide, by decide, by decide,
    by decide⟩,
   identity_on_unremarkable "foo".toList (by decide) (by decide) (by decide)
     (by decide) (by decide) (by decide) (by decide)⟩

/-- C10: the PowerShell escaped-literal emitter takes no `force_quote`
parameter at all, and its output begins and ends with a double quote for
every input sequence; every route into it — an escape trigger in the text
(ASCII control or `requiresEscape`), bidi suspicion, or an unpaired
surrogate in a raw UTF-16 buffer — produces that double-quoted output for
both values of `force_quote`. -/
theorem escaped_literal_double_quoted :
    (∀ s : List (Char ⊕ Nat),
      (write_escaped s).head? = some '"' ∧
      (write_escaped s).getLast? = some '"') ∧
    (∀ (text : List Char) (force : Bool), text.any escapeTrigger = true →
      write text force = write_escaped (text.map Sum.inl)) ∧
    (∀ (text : List Char) (force : Bool),
      text.any is_bidi = true → is_suspicious_bidi text = true →
      write text force = write_escaped (text.map Sum.inl)) ∧
    (∀ (units : List Nat) (force : Bool), fromUtf16 units = none →
      quotedFmt (.windowsRaw units) force = write_escaped (decodeUtf16 units)) := by
  refine ⟨fun s => ⟨write_escaped_head s, write_escaped_getLast s⟩,
    fun text force h => ?_, fun text force hb hsus => ?_,
    fun units force h => ?_⟩
  · rw [write, writeWith_eq, if_pos h]
  · rw [write, writeWith_eq, hb, hsus]
    by_cases h1 : text.any escapeTrigger <;> simp [h1]
  · simp only [quotedFmt, h]

/-- C10 witness: `"\x01"` (escape trigger) and the lone high surrogate
`0xD800` (invalid UTF-16) both land in `write_escaped`, with `force_quote`
set to `false`, and the output is double-quoted. -/
theorem escaped_literal_double_quoted_witness :
    (['\x01'].any escapeTrigger = true) ∧
    write ['\x01'] false = write_escaped (['\x01'].map Sum.inl) ∧
    (write ['\x01'] false).head? = some '"' ∧
    (write ['\x01'] false).getLast? = some '"' ∧
    (fromUtf16 [0xD800] = none) ∧
    quotedFmt (.windowsRaw [0xD800]) false = write_escaped (decodeUtf16 [0xD800]) ∧
    quotedFmt (.windowsRaw [0xD800]) false = "\"`u{D800}\"".toList :=
  ⟨by decide,
   escaped_literal_double_quoted.2.1 ['\x01'] false (by decide),
   by decide, by decide, by decide,
   escaped_literal_double_quoted.2.2.2 [0xD800] false (by decide),
   by decide⟩

/-- C4: invalid encoding in a raw source is never a propagated error — the
dispatch in `Quoted::fmt` is total: a raw byte buffer that is valid UTF-8
(in particular any encoded string) is routed to the plain POSIX encoder
with the caller's `force_quote`; an invalid one goes to the POSIX
escaped-literal path; a raw UTF-16 buffer that decodes (in particular any
encoded string) is routed to the plain PowerShell encoder with the caller's
`force_quote`; one with an unpaired surrogate goes to the PowerShell
escaped-literal path. -/
theorem raw_source_routing :
    (∀ (s : List Char) (force : Bool),
      utf8Decode (utf8Encode s) = some s ∧
      quotedFmt (.unixRaw (utf8Encode s)) force = unixWrite s force) ∧
    (∀ (bytes : List Nat) (force : Bool), utf8Decode bytes = none →
      quotedFmt (.unixRaw bytes) force = unix_write_escaped bytes) ∧
    (∀ (t : List Char) (force : Bool),
      fromUtf16 (utf16Encode t) = some t ∧
      quotedFmt (.windowsRaw (utf16Encode t)) force = write t force) ∧
    (∀ (units : List Nat) (force : Bool), fromUtf16 units = none →
      quotedFmt (.windowsRaw units) force = write_escaped (decodeUtf16 units)) := by
  refine ⟨fun s force => ⟨utf8Decode_encode s, ?_⟩,
    fun bytes force h => ?_, fun t force => ⟨fromUtf16_encode t, ?_⟩,
    fun units force h => ?_⟩
  · simp only [quotedFmt, utf8Decode_encode s]
  · simp only [quotedFmt, h]
  · simp only [quotedFmt, fromUtf16_encode t]
  · simp only [quotedFmt, h]

/-- C4 witness: the invalid byte `0xFF` and the lone surrogate `0xD800` go
to the escaped paths; the encodings of `hi` go to the plain encoders. -/
theorem raw_source_routing_witness :
    (utf8Decode [0xFF] = none) ∧
    quotedFmt (.unixRaw [0xFF]) false = unix_write_escaped [0xFF] ∧
    (fromUtf16 [0xD800] = none) ∧
    quotedFmt (.windowsRaw [0xD800]) true = write_escaped (decodeUtf16 [0xD800]) ∧
    quotedFmt (.unixRaw (utf8Encode "hi".toList)) false
      = unixWrite "hi".toList false ∧
    quotedFmt (.windowsRaw (utf16Encode "hi".toList)) false
      = write "hi".toList false ∧
    quotedFmt (.unixRaw [0xFF]) false = "$'\\xFF'".toList :=
  ⟨by decide,
   raw_source_routing.2.1 [0xFF] false (by decide),
   by decide,
   raw_source_routing.2.2.2 [0xD800] true (by decide),
   (raw_source_routing.1 "hi".toList false).2,
   (raw_source_routing.2.2.1 "hi".toList false).2,
   by decide⟩

/-- C6 counterexample: the claim says a flagged character is emitted as
`` `u{XX} `` "with no leading zeros beyond what the value needs", in
particular that U+0002 gets exactly the digits its value needs (one digit,
`2`) — but the source formats with `{:02X}`, so U+0002 is emitted as
`` `u{02} `` with a padding zero, not `` `u{2} `` (the repository's own
test expects `"foo`u{02}"`). -/
theorem u_escape_counterexample :
    escapeChar '\x02' = "`u{02}".toList ∧
    escapeChar '\x02' ≠ "`u{2}".toList ∧
    write ['\x02'] true = "\"`u{02}\"".toList := by
  decide

/-- C6 (amended: minimum two digits): in the escaped-literal path, every
character flagged `requires_escape` or `is_bidi` outside the named
control-escape set is emitted as `` `u{XX} `` where the digits are the
character's code point in uppercase hexadecimal, zero-padded to a minimum
of two digits and with no leading zeros beyond that two-digit minimum. -/
theorem u_escape_two_digit_min (c : Char)
    (hnamed : c ∉ (['\x00', '\x0D', '\x0A', '\x09', '\x07', '\x08', '\x0B',
                    '\x0C'] : List Char))
    (hflag : (requires_escape c || is_bidi c) = true) :
    escapeChar c = ['`', 'u', '{'] ++ hexPad 2 c.toNat ++ ['}'] ∧
    (∀ d ∈ hexPad 2 c.toNat, isUpperHexDigit d = true) ∧
    fromHex (hexPad 2 c.toNat) = c.toNat ∧
    2 ≤ (hexPad 2 c.toNat).length ∧
    (0x10 ≤ c.toNat → hexPad 2 c.toNat = toHex c.toNat ∧
      (toHex c.toNat).head? ≠ some '0') := by
  simp only [List.mem_cons, List.not_mem_nil, or_false, not_or] at hnamed
  obtain ⟨h0, hr, hn, ht, ha, hb, hv, hf⟩ := hnamed
  refine ⟨?_, hexPad_digits 2 _, fromHex_hexPad 2 _, hexPad_two_length _,
    fun h => ⟨hexPad_two_of_ge _ h, toHex_head_ne_zero _ (by omega)⟩⟩
  simp [escapeChar, h0, hr, hn, ht, ha, hb, hv, hf, hflag]

/-- C6 witness: U+202E (bidi-flagged, above 0x10) is emitted as
`` `u{202E} ``: uppercase, unpadded, no leading zero. -/
theorem u_escape_two_digit_min_witness :
    ('‮' ∉ (['\x00', '\x0D', '\x0A', '\x09', '\x07', '\x08', '\x0B',
             '\x0C'] : List Char)) ∧
    ((requires_escape '‮' || is_bidi '‮') = true) ∧
    (escapeChar '‮' = ['`', 'u', '{'] ++ hexPad 2 '‮'.toNat ++ ['}'] ∧
     (∀ d ∈ hexPad 2 '‮'.toNat, isUpperHexDigit d = true) ∧
     fromHex (hexPad 2 '‮'.toNat) = '‮'.toNat ∧
     2 ≤ (hexPad 2 '‮'.toNat).length ∧
     (0x10 ≤ '‮'.toNat → hexPad 2 '‮'.toNat = toHex '‮'.toNat ∧
       (toHex '‮'.toNat).head? ≠ some '0')) ∧
    escapeChar '‮' = "`u\x7b202E\x7d".toList :=
  ⟨by decide, by decide,
   u_escape_two_digit_min '‮' (by decide) (by decide),
   by decide⟩

/-- C2: when quoting is required and neither the single-quote-safe nor the
double-quote-safe form applies (and no condition routes to the escaped
path), `windows::write` emits via quote-doubling,
`write_single_escaped` — wrapped in single quotes with an extra quote
inserted immediately before every literal or confusable single quote. -/
theorem powershell_quote_doubling (text : List Char) (force : Bool)
    (htrig : text.any escapeTrigger = false)
    (hbidi : (text.any is_bidi && is_suspicious_bidi text) = false)
    (hrq : ((if force then true else startQuote text) ||
            text.any scanSpecial) = true)
    (hsq : text.any unicode.is_single_quote = true)
    (hdq : text.any doubleQuoteBreak = true) :
    write text force = write_single_escaped text := by
  rw [write, writeWith_eq, htrig, hbidi, hrq, hsq, hdq]
  simp

/-- C2 witness: `can'"t` with `forceQuote=true` is quote-unsafe both ways
and formats as `'can''"t'` (one extra `'` inserted before the quote). -/
theorem powershell_quote_doubling_witness :
    ("can'\"t".toList.any escapeTrigger = false) ∧
    (("can'\"t".toList.any is_bidi && is_suspicious_bidi "can'\"t".toList) = false) ∧
    (((if true then true else startQuote "can'\"t".toList) ||
      "can'\"t".toList.any scanSpecial) = true) ∧
    ("can'\"t".toList.any unicode.is_single_quote = true) ∧
    ("can'\"t".toList.any doubleQuoteBreak = true) ∧
    write "can'\"t".toList true = write_single_escaped "can'\"t".toList ∧
    write "can'\"t".toList true = "'can''\"t'".toList :=
  ⟨by decide, by decide, by decide, by decide, by decide,
   powershell_quote_doubling "can'\"t".toList true (by decide) (by decide)
     (by decide) (by decide) (by decide),
   by decide⟩

/-- C1: round-trip safety. For every source and both values of
`forceQuote`, handing the formatted output as one token to the simulated
shell of the matching dialect reproduces the original source exactly: a
PowerShell text source comes back as its UTF-16 code units, a raw UTF-16
source comes back as exactly its units (unpaired surrogates included), a
POSIX text source comes back as its UTF-8 bytes, and a raw byte source
comes back as exactly its bytes. -/
theorem roundtrip_safety :
    (∀ (text : List Char) (force : Bool),
      ∃ v, psToken (quotedFmt (.windows text) force) = some v ∧
        mixedUtf16 v = utf16Encode text) ∧
    (∀ (units : List Nat) (force : Bool), (∀ u ∈ units, u < 0x10000) →
      ∃ v, psToken (quotedFmt (.windowsRaw units) force) = some v ∧
        mixedUtf16 v = units) ∧
    (∀ (text : List Char) (force : Bool),
      shTok (quotedFmt (.unix text) force) = some (utf8Encode text)) ∧
    (∀ (bytes : List Nat) (force : Bool), (∀ b ∈ bytes, b < 0x100) →
      shTok (quotedFmt (.unixRaw bytes) force) = some bytes) := by
  refine ⟨?_, ?_, ?_, ?_⟩
  · intro text force
    exact ⟨text.map Sum.inl, psToken_write text force,
      mixedUtf16_map_inl text⟩
  · exact fun units force hu => psToken_windowsRaw units force hu
  · intro text force
    exact shTok_unixWrite text force
  · exact fun bytes force hb => shTok_unixRaw bytes force hb

/-- C1 witness: the four round trips at concrete inputs — the PowerShell
text `-x`, a raw UTF-16 buffer with an unpaired surrogate, the POSIX text
`can't`, and a raw byte buffer with an invalid UTF-8 byte. -/
theorem roundtrip_safety_witness :
    (∃ v, psToken (quotedFmt (.windows "-x".toList) false) = some v ∧
      mixedUtf16 v = utf16Encode "-x".toList) ∧
    ((∀ u ∈ [0x78, 0xD800], u < 0x10000) ∧
      ∃ v, psToken (quotedFmt (.windowsRaw [0x78, 0xD800]) false) = some v ∧
        mixedUtf16 v = [0x78, 0xD800]) ∧
    shTok (quotedFmt (.unix "can't".toList) true) =
      some (utf8Encode "can't".toList) ∧
    ((∀ b ∈ [0x66, 0xFF, 0x62], b < 0x100) ∧
      shTok (quotedFmt (.unixRaw [0x66, 0xFF, 0x62]) false) =
        some [0x66, 0xFF, 0x62]) :=
  ⟨roundtrip_safety.1 "-x".toList false,
   ⟨by decide, roundtrip_safety.2.1 [0x78, 0xD800] false (by decide)⟩,
   roundtrip_safety.2.2.1 "can't".toList true,
   ⟨by decide, roundtrip_safety.2.2.2 [0x66, 0xFF, 0x62] false (by decide)⟩⟩

end OsDisplay
